import Mathlib

/-!
# TGUI `MenuBar`: a shallow embedding of the interaction state machine

Source: `src/TGUI/Widgets/MenuBar.cpp`, `include/TGUI/Widgets/MenuBar.hpp`,
`src/TGUI/Widget.cpp`.

Modelling conventions.

* A finite C++ `float` is the rational number (`ℚ`) it denotes.  Every `float`
  operation of the source is the exact operation followed by `f32`, the
  rounding to the nearest IEEE-754 binary32 value (ties to even, subnormal
  values included), in the order in which the source evaluates it and without
  excess precision (`FLT_EVAL_METHOD` 0).  Values of magnitude `2 ^ 128` and
  more (the infinities of C++) and NaN are outside the model: operands are
  finite and results are taken not to overflow.
* `int` / `unsigned int` values are `Int` / `Nat`.  A conversion from `float`
  is checked against the range of the target type; sizes and loop indices are
  assumed to fit in 31 bits, so `static_cast<int>(i)` of a loop index is the
  identity.
* An operation whose C++ behaviour is undefined (indexing a `std::vector` out
  of range, converting a float whose truncation the target integer type
  cannot hold, dividing by a zero height) yields `none`.  All other results
  are `some`.
* Text measurement (`Text::getSize().x`) and `findBestTextSize` belong to the
  rendering library; they are parameters, collected in `Env`.
* `sendSignal` appends to the trace `MenuBar.signals` (oldest first).
-/

namespace TGUI

/-! ## Data model -/

/-- A `tgui::Color`: an RGBA value together with the flag `isSet`. -/
structure Color where
  isSet : Bool
  r : Nat
  g : Nat
  b : Nat
  a : Nat
deriving DecidableEq, Repr

/-- The colour `sf::Color::White`. -/
def Color.White : Color := ⟨true, 255, 255, 255, 255⟩

/-- The colour `sf::Color::Black`. -/
def Color.Black : Color := ⟨true, 0, 0, 0, 255⟩

/-- A `tgui::Text`: the attributes that `MenuBar` sets on it. -/
structure Text where
  string : String
  color : Color
  opacity : ℚ
  font : Nat
  characterSize : Nat
deriving DecidableEq

/-- The external collaborators of the widget: the rendering library. -/
structure Env where
  /-- Width of a string rendered with a font handle at a character size. -/
  measure : Nat → Nat → String → ℚ
  /-- The function `findBestTextSize(font, height)`. -/
  findBestTextSize : Nat → ℚ → Nat

/-- The value `text.getSize().x`. -/
def Text.getSizeX (env : Env) (t : Text) : ℚ :=
  env.measure t.font t.characterSize t.string

/-- The call `text.setColor(c)`. -/
def Text.setColor (t : Text) (c : Color) : Text := { t with color := c }

/-- The struct `MenuBar::Menu` of `MenuBar.hpp`. -/
structure Menu where
  text : Text
  menuItems : List Text
  selectedMenuItem : Int := -1
deriving DecidableEq

/-- The members of `m_callback` that `MenuBar` writes. -/
structure Callback where
  index : Int
  text : String
deriving DecidableEq, Repr

/-- One call of `sendSignal`, with the callback members at the time of the
call. -/
inductive Signal where
  | MenuItemClicked (callback : Callback) (menuAndItem : List String) (item : String)
  | MouseEntered
  | MouseLeft
deriving DecidableEq, Repr

/-- The properties of `MenuBarRenderer` that `MenuBar.cpp` reads. -/
structure MenuBarRenderer where
  backgroundColor : Color
  textColor : Color
  selectedBackgroundColor : Color
  selectedTextColor : Color
  distanceToSide : ℚ
  opacity : ℚ
  font : Nat
deriving DecidableEq

/-- The state of a `MenuBar` widget. -/
structure MenuBar where
  m_renderer : MenuBarRenderer
  /-- The pair `getSize()`: width and height of the bar. -/
  m_size : ℚ × ℚ
  m_menus : List Menu
  m_visibleMenu : Int
  m_textSize : Nat
  m_minimumSubMenuWidth : ℚ
  m_mouseHover : Bool
  m_mouseDown : Bool
  m_callback : Callback
  /-- Trace of the `sendSignal` calls, oldest first. -/
  signals : List Signal
deriving DecidableEq

/-! ## Binary32 arithmetic -/

/-- The power `2 ^ k` for an integer exponent `k`. -/
def pow2 (k : Int) : ℚ :=
  if 0 ≤ k then ((2 ^ k.toNat : Nat) : ℚ) else 1 / ((2 ^ (-k).toNat : Nat) : ℚ)

/-- The number `⌊log₂ n⌋` for `0 < n ≤ fuel`, by repeated halving. -/
def log2Aux : Nat → Nat → Nat
  | 0, _ => 0
  | fuel + 1, n => if n < 2 then 0 else log2Aux fuel (n / 2) + 1

/-- The number `⌊log₂ |q|⌋` for `q ≠ 0`: the difference of the logarithms of
numerator and denominator, lowered by one when it overshoots. -/
def floorLog2 (q : ℚ) : Int :=
  if pow2 ((log2Aux q.num.natAbs q.num.natAbs : Int) - (log2Aux q.den q.den : Int)) ≤ |q| then
    (log2Aux q.num.natAbs q.num.natAbs : Int) - (log2Aux q.den q.den : Int)
  else (log2Aux q.num.natAbs q.num.natAbs : Int) - (log2Aux q.den q.den : Int) - 1

/-- Rounding to the nearest integer, ties to the even one. -/
def roundHalfEven (a : ℚ) : Int :=
  if a - ⌊a⌋ < 1 / 2 then ⌊a⌋
  else if 1 / 2 < a - ⌊a⌋ then ⌊a⌋ + 1
  else if ⌊a⌋ % 2 = 0 then ⌊a⌋ else ⌊a⌋ + 1

/-- The exponent of the unit in the last place of the binary32 values next to
`q ≠ 0`: 24 significant bits, and never below the subnormal spacing
`2 ^ (-149)`. -/
def ulpExponent (q : ℚ) : Int := max (floorLog2 q - 23) (-149)

/-- Rounding of a rational to the nearest binary32 value, ties to even. -/
def f32 (q : ℚ) : ℚ :=
  if q = 0 then 0
  else roundHalfEven (q / pow2 (ulpExponent q)) * pow2 (ulpExponent q)

/-- The `float` sum `a + b`. -/
def fadd (a b : ℚ) : ℚ := f32 (a + b)

/-- The `float` difference `a - b`. -/
def fsub (a b : ℚ) : ℚ := f32 (a - b)

/-- The `float` product `a * b`. -/
def fmul (a b : ℚ) : ℚ := f32 (a * b)

/-- The `float` quotient `a / b`; `none` for a zero divisor, where C++ leaves
the division undefined (an infinity or NaN under IEEE-754, whose conversion
to an integer is undefined in turn). -/
def fdiv (a b : ℚ) : Option ℚ := if b = 0 then none else some (f32 (a / b))

/-- The conversion of an `int` literal or of an unsigned size to `float`. -/
def natToFloat (n : Nat) : ℚ := f32 (n : ℚ)

/-! ## Primitive operations: conversions, rectangles, vector indexing -/

/-- Truncation towards zero, the rounding of a float-to-integer conversion. -/
def truncate (q : ℚ) : Int := if 0 ≤ q then ⌊q⌋ else ⌈q⌉

/-- The conversion `static_cast<unsigned int>(q)`; undefined when the
truncated value is negative or not below `2 ^ 32`. -/
def toUnsigned (q : ℚ) : Option Nat :=
  if 0 ≤ truncate q ∧ truncate q < 2 ^ 32 then some (truncate q).toNat else none

/-- The conversion `static_cast<int>(q)`; undefined when the truncated value
is outside `[-2 ^ 31, 2 ^ 31)`. -/
def toInt (q : ℚ) : Option Int :=
  if -(2 ^ 31) ≤ truncate q ∧ truncate q < 2 ^ 31 then some (truncate q) else none

/-- The test `sf::FloatRect{left, top, width, height}.contains(x, y)`: the
far edges are the `float` sums `left + width` and `top + height`. -/
def rectContains (left top width height x y : ℚ) : Bool :=
  decide (min left (fadd left width) ≤ x) && decide (x < max left (fadd left width))
    && decide (min top (fadd top height) ≤ y) && decide (y < max top (fadd top height))

/-- The access `v[k]` of a `std::vector` at an `int` index; undefined out of
range. -/
def vecGet {α : Type} (v : List α) (k : Int) : Option α :=
  if 0 ≤ k then v[k.toNat]? else none

/-- The call `items[k].setColor(c)`; undefined when `k` is out of range. -/
def setItemColor (items : List Text) (k : Int) (c : Color) : Option (List Text) :=
  if 0 ≤ k ∧ k.toNat < items.length then
    some (items.modify (fun t => t.setColor c) k.toNat)
  else none

/-- The value `getSize().y`, the height of the bar. -/
def MenuBar.height (s : MenuBar) : ℚ := s.m_size.2

/-- The width of the header of a menu:
`text.getSize().x + 2 * getRenderer()->getDistanceToSide()`. -/
def MenuBar.headerWidth (env : Env) (s : MenuBar) (m : Menu) : ℚ :=
  fadd (m.text.getSizeX env) (fmul (natToFloat 2) s.m_renderer.distanceToSide)

/-- The colour given to the header of a menu that opens and to a hovered
item: the selected text colour when it is set, else the text colour. -/
def MenuBar.highlightColor (s : MenuBar) : Color :=
  if s.m_renderer.selectedTextColor.isSet then s.m_renderer.selectedTextColor
  else s.m_renderer.textColor

/-! ## Menu mutations (`MenuBar.cpp`, lines 36-241) -/

/-- The state left by the constructor `MenuBar::MenuBar()`: default renderer
colours, `distanceToSide = 4`, size `(0, 20)`, no menus, nothing open. -/
def MenuBar.new (env : Env) : MenuBar :=
  { m_renderer :=
      { backgroundColor := Color.White
        textColor := Color.Black
        selectedBackgroundColor := ⟨true, 0, 110, 255, 255⟩
        selectedTextColor := Color.White
        distanceToSide := 4
        opacity := 1
        font := 0 }
    m_size := (0, 20)
    m_menus := []
    m_visibleMenu := -1
    m_textSize := env.findBestTextSize 0 (fmul 20 (f32 (4 / 5)))
    m_minimumSubMenuWidth := 125
    m_mouseHover := false
    m_mouseDown := false
    m_callback := ⟨0, ""⟩
    signals := [] }

/-- The function `MenuBar::setTextSize`. -/
def MenuBar.setTextSize (s : MenuBar) (size : Nat) : MenuBar :=
  { s with
    m_textSize := size
    m_menus := s.m_menus.map fun m =>
      { m with
        menuItems := m.menuItems.map fun t => { t with characterSize := size }
        text := { m.text with characterSize := size } } }

/-- The function `MenuBar::setSize` (the background texture is not part of the
state); the literal `0.8f` is `f32 (4 / 5)`. -/
def MenuBar.setSize (env : Env) (s : MenuBar) (size : ℚ × ℚ) : MenuBar :=
  MenuBar.setTextSize { s with m_size := size }
    (env.findBestTextSize s.m_renderer.font (fmul size.2 (f32 (4 / 5))))

/-- The `Text` that `addMenu` and `addMenuItem` build for a new label. -/
def MenuBar.newText (s : MenuBar) (text : String) : Text :=
  { string := text
    color := s.m_renderer.textColor
    opacity := s.m_renderer.opacity
    font := s.m_renderer.font
    characterSize := s.m_textSize }

/-- The function `MenuBar::addMenu`. -/
def MenuBar.addMenu (s : MenuBar) (text : String) : MenuBar :=
  { s with m_menus := s.m_menus ++ [{ text := s.newText text, menuItems := [] }] }

/-- The search loop of `MenuBar::addMenuItem`: append `item` to the first menu
labelled `menu`; `none` when the loop ends without a match. -/
def addMenuItemLoop (item : Text) (menu : String) : List Menu → Option (List Menu)
  | [] => none
  | m :: ms =>
    if m.text.string = menu then
      some ({ m with menuItems := m.menuItems ++ [item] } :: ms)
    else
      (addMenuItemLoop item menu ms).map (m :: ·)

/-- The function `MenuBar::addMenuItem`: the returned flag and the new
state. -/
def MenuBar.addMenuItem (s : MenuBar) (text : String) (menu : String) : Bool × MenuBar :=
  let search (menu1 : String) : Bool × MenuBar :=
    match addMenuItemLoop (s.newText text) menu1 s.m_menus with
    | some menus => (true, { s with m_menus := menus })
    | none => (false, s)
  if menu = "" then
    match s.m_menus.getLast? with
    | none => (false, s)
    | some m => search m.text.string
  else search menu

/-- The search loop of `MenuBar::removeMenu` from index `i` on: the index of
the first menu labelled `menu` and the list without it. -/
def removeMenuLoop (menu : String) : List Menu → Nat → Option (Nat × List Menu)
  | [], _ => none
  | m :: ms, i =>
    if m.text.string = menu then some (i, ms)
    else (removeMenuLoop menu ms (i + 1)).map fun r => (r.1, m :: r.2)

/-- The function `MenuBar::removeMenu`. -/
def MenuBar.removeMenu (s : MenuBar) (menu : String) : Bool × MenuBar :=
  match removeMenuLoop menu s.m_menus 0 with
  | some (i, menus) =>
    (true, { s with
      m_menus := menus
      m_visibleMenu := if s.m_visibleMenu = (i : Int) then -1 else s.m_visibleMenu })
  | none => (false, s)

/-- The inner loop of `MenuBar::removeMenuItem` from index `j` on: the index
of the first item labelled `menuItem` and the items without it. -/
def removeItemLoop (menuItem : String) : List Text → Nat → Option (Nat × List Text)
  | [], _ => none
  | t :: ts, j =>
    if t.string = menuItem then some (j, ts)
    else (removeItemLoop menuItem ts (j + 1)).map fun r => (r.1, t :: r.2)

/-- The outer loop of `MenuBar::removeMenuItem`: every menu labelled `menu` is
searched in turn until one holds the item. -/
def removeMenuItemLoop (menu menuItem : String) : List Menu → Option (List Menu)
  | [] => none
  | m :: ms =>
    if m.text.string = menu then
      match removeItemLoop menuItem m.menuItems 0 with
      | some (j, items) =>
        some ({ m with
          menuItems := items
          selectedMenuItem :=
            if m.selectedMenuItem = (j : Int) then -1 else m.selectedMenuItem } :: ms)
      | none => (removeMenuItemLoop menu menuItem ms).map (m :: ·)
    else (removeMenuItemLoop menu menuItem ms).map (m :: ·)

/-- The function `MenuBar::removeMenuItem`. -/
def MenuBar.removeMenuItem (s : MenuBar) (menu menuItem : String) : Bool × MenuBar :=
  match removeMenuItemLoop menu menuItem s.m_menus with
  | some menus => (true, { s with m_menus := menus })
  | none => (false, s)

/-- The function `MenuBar::removeAllMenus`. -/
def MenuBar.removeAllMenus (s : MenuBar) : MenuBar := { s with m_menus := [] }

/-- A `std::map<sf::String, std::vector<sf::String>>`: its entries in
iteration order, that is, by ascending key. -/
abbrev StdMap := List (String × List String)

/-- The assignment `map[k] = v` of a `std::map`. -/
def StdMap.assign (k : String) (v : List String) : StdMap → StdMap
  | [] => [(k, v)]
  | (k1, v1) :: rest =>
    if k < k1 then (k, v) :: (k1, v1) :: rest
    else if k = k1 then (k, v) :: rest
    else (k1, v1) :: StdMap.assign k v rest

/-- The function `MenuBar::getMenus`. -/
def MenuBar.getMenus (s : MenuBar) : StdMap :=
  s.m_menus.foldl
    (fun menus m => StdMap.assign m.text.string (m.menuItems.map fun t => t.string) menus) []

/-! ## Mouse handling (`MenuBar.cpp`, lines 255-473; `Widget.cpp`) -/

/-- The function `Widget::mouseEnteredWidget`. -/
def MenuBar.mouseEnteredWidget (s : MenuBar) : MenuBar :=
  { s with m_mouseHover := true, signals := s.signals ++ [Signal.MouseEntered] }

/-- The function `Widget::mouseLeftWidget` of the base class. -/
def MenuBar.widgetMouseLeftWidget (s : MenuBar) : MenuBar :=
  { s with m_mouseHover := false, signals := s.signals ++ [Signal.MouseLeft] }

/-- The function `Widget::mouseNoLongerDown` of the base class. -/
def MenuBar.widgetMouseNoLongerDown (s : MenuBar) : MenuBar :=
  { s with m_mouseDown := false }

/-- The block
`if (menu.selectedMenuItem != -1) { menu.menuItems[menu.selectedMenuItem].setColor(c); menu.selectedMenuItem = -1; }`
shared by `leftMousePressed`, `mouseMoved`, `mouseLeftWidget` and
`closeVisibleMenu`. -/
def Menu.unselect (c : Color) (m : Menu) : Option Menu :=
  if m.selectedMenuItem ≠ -1 then
    (setItemColor m.menuItems m.selectedMenuItem c).map fun items =>
      { m with menuItems := items, selectedMenuItem := -1 }
  else some m

/-- The header loop of `leftMousePressed` and `mouseMoved`, from index `i` on
with the running `float` sum `menuWidth`: the first index whose cumulative
right edge exceeds `x`. -/
def headerScan (env : Env) (s : MenuBar) (x : ℚ) : List Menu → Nat → ℚ → Option Nat
  | [], _, _ => none
  | m :: ms, i, menuWidth =>
    if x < fadd menuWidth (s.headerWidth env m) then some i
    else headerScan env s x ms (i + 1) (fadd menuWidth (s.headerWidth env m))

/-- The function `MenuBar::closeVisibleMenu`. -/
def MenuBar.closeVisibleMenu (s : MenuBar) : Option MenuBar :=
  if s.m_visibleMenu ≠ -1 then do
    let m ← vecGet s.m_menus s.m_visibleMenu
    let m1 ← m.unselect s.m_renderer.textColor
    pure { s with
      m_menus := s.m_menus.set s.m_visibleMenu.toNat
        { m1 with text := m1.text.setColor s.m_renderer.textColor }
      m_visibleMenu := -1 }
  else some s

/-- The function `MenuBar::mouseOnWidget`. -/
def MenuBar.mouseOnWidget (env : Env) (s : MenuBar) (x y : ℚ) : Option Bool :=
  if rectContains 0 0 s.m_size.1 s.m_size.2 x y then some true
  else if s.m_visibleMenu ≠ -1 then do
    let left ← (List.range s.m_visibleMenu.toNat).foldlM
      (fun (left : ℚ) i => (s.m_menus[i]?).map fun m => fadd left (s.headerWidth env m)) 0
    let m ← vecGet s.m_menus s.m_visibleMenu
    let width := m.menuItems.foldl
      (fun (width : ℚ) t =>
        if width < fadd (t.getSizeX env) (fmul (natToFloat 3) s.m_renderer.distanceToSide) then
          fadd (t.getSizeX env) (fmul (natToFloat 3) s.m_renderer.distanceToSide)
        else width)
      s.m_minimumSubMenuWidth
    pure (rectContains left s.height width
      (fmul s.height (natToFloat m.menuItems.length)) x y)
  else some false

/-- The function `MenuBar::leftMousePressed`. -/
def MenuBar.leftMousePressed (env : Env) (s : MenuBar) (x y : ℚ) : Option MenuBar := do
  let s1 ←
    if y < s.height then
      match headerScan env s x s.m_menus 0 0 with
      | none => some s
      | some i => do
        let m ← s.m_menus[i]?
        if s.m_visibleMenu = (i : Int) then do
          let m1 ← m.unselect s.m_renderer.textColor
          pure { s with
            m_menus := s.m_menus.set i
              { m1 with text := m1.text.setColor s.m_renderer.textColor }
            m_visibleMenu := -1 }
        else if ¬ m.menuItems.isEmpty then
          pure { s with
            m_menus := s.m_menus.set i { m with text := m.text.setColor s.highlightColor }
            m_visibleMenu := (i : Int) }
        else pure s
    else some s
  pure { s1 with m_mouseDown := true }

/-- The function `MenuBar::leftMouseReleased`; the `x` coordinate is an unnamed
parameter in the source. -/
def MenuBar.leftMouseReleased (s : MenuBar) (_x y : ℚ) : Option MenuBar :=
  if s.m_mouseDown then
    if s.height ≤ y then do
      let q ← fdiv (fsub y s.height) s.height
      let selectedMenuItem ← toUnsigned q
      let m ← vecGet s.m_menus s.m_visibleMenu
      match m.menuItems[selectedMenuItem]? with
      | some item =>
        let callback : Callback := { index := s.m_visibleMenu, text := item.string }
        MenuBar.closeVisibleMenu { s with
          m_callback := callback
          signals := s.signals ++
            [Signal.MenuItemClicked callback [m.text.string, item.string] item.string] }
      | none => pure s
    else some s
  else some s

/-- The function `MenuBar::mouseMoved`. -/
def MenuBar.mouseMoved (env : Env) (s0 : MenuBar) (x y : ℚ) : Option MenuBar :=
  let s := if ¬ s0.m_mouseHover then s0.mouseEnteredWidget else s0
  if y < s.height then
    if s.m_visibleMenu ≠ -1 then
      match headerScan env s x s.m_menus 0 0 with
      | none => some s
      | some i =>
        if s.m_visibleMenu = (i : Int) then do
          let m ← s.m_menus[i]?
          let m1 ← m.unselect s.m_renderer.textColor
          pure { s with m_menus := s.m_menus.set i m1 }
        else do
          let s1 ← s.closeVisibleMenu
          let m ← s1.m_menus[i]?
          if ¬ m.menuItems.isEmpty then
            pure { s1 with
              m_menus := s1.m_menus.set i { m with text := m.text.setColor s1.highlightColor }
              m_visibleMenu := (i : Int) }
          else pure s1
    else some s
  else do
    let q ← fdiv (fsub y s.height) s.height
    let selectedMenuItem ← toInt q
    let m ← vecGet s.m_menus s.m_visibleMenu
    if selectedMenuItem ≠ m.selectedMenuItem then do
      let items ←
        if m.selectedMenuItem ≠ -1 then
          setItemColor m.menuItems m.selectedMenuItem s.m_renderer.textColor
        else some m.menuItems
      let items1 ← setItemColor items selectedMenuItem s.highlightColor
      pure { s with
        m_menus := s.m_menus.set s.m_visibleMenu.toNat
          { m with menuItems := items1, selectedMenuItem := selectedMenuItem } }
    else pure s

/-- The function `MenuBar::mouseNoLongerDown`. -/
def MenuBar.mouseNoLongerDown (s : MenuBar) : Option MenuBar := do
  let s1 ← if ¬ s.m_mouseDown then s.closeVisibleMenu else some s
  pure s1.widgetMouseNoLongerDown

/-- The function `MenuBar::mouseLeftWidget`. -/
def MenuBar.mouseLeftWidget (s : MenuBar) : Option MenuBar := do
  let s1 ←
    if s.m_visibleMenu ≠ -1 then do
      let m ← vecGet s.m_menus s.m_visibleMenu
      let m1 ← m.unselect s.m_renderer.textColor
      pure { s with m_menus := s.m_menus.set s.m_visibleMenu.toNat m1 }
    else some s
  pure s1.widgetMouseLeftWidget

/-! ## Geometry of the headers and well-formedness predicates -/

/-- The left edge of the header of menu `i`: the sum of the header widths
(label width `+ 2 * distanceToSide`) of the menus `0 .. i-1`, added up from
the left in `float` arithmetic. -/
def MenuBar.leftEdge (env : Env) (s : MenuBar) (i : Nat) : ℚ :=
  (s.m_menus.take i).foldl
    (fun edge m =>
      fadd edge (fadd (m.text.getSizeX env) (fmul (natToFloat 2) s.m_renderer.distanceToSide)))
    0

/-- The header widths (label width `+ 2 * distanceToSide`, in `float`
arithmetic) of all menus are non-negative. -/
def MenuBar.WidthsNonneg (env : Env) (s : MenuBar) : Prop :=
  ∀ m ∈ s.m_menus,
    0 ≤ fadd (m.text.getSizeX env) (fmul (natToFloat 2) s.m_renderer.distanceToSide)

instance (env : Env) (s : MenuBar) : Decidable (s.WidthsNonneg env) := by
  unfold MenuBar.WidthsNonneg; infer_instance

/-- The coordinate `x` falls on the header of menu `i`: the header scan of
`leftMousePressed` and `mouseMoved` resolves to `i`, or the header widths are
non-negative and `x` lies in the span of menu `i`, from its left edge up to
the left edge of menu `i + 1`. -/
def MenuBar.OnHeader (env : Env) (s : MenuBar) (x : ℚ) (i : Nat) : Prop :=
  headerScan env s x s.m_menus 0 0 = some i ∨
    (s.WidthsNonneg env ∧ s.leftEdge env i ≤ x ∧ x < s.leftEdge env (i + 1))

/-- The selected-item index of a menu is `-1` or a valid index into its
items. -/
def Menu.SelectionValid (m : Menu) : Prop :=
  m.selectedMenuItem = -1 ∨
    (0 ≤ m.selectedMenuItem ∧ m.selectedMenuItem < (m.menuItems.length : Int))

instance (m : Menu) : Decidable m.SelectionValid := by
  unfold Menu.SelectionValid; infer_instance

/-! ## Call sequences and the specification-side record of insertions -/

/-- A call of `addMenu(text)` or `addMenuItem(text, menu)`. -/
inductive Call where
  | addMenu (text : String)
  | addMenuItem (text : String) (menu : String)
deriving DecidableEq, Repr

/-- The effect of one call on the widget. -/
def MenuBar.call (s : MenuBar) : Call → MenuBar
  | Call.addMenu text => s.addMenu text
  | Call.addMenuItem text menu => (s.addMenuItem text menu).2

/-- The effect of a sequence of calls, first call first. -/
def MenuBar.run (s : MenuBar) (calls : List Call) : MenuBar :=
  calls.foldl MenuBar.call s

/-- The labels passed to `addMenu`, in call order. -/
def addedLabels : List Call → List String
  | [] => []
  | Call.addMenu text :: calls => text :: addedLabels calls
  | Call.addMenuItem _ _ :: calls => addedLabels calls

/-- Specification side: append `item` to the first entry labelled `label`;
nothing changes when no entry has that label. -/
def specAppendItem (label item : String) :
    List (String × List String) → List (String × List String)
  | [] => []
  | (l, items) :: rest =>
    if l = label then (l, items ++ [item]) :: rest
    else (l, items) :: specAppendItem label item rest

/-- Specification side: one `addItem(menuLabel|lastMenu, itemLabel)` or
`addMenu(label)` step on the record of inserted entries. -/
def specStep (log : List (String × List String)) : Call → List (String × List String)
  | Call.addMenu text => log ++ [(text, [])]
  | Call.addMenuItem text menu =>
    if menu = "" then
      match log.getLast? with
      | none => log
      | some last => log.dropLast ++ [(last.1, last.2 ++ [text])]
    else specAppendItem menu text log

/-- Specification side: the inserted labels in insertion order, one entry per
`addMenu` call in call order, each with its items in call order. -/
def specInsertedMenus (calls : List Call) : List (String × List String) :=
  calls.foldl specStep []

/-- The entry that `getMenus` stores for a menu: its label and the labels of
its items. -/
def Menu.entry (m : Menu) : String × List String :=
  (m.text.string, m.menuItems.map fun t => t.string)

/-! ## Operations and reachable states -/

/-- The operations that act on a `MenuBar`: the menu mutations of the public
interface and the mouse events sent by the parent container. -/
inductive Op where
  | addMenu (text : String)
  | addMenuItem (text : String) (menu : String)
  | removeMenu (menu : String)
  | removeMenuItem (menu : String) (menuItem : String)
  | removeAllMenus
  | leftMousePressed (x y : ℚ)
  | leftMouseReleased (x y : ℚ)
  | mouseMoved (x y : ℚ)
  | mouseLeftWidget
  | mouseNoLongerDown
deriving DecidableEq

/-- The state after one operation; `none` when its behaviour is undefined. -/
def MenuBar.step (env : Env) (s : MenuBar) : Op → Option MenuBar
  | Op.addMenu text => some (s.addMenu text)
  | Op.addMenuItem text menu => some (s.addMenuItem text menu).2
  | Op.removeMenu menu => some (s.removeMenu menu).2
  | Op.removeMenuItem menu menuItem => some (s.removeMenuItem menu menuItem).2
  | Op.removeAllMenus => some s.removeAllMenus
  | Op.leftMousePressed x y => s.leftMousePressed env x y
  | Op.leftMouseReleased x y => s.leftMouseReleased x y
  | Op.mouseMoved x y => s.mouseMoved env x y
  | Op.mouseLeftWidget => s.mouseLeftWidget
  | Op.mouseNoLongerDown => s.mouseNoLongerDown

/-- The state after a sequence of operations, first operation first. -/
def MenuBar.steps (env : Env) (s : MenuBar) (ops : List Op) : Option MenuBar :=
  ops.foldlM (MenuBar.step env) s

/-- The states reachable from a newly constructed `MenuBar` through operations
with defined behaviour that satisfy `allowed` in the state they are applied
to.  The constructor leaves the width 0, and the widget gets its size from
`setSize` before it can receive a mouse event, so the initial state carries
an arbitrary size. -/
inductive ReachableBy (env : Env) (allowed : MenuBar → Op → Prop) : MenuBar → Prop
  | init (size : ℚ × ℚ) : ReachableBy env allowed ((MenuBar.new env).setSize env size)
  | step {s s1 : MenuBar} {op : Op} :
      ReachableBy env allowed s → allowed s op → s.step env op = some s1 →
      ReachableBy env allowed s1

/-- Every menu of the bar has a selection that is `-1` or a valid index. -/
def MenuBar.SelectionsValid (s : MenuBar) : Prop := ∀ m ∈ s.m_menus, m.SelectionValid

/-- The open-menu index is `-1` or a valid index into the menu list. -/
def MenuBar.VisibleValid (s : MenuBar) : Prop :=
  s.m_visibleMenu = -1 ∨
    (0 ≤ s.m_visibleMenu ∧ s.m_visibleMenu < (s.m_menus.length : Int))

instance (s : MenuBar) : Decidable s.VisibleValid := by
  unfold MenuBar.VisibleValid; infer_instance

/-- A call of `removeMenuItem` whose removed item does not stand in front of
the selected item of a menu with the given label; every other operation. -/
def Op.sparesSelection (s : MenuBar) : Op → Prop
  | Op.removeMenuItem menu menuItem =>
    ∀ m ∈ s.m_menus, m.text.string = menu →
      ∀ j items, removeItemLoop menuItem m.menuItems 0 = some (j, items) →
        m.selectedMenuItem ≤ (j : Int)
  | _ => True

/-! ## Example states, built through the public operations -/

/-- A rendering environment: every glyph is 10 units wide, text size 16. -/
def exampleEnv : Env := ⟨fun _ _ str => 10 * str.length, fun _ _ => 16⟩

/-- A bar of size `(800, 20)` without menus. -/
def emptyBar : MenuBar := (MenuBar.new exampleEnv).setSize exampleEnv (800, 20)

/-- A bar of size `(800, 20)` with the single menu `File`, holding `Load` and
`Save`: the scenario of the specification. -/
def fileBar : MenuBar :=
  (((((MenuBar.new exampleEnv).setSize exampleEnv (800, 20)).addMenu "File").addMenuItem
    "Load" "").2.addMenuItem "Save" "").2

/-- The bar `fileBar` after a press on the header of `File`. -/
def fileBarOpen : MenuBar := (fileBar.leftMousePressed exampleEnv 1 1).getD fileBar

/-- The bar `fileBar` with a third item `Quit`, after a press on the header of
`File`. -/
def quitBarOpen : MenuBar :=
  ((fileBar.addMenuItem "Quit" "").2.leftMousePressed exampleEnv 1 1).getD fileBar

/-- The bar `quitBarOpen` after a move onto item 2 (`Quit`) of the open
menu. -/
def quitBarHover : MenuBar := (quitBarOpen.mouseMoved exampleEnv 1 65).getD fileBar

/-- The bar `quitBarHover` after `removeMenuItem("File", "Load")`: the menu
keeps `selectedMenuItem = 2` with only two items left. -/
def staleSelectionBar : MenuBar := (quitBarHover.removeMenuItem "File" "Load").2

/-- The bar `fileBar` after a press on the bar to the right of every header:
the mouse is down and no menu is open. -/
def fileBarPressedAside : MenuBar := (fileBar.leftMousePressed exampleEnv 100 1).getD fileBar

/-- A bar with the menus `Edit` (item `Undo`) and `File` (item `Load`), after
a press on the header of `File`, the second menu. -/
def editFileBar : MenuBar :=
  let s0 := (((((MenuBar.new exampleEnv).setSize exampleEnv (800, 20)).addMenu
    "Edit").addMenuItem "Undo" "").2.addMenu "File").addMenuItem "Load" ""
  (s0.2.leftMousePressed exampleEnv 60 1).getD s0.2

/-- The bar `fileBarOpen` after a move onto item 1 (`Save`) of the open
menu. -/
def fileBarHover : MenuBar := (fileBarOpen.mouseMoved exampleEnv 1 45).getD fileBar

/-! ## Index invariants and further example states -/

/-- The index invariants of a `MenuBar`: the open-menu index and every
selected-item index are `-1` or valid. -/
def MenuBar.IndexInvariants (s : MenuBar) : Prop := s.VisibleValid ∧ s.SelectionsValid

/-- A bar on which `addMenu("Edit")` was called twice. -/
def twoEditBar : MenuBar :=
  (((MenuBar.new exampleEnv).setSize exampleEnv (800, 20)).addMenu "Edit").addMenu "Edit"

/-- A bar with the menu `File` (item `Load`) and the menu `Help` without
items, after a press on the header of `File`. -/
def fileHelpBar : MenuBar :=
  let s0 := ((((MenuBar.new exampleEnv).setSize exampleEnv (800, 20)).addMenu
    "File").addMenuItem "Load" "").2.addMenu "Help"
  (s0.leftMousePressed exampleEnv 1 1).getD s0

/-- A bar with the menus `File` (items `Load`, `Save`, `Quit`) and `Edit`
(item `Undo`), after a press on the header of `File`, a move onto `Quit`
(item 2) and `removeMenuItem("File", "Load")`: `File` is open and keeps
`selectedMenuItem = 2` with two items left. -/
def staleTwoMenuBar : MenuBar :=
  let s0 := (((fileBar.addMenuItem "Quit" "").2.addMenu "Edit").addMenuItem "Undo" "Edit").2
  let s1 := (s0.leftMousePressed exampleEnv 1 1).getD s0
  let s2 := (s1.mouseMoved exampleEnv 1 65).getD s0
  (s2.removeMenuItem "File" "Load").2

/-! ## Renderer changes (`MenuBar.cpp`, lines 477-545; `Widget.cpp`, lines 679-683) -/

/-- The value handed to `rendererChanged`, an `ObjectConverter`: what its
getters `getColor`, `getNumber` and `getFont` return.  (A texture is not part
of the modelled state.) -/
structure ObjectConverter where
  getColor : Color
  getNumber : ℚ
  getFont : Nat
deriving DecidableEq

/-- The function `Widget::rendererChanged` for a widget of type `widgetType`:
the exception message when it throws. -/
def widgetRendererChanged (widgetType property : String) : Except String Unit :=
  if property ≠ "opacity" ∧ property ≠ "font" then
    Except.error ("Could not set property \x27" ++ property ++ "\x27, widget of type \x27"
      ++ widgetType ++ "\x27 does not has this property.")
  else Except.ok ()

/-- The inner loop of the `textcolor` branch from index `j` on: every item
except the selected one gets the colour `c`. -/
def recolorItems (c : Color) (sel : Int) : List Text → Nat → List Text
  | [], _ => []
  | t :: ts, j =>
    (if sel ≠ (j : Int) then t.setColor c else t) :: recolorItems c sel ts (j + 1)

/-- The function `MenuBar::rendererChanged`: `none` when its behaviour is
undefined, `some (Except.error msg)` when it throws. -/
def MenuBar.rendererChanged (env : Env) (s : MenuBar) (property : String)
    (value : ObjectConverter) : Option (Except String MenuBar) :=
  if property = "textcolor" then
    let s1 : MenuBar := { s with
      m_menus := s.m_menus.map fun m =>
        { m with
          menuItems := recolorItems value.getColor m.selectedMenuItem m.menuItems 0
          text := m.text.setColor value.getColor } }
    if s1.m_visibleMenu ≠ -1 then do
      let m ← vecGet s1.m_menus s1.m_visibleMenu
      if m.selectedMenuItem ≠ -1 ∧ s.m_renderer.selectedTextColor.isSet then do
        let items ← setItemColor m.menuItems m.selectedMenuItem s.m_renderer.selectedTextColor
        pure (Except.ok { s1 with
          m_menus := s1.m_menus.set s1.m_visibleMenu.toNat { m with menuItems := items } })
      else pure (Except.ok s1)
    else some (Except.ok s1)
  else if property = "selectedtextcolor" then
    if s.m_visibleMenu ≠ -1 then do
      let m ← vecGet s.m_menus s.m_visibleMenu
      if m.selectedMenuItem ≠ -1 then do
        let items ← setItemColor m.menuItems m.selectedMenuItem
          (if value.getColor.isSet then value.getColor else s.m_renderer.textColor)
        pure (Except.ok { s with
          m_menus := s.m_menus.set s.m_visibleMenu.toNat { m with menuItems := items } })
      else pure (Except.ok s)
    else some (Except.ok s)
  else if property = "texturebackground" ∨ property = "textureitembackground"
      ∨ property = "textureselecteditembackground" then
    some (Except.ok s)
  else if property = "opacity" then
    some (Except.ok { s with
      m_menus := s.m_menus.map fun m =>
        { m with
          menuItems := m.menuItems.map fun t => { t with opacity := value.getNumber }
          text := { m.text with opacity := value.getNumber } } })
  else if property = "font" then
    let s1 : MenuBar := { s with
      m_menus := s.m_menus.map fun m =>
        { m with
          menuItems := m.menuItems.map fun t => { t with font := value.getFont }
          text := { m.text with font := value.getFont } } }
    some (Except.ok (s1.setTextSize
      (env.findBestTextSize value.getFont (fmul s.height (f32 (4 / 5))))))
  else if property ≠ "backgroundcolor" ∧ property ≠ "selectedbackgroundcolor"
      ∧ property ≠ "distancetoside" then
    some ((widgetRendererChanged "MenuBar" property).map fun _ => s)
  else some (Except.ok s)

/-- Modelled from the spec: the setters of `MenuBarRenderer` are not in the
sources; the renderer stores the new value and notifies the widget through
`rendererChanged` ("widget-to-renderer change notification").  This is
`getRenderer()->setTextColor(c)`. -/
def MenuBar.setTextColor (env : Env) (s : MenuBar) (c : Color) :
    Option (Except String MenuBar) :=
  MenuBar.rendererChanged env
    { s with m_renderer := { s.m_renderer with textColor := c } } "textcolor" ⟨c, 0, 0⟩

/-- Modelled from the spec: as `MenuBar.setTextColor`, for
`getRenderer()->setSelectedTextColor(c)`. -/
def MenuBar.setSelectedTextColor (env : Env) (s : MenuBar) (c : Color) :
    Option (Except String MenuBar) :=
  MenuBar.rendererChanged env
    { s with m_renderer := { s.m_renderer with selectedTextColor := c } }
    "selectedtextcolor" ⟨c, 0, 0⟩

/-- Modelled from the spec: as `MenuBar.setTextColor`, for
`getRenderer()->setDistanceToSide(d)`, the setter that the constructor calls
with 4. -/
def MenuBar.setDistanceToSide (env : Env) (s : MenuBar) (d : ℚ) :
    Option (Except String MenuBar) :=
  MenuBar.rendererChanged env
    { s with m_renderer := { s.m_renderer with distanceToSide := d } }
    "distancetoside" ⟨Color.Black, d, 0⟩

/-- The colours are synchronized with the renderer, from menu index `i` on: the
header of the open menu and its selected item have the highlight colour
(selected text colour when set, else text colour), every other header and
item has the text colour. -/
def colorsSynchronizedFrom (s : MenuBar) : List Menu → Nat → Bool
  | [], _ => true
  | m :: ms, i =>
    decide (m.text.color =
        if s.m_visibleMenu = (i : Int) then s.highlightColor else s.m_renderer.textColor)
      && (m.menuItems.enum.all fun jt =>
        decide (jt.2.color =
          if s.m_visibleMenu = (i : Int) ∧ m.selectedMenuItem = (jt.1 : Int) then
            s.highlightColor
          else s.m_renderer.textColor))
      && colorsSynchronizedFrom s ms (i + 1)

/-- The colours of all menus are synchronized with the renderer. -/
def MenuBar.colorsSynchronized (s : MenuBar) : Bool := colorsSynchronizedFrom s s.m_menus 0

/-! ## Submenu widths (`mouseOnWidget`, lines 270-276; `draw`, lines 571-574) -/

/-- The width of the open submenu computed by `mouseOnWidget` for the hit
test. -/
def MenuBar.hitSubMenuWidth (env : Env) (s : MenuBar) (m : Menu) : ℚ :=
  m.menuItems.foldl
    (fun (width : ℚ) t =>
      if width < fadd (t.getSizeX env) (fmul (natToFloat 3) s.m_renderer.distanceToSide) then
        fadd (t.getSizeX env) (fmul (natToFloat 3) s.m_renderer.distanceToSide)
      else width)
    s.m_minimumSubMenuWidth

/-- The width `menuWidth` of the item backgrounds computed by `draw`. -/
def MenuBar.drawSubMenuWidth (env : Env) (s : MenuBar) (m : Menu) : ℚ :=
  m.menuItems.foldl
    (fun (menuWidth : ℚ) t =>
      max menuWidth (fadd (t.getSizeX env) (fmul (natToFloat 2) s.m_renderer.distanceToSide)))
    s.m_minimumSubMenuWidth

/-- A bar whose menu `File` holds one item with a long label (20 glyphs, 200
units wide), after a press on the header of `File`. -/
def longItemBar : MenuBar :=
  let s0 := ((((MenuBar.new exampleEnv).setSize exampleEnv (800, 20)).addMenu
    "File").addMenuItem "Open the recent file" "").2
  (s0.leftMousePressed exampleEnv 1 1).getD s0

/-- A bar with the menus `File` (items `Load`, `Save`) and `Edit` (item
`Undo`), closed. -/
def fileEditBar : MenuBar := ((fileBar.addMenu "Edit").addMenuItem "Undo" "Edit").2

/-! ## The base class `Widget` (`Widget.cpp`)

The class `priv::Animation` is not part of the sources: the animations are
values of a type `α`, and `getType`, `update` are parameters.  `sf::Time` is an
integer number of microseconds, without overflow. -/

/-- The loop of the function `addAnimation` (`Widget.cpp`, lines 36-54) at
index `i`: the list that is left, and the animations on which `finish()` has
been called, in call order. -/
def addAnimationLoop {α τ : Type} [DecidableEq τ] (getType : α → τ) (type : τ)
    (existingAnimations : List α) (i : Nat) (finished : List α) : List α × List α :=
  if h : i < existingAnimations.length then
    if getType (existingAnimations.get ⟨i, h⟩) = type then
      addAnimationLoop getType type (existingAnimations.eraseIdx i) i
        (finished ++ [existingAnimations.get ⟨i, h⟩])
    else addAnimationLoop getType type existingAnimations (i + 1) finished
  else (existingAnimations, finished)
termination_by existingAnimations.length - i
decreasing_by
  · simp_wf
    rw [List.length_eraseIdx, if_pos h]
    omega
  · simp_wf
    omega

/-- The function `addAnimation`: the new list and the animations on which
`finish()` was called, in call order. -/
def addAnimation {α τ : Type} [DecidableEq τ] (getType : α → τ)
    (existingAnimations : List α) (newAnimation : α) : List α × List α :=
  let r := addAnimationLoop getType (getType newAnimation) existingAnimations 0 []
  (r.1 ++ [newAnimation], r.2)

/-- The loop of `Widget::update` (lines 587-593) at index `i`; `update a t`
gives the flag returned by `a->update(t)` and the animation as the call leaves
it.  The result is the list that is left and the animations on which `update`
has been called, in call order. -/
def updateLoop {α : Type} (update : α → Int → Bool × α) (elapsedTime : Int)
    (m_showAnimations : List α) (i : Nat) (calls : List α) : List α × List α :=
  if h : i < m_showAnimations.length then
    if (update (m_showAnimations.get ⟨i, h⟩) elapsedTime).1 then
      updateLoop update elapsedTime (m_showAnimations.eraseIdx i) i
        (calls ++ [m_showAnimations.get ⟨i, h⟩])
    else
      updateLoop update elapsedTime
        (m_showAnimations.set i (update (m_showAnimations.get ⟨i, h⟩) elapsedTime).2) (i + 1)
        (calls ++ [m_showAnimations.get ⟨i, h⟩])
  else (m_showAnimations, calls)
termination_by m_showAnimations.length - i
decreasing_by
  · simp_wf
    rw [List.length_eraseIdx, if_pos h]
    omega
  · simp_wf
    omega

/-- The members of a base `Widget` that the modelled functions read or write;
`m_hasParent` stands for `m_parent != nullptr`, `signals` is the trace of
`sendSignal` calls, oldest first. -/
structure Widget (α : Type) where
  m_enabled : Bool
  m_disabledBlockingMouseEvents : Bool
  m_mouseHover : Bool
  m_mouseDown : Bool
  m_focused : Bool
  m_hasParent : Bool
  m_animationTimeElapsed : Int
  m_showAnimations : List α
  signals : List Signal

/-- The function `Widget::update`: the new state and the animations on which
`update` was called, in call order. -/
def Widget.update {α : Type} (update : α → Int → Bool × α) (w : Widget α)
    (elapsedTime : Int) : Widget α × List α :=
  let r := updateLoop update elapsedTime w.m_showAnimations 0 []
  ({ w with
    m_animationTimeElapsed := w.m_animationTimeElapsed + elapsedTime
    m_showAnimations := r.1 }, r.2)

/-- The function `Widget::mouseEnteredWidget`. -/
def Widget.mouseEnteredWidget {α : Type} (w : Widget α) : Widget α :=
  { w with m_mouseHover := true, signals := w.signals ++ [Signal.MouseEntered] }

/-- The function `Widget::mouseLeftWidget`. -/
def Widget.mouseLeftWidget {α : Type} (w : Widget α) : Widget α :=
  { w with m_mouseHover := false, signals := w.signals ++ [Signal.MouseLeft] }

/-- The function `Widget::mouseMoved`; its position argument is unnamed in the
source. -/
def Widget.mouseMoved {α : Type} (w : Widget α) : Widget α :=
  if ¬ w.m_mouseHover then w.mouseEnteredWidget else w

/-- The function `Widget::mouseNoLongerOnWidget`. -/
def Widget.mouseNoLongerOnWidget {α : Type} (w : Widget α) : Widget α :=
  if w.m_mouseHover then w.mouseLeftWidget else w

/-- The function `Widget::enable`. -/
def Widget.enable {α : Type} (w : Widget α) : Widget α := { w with m_enabled := true }

/-- The function `Widget::unfocus`.  The class `Container` is not part of the
sources: `unfocusWidgets` is what `m_parent->unfocusWidgets()` does to this
widget. -/
def Widget.unfocus {α : Type} (unfocusWidgets : Widget α → Widget α) (w : Widget α) :
    Widget α :=
  if w.m_focused ∧ w.m_hasParent then unfocusWidgets w else w

/-- The function `Widget::disable`. -/
def Widget.disable {α : Type} (unfocusWidgets : Widget α → Widget α) (w : Widget α)
    (blockMouseEvents : Bool) : Widget α :=
  Widget.unfocus unfocusWidgets
    { w with
      m_enabled := false
      m_disabledBlockingMouseEvents := blockMouseEvents
      m_mouseHover := false
      m_mouseDown := false }

/-- One call on a base `Widget`, among the four that touch the hover flag or
the enabled flag. -/
inductive WidgetCall where
  | mouseMoved
  | mouseNoLongerOnWidget
  | enable
  | disable (blockMouseEvents : Bool)
deriving DecidableEq, Repr

/-- Whether a call is a call of `disable`. -/
def WidgetCall.isDisable : WidgetCall → Bool
  | WidgetCall.disable _ => true
  | _ => false

/-- The effect of one call. -/
def Widget.call {α : Type} (unfocusWidgets : Widget α → Widget α) (w : Widget α) :
    WidgetCall → Widget α
  | WidgetCall.mouseMoved => w.mouseMoved
  | WidgetCall.mouseNoLongerOnWidget => w.mouseNoLongerOnWidget
  | WidgetCall.enable => w.enable
  | WidgetCall.disable b => w.disable unfocusWidgets b

/-- The effect of a sequence of calls, first call first. -/
def Widget.run {α : Type} (unfocusWidgets : Widget α → Widget α) (w : Widget α)
    (calls : List WidgetCall) : Widget α :=
  calls.foldl (Widget.call unfocusWidgets) w

/-- The `MouseEntered` and `MouseLeft` signals of a trace, in order. -/
def mouseSignals (l : List Signal) : List Signal :=
  l.filter fun sig => sig = Signal.MouseEntered ∨ sig = Signal.MouseLeft

/-- Strict alternation of the mouse signals of a trace; `expectEntered` tells
whether the next one has to be `MouseEntered` (else `MouseLeft`). -/
def alternatesFrom : Bool → List Signal → Bool
  | _, [] => true
  | e, Signal.MouseEntered :: r => e && alternatesFrom false r
  | e, Signal.MouseLeft :: r => !e && alternatesFrom true r
  | e, _ :: r => alternatesFrom e r

/-- The mouse signals of a trace strictly alternate, starting with
`MouseEntered`. -/
def strictlyAlternates (l : List Signal) : Bool := alternatesFrom true l

/-- Every `MouseLeft` of a trace comes directly after a `MouseEntered` (among
the mouse signals); `afterEntered` tells whether the previous mouse signal was
`MouseEntered`. -/
def leftFollowsEnteredFrom : Bool → List Signal → Bool
  | _, [] => true
  | _, Signal.MouseEntered :: r => leftFollowsEnteredFrom true r
  | p, Signal.MouseLeft :: r => p && leftFollowsEnteredFrom false r
  | p, _ :: r => leftFollowsEnteredFrom p r

/-- Whether the last mouse signal of a trace is `MouseEntered`; `p` when the
trace has no mouse signal. -/
def endsEntered : Bool → List Signal → Bool
  | p, [] => p
  | _, Signal.MouseEntered :: r => endsEntered true r
  | _, Signal.MouseLeft :: r => endsEntered false r
  | p, _ :: r => endsEntered p r

/-- A base widget that is enabled, not hovered, without parent, animations or
signals. -/
def plainWidget : Widget Unit :=
  { m_enabled := true
    m_disabledBlockingMouseEvents := false
    m_mouseHover := false
    m_mouseDown := false
    m_focused := false
    m_hasParent := false
    m_animationTimeElapsed := 0
    m_showAnimations := []
    signals := [] }

/-! ## Further example states -/

/-- A rendering environment with fractional text widths: a label of four
glyphs is `28.1f` wide, one of seven glyphs `55.9f`, every other one
`33.4f`. -/
def decimalEnv : Env :=
  ⟨fun _ _ str =>
      if str.length = 4 then f32 (281 / 10)
      else if str.length = 7 then f32 (559 / 10)
      else f32 (334 / 10),
    fun _ _ => 16⟩

/-- A bar of size `(800, 20)` with the menus `File`, `Options` and `Tools`,
measured by `decimalEnv`: the header widths are `36.1`, `63.9` and `41.4`
(rounded to `float`), and the `float` sum of the first two is exactly 100. -/
def threeMenuBar : MenuBar :=
  ((((MenuBar.new decimalEnv).setSize decimalEnv (800, 20)).addMenu "File").addMenu
    "Options").addMenu "Tools"

/-- A bar with the menus `Navigation` (item `Home`) and `X`, on which
`setDistanceToSide(-30)` was called: with glyphs 10 wide the header widths are
`100 - 60 = 40` and `10 - 60 = -50`, and the right edge of the last header is
`-10`. -/
def negativePaddingBar : MenuBar :=
  let s0 := ((((MenuBar.new exampleEnv).setSize exampleEnv (800, 20)).addMenu
    "Navigation").addMenuItem "Home" "").2.addMenu "X"
  match s0.setDistanceToSide exampleEnv (-30) with
  | some (Except.ok s1) => s1
  | _ => s0

/-- The bar with the menus `A` (item `a1`), `Edit` (item `Undo`) and a second,
empty `Edit`, after a press on the header of the first `Edit` (index 1) and
`removeMenu("A")`: two menus `Edit` are left and `m_visibleMenu` is still 1. -/
def shiftedEditBar : MenuBar :=
  let s0 := (((((emptyBar.addMenu "A").addMenuItem "a1" "").2.addMenu "Edit").addMenuItem
    "Undo" "").2.addMenu "Edit")
  let s1 := (s0.leftMousePressed exampleEnv 20 1).getD s0
  (s1.removeMenu "A").2

/-- A bar of height `20.1f` whose menu `File` holds the nine items `Item0` ..
`Item8`, after a press on the header of `File`. -/
def nineItemBar : MenuBar :=
  let s0 := ((MenuBar.new exampleEnv).setSize exampleEnv (800, f32 (201 / 10))).addMenu "File"
  let s1 :=
    ["Item0", "Item1", "Item2", "Item3", "Item4", "Item5", "Item6", "Item7", "Item8"].foldl
      (fun s t => (s.addMenuItem t "").2) s0
  (s1.leftMousePressed exampleEnv 1 1).getD s1

/-- A bar of height `10.4f` whose menu `File` holds the five items `Item0` ..
`Item4`, after a press on the header of `File`. -/
def fiveItemBar : MenuBar :=
  let s0 := ((MenuBar.new exampleEnv).setSize exampleEnv (800, f32 (104 / 10))).addMenu "File"
  let s1 :=
    ["Item0", "Item1", "Item2", "Item3", "Item4"].foldl
      (fun s t => (s.addMenuItem t "").2) s0
  (s1.leftMousePressed exampleEnv 1 1).getD s1

/-! ## Basic lemmas -/

theorem truncate_of_nonneg {q : ℚ} (h : 0 ≤ q) : truncate q = ⌊q⌋ := by
  simp [truncate, h]

theorem toUnsigned_of_nonneg {q : ℚ} (h : 0 ≤ q) (h2 : q < 2 ^ 32) :
    toUnsigned q = some ⌊q⌋₊ := by
  have h0 : (0 : Int) ≤ ⌊q⌋ := Int.floor_nonneg.mpr h
  have h1 : ⌊q⌋ < 2 ^ 32 := by
    rw [Int.floor_lt]
    exact_mod_cast h2
  have h3 : ⌊q⌋ < 4294967296 := by norm_num at h1; exact h1
  simp [toUnsigned, truncate_of_nonneg h, h0, h3, Int.floor_toNat]

theorem vecGet_natCast {α : Type} (v : List α) (k : Nat) : vecGet v (k : Int) = v[k]? := by
  simp [vecGet]

theorem setItemColor_isSome {items : List Text} {k : Int} (c : Color)
    (h0 : 0 ≤ k) (h1 : k < (items.length : Int)) :
    setItemColor items k c = some (items.modify (fun t => t.setColor c) k.toNat) := by
  have : k.toNat < items.length := by omega
  simp [setItemColor, h0, this]

theorem setItemColor_length {items items1 : List Text} {k : Int} {c : Color}
    (h : setItemColor items k c = some items1) : items1.length = items.length := by
  unfold setItemColor at h
  split at h
  · cases h; simp
  · cases h

theorem setItemColor_valid {items items1 : List Text} {k : Int} {c : Color}
    (h : setItemColor items k c = some items1) : 0 ≤ k ∧ k < (items.length : Int) := by
  unfold setItemColor at h
  split at h
  · rename_i hk; omega
  · cases h

/-- On a menu with a valid selection, `unselect` is defined, clears the
selection and keeps the header text and the number of items. -/
theorem Menu.unselect_of_valid {m : Menu} (c : Color) (h : m.SelectionValid) :
    ∃ m1, m.unselect c = some m1 ∧ m1.selectedMenuItem = -1 ∧ m1.text = m.text ∧
      m1.menuItems.map (fun t => t.string) = m.menuItems.map (fun t => t.string) := by
  unfold Menu.unselect
  by_cases hs : m.selectedMenuItem = -1
  · exact ⟨m, by simp [hs], hs, rfl, rfl⟩
  · rcases h with h | ⟨h0, h1⟩
    · exact absurd h hs
    · rw [if_pos hs, setItemColor_isSome c h0 h1]
      refine ⟨_, rfl, rfl, rfl, ?_⟩
      simp only
      apply List.ext_getElem?
      intro n
      simp only [List.getElem?_map, List.getElem?_modify]
      by_cases hn : m.selectedMenuItem.toNat = n
      · simp [hn, Text.setColor]
        cases m.menuItems[n]? <;> simp
      · simp [hn]

/-- Whenever `unselect` is defined its result has no selection. -/
theorem Menu.unselect_sel {m m1 : Menu} {c : Color} (h : m.unselect c = some m1) :
    m1.selectedMenuItem = -1 := by
  unfold Menu.unselect at h
  split at h
  · simp only [Option.map_eq_some'] at h
    obtain ⟨items, -, rfl⟩ := h
    rfl
  · rename_i hs
    cases h
    simpa using hs

/-! ## Binary32 rounding: monotone and idempotent -/

theorem pow2_eq_zpow (k : Int) : pow2 k = (2 : ℚ) ^ k := by
  unfold pow2
  split
  · rename_i h
    obtain ⟨n, rfl⟩ := Int.eq_ofNat_of_zero_le h
    simp
  · rename_i h
    have hk : 0 ≤ -k := by omega
    obtain ⟨n, hn⟩ := Int.eq_ofNat_of_zero_le hk
    have hk2 : k = -(n : Int) := by omega
    subst hk2
    simp

theorem pow2_pos (k : Int) : 0 < pow2 k := by
  rw [pow2_eq_zpow]; positivity

theorem pow2_add (a b : Int) : pow2 (a + b) = pow2 a * pow2 b := by
  simp only [pow2_eq_zpow]
  exact zpow_add₀ (by norm_num) a b

theorem pow2_le_pow2 {a b : Int} (h : a ≤ b) : pow2 a ≤ pow2 b := by
  simp only [pow2_eq_zpow]
  exact zpow_le_zpow_right₀ (by norm_num) h

theorem pow2_lt_pow2_iff {a b : Int} : pow2 a < pow2 b ↔ a < b := by
  simp only [pow2_eq_zpow]
  exact zpow_lt_zpow_iff_right₀ (by norm_num)

theorem pow2_natCast (n : Nat) : pow2 (n : Int) = ((2 ^ n : Nat) : ℚ) := by
  simp [pow2]

theorem log2Aux_spec : ∀ (fuel n : Nat), 0 < n → n ≤ fuel →
    2 ^ log2Aux fuel n ≤ n ∧ n < 2 ^ (log2Aux fuel n + 1) := by
  intro fuel
  induction fuel with
  | zero => intro n h0 h1; omega
  | succ fuel ih =>
    intro n h0 h1
    unfold log2Aux
    by_cases h2 : n < 2
    · rw [if_pos h2]
      constructor <;> simp <;> omega
    · rw [if_neg h2]
      have hdiv : 0 < n / 2 := Nat.div_pos (by omega) (by norm_num)
      have hle : n / 2 ≤ fuel := by omega
      obtain ⟨ha, hb⟩ := ih (n / 2) hdiv hle
      constructor
      · rw [pow_succ]
        have := Nat.div_mul_le_self n 2
        nlinarith
      · rw [pow_succ]
        have : n < (n / 2 + 1) * 2 := by omega
        nlinarith

theorem abs_eq_natAbs_div_den (q : ℚ) : |q| = (q.num.natAbs : ℚ) / (q.den : ℚ) := by
  conv_lhs => rw [← Rat.num_div_den q]
  rw [abs_div, Nat.abs_cast, Nat.cast_natAbs, Int.cast_abs]

theorem floorLog2_spec (q : ℚ) (hq : q ≠ 0) :
    pow2 (floorLog2 q) ≤ |q| ∧ |q| < pow2 (floorLog2 q + 1) := by
  have hn : 0 < q.num.natAbs := Int.natAbs_pos.mpr (Rat.num_ne_zero.mpr hq)
  have hd : 0 < q.den := q.den_pos
  obtain ⟨hA1, hA2⟩ := log2Aux_spec q.num.natAbs q.num.natAbs hn le_rfl
  obtain ⟨hB1, hB2⟩ := log2Aux_spec q.den q.den hd le_rfl
  unfold floorLog2
  generalize log2Aux q.num.natAbs q.num.natAbs = A at hA1 hA2 ⊢
  generalize log2Aux q.den q.den = B at hB1 hB2 ⊢
  have habs := abs_eq_natAbs_div_den q
  have hnq : (0 : ℚ) < (q.num.natAbs : ℚ) := by exact_mod_cast hn
  have hdq : (0 : ℚ) < (q.den : ℚ) := by exact_mod_cast hd
  have hA1q : (2 : ℚ) ^ A ≤ (q.num.natAbs : ℚ) := by exact_mod_cast hA1
  have hA2q : (q.num.natAbs : ℚ) < (2 : ℚ) ^ (A + 1) := by exact_mod_cast hA2
  have hB1q : (2 : ℚ) ^ B ≤ (q.den : ℚ) := by exact_mod_cast hB1
  have hB2q : (q.den : ℚ) < (2 : ℚ) ^ (B + 1) := by exact_mod_cast hB2
  have hk : ∀ j : Int, pow2 ((A : Int) - (B : Int) + j) = (2 : ℚ) ^ A / (2 : ℚ) ^ B * (2 : ℚ) ^ j := by
    intro j
    rw [pow2_eq_zpow, zpow_add₀ (by norm_num), zpow_sub₀ (by norm_num)]
    simp
  have h2A : (0 : ℚ) < (2 : ℚ) ^ A := by positivity
  have h2B : (0 : ℚ) < (2 : ℚ) ^ B := by positivity
  have hup : |q| < pow2 ((A : Int) - (B : Int) + 1) := by
    rw [hk 1, habs, zpow_one, div_mul_eq_mul_div, div_lt_div_iff₀ hdq h2B]
    have h1 : (q.num.natAbs : ℚ) * (2 : ℚ) ^ B < (2 : ℚ) ^ (A + 1) * (2 : ℚ) ^ B := by
      apply mul_lt_mul_of_pos_right hA2q h2B
    have h2 : (2 : ℚ) ^ (A + 1) * (2 : ℚ) ^ B ≤ (2 : ℚ) ^ (A + 1) * (q.den : ℚ) := by
      apply mul_le_mul_of_nonneg_left hB1q (by positivity)
    calc (q.num.natAbs : ℚ) * (2 : ℚ) ^ B < (2 : ℚ) ^ (A + 1) * (2 : ℚ) ^ B := h1
      _ ≤ (2 : ℚ) ^ (A + 1) * (q.den : ℚ) := h2
      _ = (2 : ℚ) ^ A * 2 * (q.den : ℚ) := by rw [pow_succ]
  have hlow : pow2 ((A : Int) - (B : Int) + (-1)) ≤ |q| := by
    rw [hk (-1), habs, zpow_neg, zpow_one, div_mul_eq_mul_div, div_le_div_iff₀ h2B hdq]
    have h1 : (2 : ℚ) ^ A * 2⁻¹ * (q.den : ℚ) ≤ (2 : ℚ) ^ A * 2⁻¹ * (2 : ℚ) ^ (B + 1) := by
      apply mul_le_mul_of_nonneg_left hB2q.le (by positivity)
    have h2 : (2 : ℚ) ^ A * 2⁻¹ * (2 : ℚ) ^ (B + 1) = (2 : ℚ) ^ A * (2 : ℚ) ^ B := by
      rw [pow_succ]; ring
    have h3 : (2 : ℚ) ^ A * (2 : ℚ) ^ B ≤ (q.num.natAbs : ℚ) * (2 : ℚ) ^ B := by
      apply mul_le_mul_of_nonneg_right hA1q h2B.le
    linarith
  split
  · rename_i h
    exact ⟨h, hup⟩
  · rename_i h
    refine ⟨?_, ?_⟩
    · have : (A : Int) - (B : Int) - 1 = (A : Int) - (B : Int) + (-1) := by ring
      rw [this]; exact hlow
    · have : (A : Int) - (B : Int) - 1 + 1 = (A : Int) - (B : Int) := by ring
      rw [this]; exact not_le.mp h

/-- The integer `floorLog2 q` is the only one whose power of two brackets
`|q|`. -/
theorem floorLog2_unique (q : ℚ) (k : Int) (h1 : pow2 k ≤ |q|) (h2 : |q| < pow2 (k + 1)) :
    floorLog2 q = k := by
  have hq : q ≠ 0 := by
    intro h
    rw [h, abs_zero] at h1
    exact absurd h1 (not_le.mpr (pow2_pos k))
  obtain ⟨h3, h4⟩ := floorLog2_spec q hq
  have ha : floorLog2 q < k + 1 := pow2_lt_pow2_iff.mp (lt_of_le_of_lt h3 h2)
  have hb : k < floorLog2 q + 1 := pow2_lt_pow2_iff.mp (lt_of_le_of_lt h1 h4)
  omega

theorem floorLog2_mono {q r : ℚ} (hq : q ≠ 0) (hr : r ≠ 0) (h : |q| ≤ |r|) :
    floorLog2 q ≤ floorLog2 r := by
  obtain ⟨h1, -⟩ := floorLog2_spec q hq
  obtain ⟨-, h4⟩ := floorLog2_spec r hr
  have : floorLog2 q < floorLog2 r + 1 :=
    pow2_lt_pow2_iff.mp (lt_of_le_of_lt h1 (lt_of_le_of_lt h h4))
  omega

theorem floorLog2_neg (q : ℚ) : floorLog2 (-q) = floorLog2 q := by
  unfold floorLog2
  simp only [Rat.num_neg_eq_neg_num, Int.natAbs_neg, Rat.den_neg_eq_den, abs_neg]

theorem roundHalfEven_ge_floor (a : ℚ) : ⌊a⌋ ≤ roundHalfEven a := by
  unfold roundHalfEven
  split_ifs <;> omega

theorem roundHalfEven_le_floor_succ (a : ℚ) : roundHalfEven a ≤ ⌊a⌋ + 1 := by
  unfold roundHalfEven
  split_ifs <;> omega

theorem roundHalfEven_intCast (z : Int) : roundHalfEven (z : ℚ) = z := by
  unfold roundHalfEven
  simp

theorem roundHalfEven_mono {a b : ℚ} (h : a ≤ b) : roundHalfEven a ≤ roundHalfEven b := by
  have hf : ⌊a⌋ ≤ ⌊b⌋ := Int.floor_mono h
  rcases lt_or_eq_of_le hf with hlt | heq
  · have h1 := roundHalfEven_le_floor_succ a
    have h2 := roundHalfEven_ge_floor b
    omega
  · have hfrac : a - ⌊a⌋ ≤ b - ⌊b⌋ := by rw [heq]; linarith
    unfold roundHalfEven
    rw [heq]
    rw [heq] at hfrac
    split_ifs <;> first | omega | (exfalso; linarith)

theorem roundHalfEven_le_of_le {a : ℚ} {z : Int} (h : a ≤ (z : ℚ)) : roundHalfEven a ≤ z := by
  have := roundHalfEven_mono h
  rwa [roundHalfEven_intCast] at this

theorem le_roundHalfEven_of_le {a : ℚ} {z : Int} (h : (z : ℚ) ≤ a) : z ≤ roundHalfEven a := by
  have := roundHalfEven_mono h
  rwa [roundHalfEven_intCast] at this

theorem roundHalfEven_neg (a : ℚ) : roundHalfEven (-a) = -roundHalfEven a := by
  by_cases hint : (⌊a⌋ : ℚ) = a
  · rw [← hint, ← Int.cast_neg, roundHalfEven_intCast, roundHalfEven_intCast]
  · have hlt : (⌊a⌋ : ℚ) < a := lt_of_le_of_ne (Int.floor_le a) hint
    have hfl : ⌊-a⌋ = -⌊a⌋ - 1 := by
      rw [Int.floor_eq_iff]
      have := Int.lt_floor_add_one a
      push_cast
      constructor <;> linarith
    unfold roundHalfEven
    rw [hfl]
    push_cast
    have e1 : -a - (-(⌊a⌋ : ℚ) - 1) = 1 - (a - ⌊a⌋) := by ring
    rw [e1]
    split_ifs <;> first | omega | (exfalso; linarith)

theorem ulpExponent_neg (q : ℚ) : ulpExponent (-q) = ulpExponent q := by
  unfold ulpExponent; rw [floorLog2_neg]

theorem f32_zero : f32 0 = 0 := by simp [f32]

theorem f32_of_ne_zero {q : ℚ} (hq : q ≠ 0) :
    f32 q = roundHalfEven (q / pow2 (ulpExponent q)) * pow2 (ulpExponent q) := by
  simp [f32, hq]

theorem f32_neg (q : ℚ) : f32 (-q) = -f32 q := by
  by_cases hq : q = 0
  · simp [hq, f32_zero]
  · have hq2 : -q ≠ 0 := neg_ne_zero.mpr hq
    rw [f32_of_ne_zero hq, f32_of_ne_zero hq2, ulpExponent_neg, neg_div, roundHalfEven_neg]
    push_cast
    ring

theorem f32_nonneg {q : ℚ} (hq : 0 ≤ q) : 0 ≤ f32 q := by
  by_cases h0 : q = 0
  · simp [h0, f32_zero]
  · rw [f32_of_ne_zero h0]
    have hp := pow2_pos (ulpExponent q)
    have h1 : ((0 : Int) : ℚ) ≤ q / pow2 (ulpExponent q) := by
      simp only [Int.cast_zero]
      exact div_nonneg hq hp.le
    have h2 := le_roundHalfEven_of_le h1
    have h3 : (0 : ℚ) ≤ (roundHalfEven (q / pow2 (ulpExponent q)) : ℚ) := by exact_mod_cast h2
    exact mul_nonneg h3 hp.le

theorem ulpExponent_ge (q : ℚ) : -149 ≤ ulpExponent q := le_max_right _ _

theorem ulpExponent_ge_floorLog2 (q : ℚ) : floorLog2 q - 23 ≤ ulpExponent q := le_max_left _ _

/-- A non-zero `q` is below `2 ^ 24` units in the last place. -/
theorem abs_lt_pow2_ulpExponent {q : ℚ} (hq : q ≠ 0) : |q| < pow2 (ulpExponent q + 24) := by
  obtain ⟨-, h⟩ := floorLog2_spec q hq
  have := ulpExponent_ge_floorLog2 q
  exact lt_of_lt_of_le h (pow2_le_pow2 (by omega))

theorem pow2_24 : pow2 24 = ((2 ^ 24 : Int) : ℚ) := by
  rw [pow2_eq_zpow]; norm_num

theorem pow2_23 : pow2 23 = ((2 ^ 23 : Int) : ℚ) := by
  rw [pow2_eq_zpow]; norm_num

theorem f32_mono_pos {q r : ℚ} (hq : 0 < q) (h : q ≤ r) : f32 q ≤ f32 r := by
  have hr : 0 < r := lt_of_lt_of_le hq h
  have hq0 : q ≠ 0 := hq.ne'
  have hr0 : r ≠ 0 := hr.ne'
  have hfl : floorLog2 q ≤ floorLog2 r :=
    floorLog2_mono hq0 hr0 (by rw [abs_of_pos hq, abs_of_pos hr]; exact h)
  have he : ulpExponent q ≤ ulpExponent r := by
    unfold ulpExponent
    exact max_le_max (by omega) le_rfl
  rw [f32_of_ne_zero hq0, f32_of_ne_zero hr0]
  have hpq := pow2_pos (ulpExponent q)
  have hpr := pow2_pos (ulpExponent r)
  rcases lt_or_eq_of_le he with hlt | heq
  · -- different binades: a power of two lies between the two results
    have her : ulpExponent r = floorLog2 r - 23 := by
      have h149 := ulpExponent_ge q
      unfold ulpExponent at hlt ⊢
      rcases max_cases (floorLog2 r - 23) (-149) with ⟨h1, -⟩ | ⟨h1, -⟩
      · exact h1
      · rw [h1] at hlt
        have := le_max_right (floorLog2 q - 23) (-149)
        omega
    have hr1 : pow2 (ulpExponent r + 23) ≤ r := by
      obtain ⟨h1, -⟩ := floorLog2_spec r hr0
      rw [abs_of_pos hr] at h1
      have : ulpExponent r + 23 = floorLog2 r := by omega
      rw [this]; exact h1
    have hr2 : ((2 ^ 23 : Int) : ℚ) ≤ r / pow2 (ulpExponent r) := by
      rw [le_div_iff₀ hpr, ← pow2_23, ← pow2_add, add_comm]
      exact hr1
    have hr3 := le_roundHalfEven_of_le hr2
    have hr4 : pow2 (ulpExponent r + 23) ≤
        (roundHalfEven (r / pow2 (ulpExponent r)) : ℚ) * pow2 (ulpExponent r) := by
      rw [add_comm, pow2_add, pow2_23]
      apply mul_le_mul_of_nonneg_right _ hpr.le
      exact_mod_cast hr3
    have hq1 : q < pow2 (ulpExponent q + 24) := by
      have := abs_lt_pow2_ulpExponent hq0
      rwa [abs_of_pos hq] at this
    have hq2 : q / pow2 (ulpExponent q) ≤ ((2 ^ 24 : Int) : ℚ) := by
      rw [div_le_iff₀ hpq, ← pow2_24, ← pow2_add, add_comm]
      exact hq1.le
    have hq3 := roundHalfEven_le_of_le hq2
    have hq4 : (roundHalfEven (q / pow2 (ulpExponent q)) : ℚ) * pow2 (ulpExponent q) ≤
        pow2 (ulpExponent q + 24) := by
      rw [add_comm, pow2_add, pow2_24]
      apply mul_le_mul_of_nonneg_right _ hpq.le
      exact_mod_cast hq3
    have hmid : pow2 (ulpExponent q + 24) ≤ pow2 (ulpExponent r + 23) :=
      pow2_le_pow2 (by omega)
    linarith
  · rw [heq]
    apply mul_le_mul_of_nonneg_right _ hpr.le
    have : q / pow2 (ulpExponent r) ≤ r / pow2 (ulpExponent r) :=
      div_le_div_of_nonneg_right h hpr.le
    exact_mod_cast roundHalfEven_mono this

/-- Rounding to binary32 is monotone. -/
theorem f32_mono {q r : ℚ} (h : q ≤ r) : f32 q ≤ f32 r := by
  rcases lt_trichotomy 0 q with hq | hq | hq
  · exact f32_mono_pos hq h
  · rw [← hq, f32_zero]
    exact f32_nonneg (by rw [hq]; exact h)
  · have hq1 : f32 q ≤ 0 := by
      have := f32_nonneg (show 0 ≤ -q by linarith)
      rw [f32_neg] at this
      linarith
    rcases le_or_lt 0 r with hr | hr
    · exact le_trans hq1 (f32_nonneg hr)
    · have := f32_mono_pos (show 0 < -r by linarith) (show -r ≤ -q by linarith)
      rw [f32_neg, f32_neg] at this
      linarith

/-- A multiple of its own unit in the last place is left alone by `f32`. -/
theorem f32_of_grid {q : ℚ} (z : Int) (h : q = (z : ℚ) * pow2 (ulpExponent q)) : f32 q = q := by
  by_cases hq : q = 0
  · rw [hq, f32_zero]
  · rw [f32_of_ne_zero hq]
    have hp := pow2_pos (ulpExponent q)
    have hdiv : q / pow2 (ulpExponent q) = (z : ℚ) := by
      rw [div_eq_iff hp.ne']; exact h
    rw [hdiv, roundHalfEven_intCast]
    exact h.symm

theorem pow2_sub_natCast {a b : Int} (h : b ≤ a) :
    pow2 a = (((2 : Int) ^ (a - b).toNat : Int) : ℚ) * pow2 b := by
  have : a = ((a - b).toNat : Int) + b := by
    rw [Int.toNat_of_nonneg (by omega)]; ring
  conv_lhs => rw [this]
  rw [pow2_add, pow2_natCast]
  push_cast
  rfl

/-- Rounding to binary32 is idempotent: its values are binary32 values. -/
theorem f32_idem (q : ℚ) : f32 (f32 q) = f32 q := by
  by_cases hq : q = 0
  · rw [hq, f32_zero, f32_zero]
  by_cases hr : f32 q = 0
  · rw [hr, f32_zero]
  have hp := pow2_pos (ulpExponent q)
  have hlt := abs_lt_pow2_ulpExponent hq
  -- the significand is at most `2 ^ 24` in magnitude
  have hb : |q / pow2 (ulpExponent q)| < ((2 ^ 24 : Int) : ℚ) := by
    rw [abs_div, abs_of_pos hp, div_lt_iff₀ hp, ← pow2_24, ← pow2_add, add_comm]
    exact hlt
  have hb1 : q / pow2 (ulpExponent q) ≤ ((2 ^ 24 : Int) : ℚ) := (le_abs_self _).trans hb.le
  have hb2 : ((-(2 ^ 24) : Int) : ℚ) ≤ q / pow2 (ulpExponent q) := by
    have := neg_abs_le (q / pow2 (ulpExponent q))
    push_cast
    push_cast at hb
    linarith
  have hm1 := roundHalfEven_le_of_le hb1
  have hm2 := le_roundHalfEven_of_le hb2
  have hfq := f32_of_ne_zero hq
  have he : -149 ≤ ulpExponent q := ulpExponent_ge q
  generalize roundHalfEven (q / pow2 (ulpExponent q)) = m at hm1 hm2 hfq
  generalize ulpExponent q = e at hfq hp he
  generalize f32 q = r at hfq hr
  -- `r = m * 2 ^ e` with `|m| ≤ 2 ^ 24`
  have hmabs : |(m : ℚ)| ≤ ((2 ^ 24 : Int) : ℚ) := by
    rw [abs_le]
    constructor
    · have : ((-(2 ^ 24) : Int) : ℚ) ≤ (m : ℚ) := by exact_mod_cast hm2
      push_cast at this ⊢
      linarith
    · exact_mod_cast hm1
  have hrabs : |r| ≤ pow2 (e + 24) := by
    rw [hfq, abs_mul, abs_of_pos hp, add_comm, pow2_add, pow2_24]
    exact mul_le_mul_of_nonneg_right hmabs hp.le
  obtain ⟨hfl1, -⟩ := floorLog2_spec r hr
  have hfl : floorLog2 r ≤ e + 24 := by
    by_contra hcon
    have hlt2 : pow2 (e + 24) < pow2 (floorLog2 r) := pow2_lt_pow2_iff.mpr (by omega)
    linarith
  have her : ulpExponent r ≤ e + 1 := by
    unfold ulpExponent
    exact max_le (by omega) (by omega)
  rcases le_or_lt (ulpExponent r) e with hle | hgt
  · apply f32_of_grid (m * (2 : Int) ^ (e - ulpExponent r).toNat)
    generalize ulpExponent r = er at hle ⊢
    rw [hfq, pow2_sub_natCast hle]
    push_cast
    ring
  · have heq : ulpExponent r = e + 1 := by omega
    have hfl2 : floorLog2 r = e + 24 := by
      have h1 : ulpExponent r = floorLog2 r - 23 := by
        unfold ulpExponent at heq ⊢
        rcases max_cases (floorLog2 r - 23) (-149) with ⟨h1, -⟩ | ⟨h1, -⟩
        · exact h1
        · rw [h1] at heq; omega
      omega
    rw [hfl2] at hfl1
    have hm3 : ((2 ^ 24 : Int) : ℚ) ≤ |(m : ℚ)| := by
      rw [hfq, abs_mul, abs_of_pos hp, add_comm, pow2_add, pow2_24] at hfl1
      exact le_of_mul_le_mul_right hfl1 hp
    have hm4 : |(m : ℚ)| = ((2 ^ 24 : Int) : ℚ) := le_antisymm hmabs hm3
    have hm5 : |m| = 2 ^ 24 := by
      have : ((|m| : Int) : ℚ) = ((2 ^ 24 : Int) : ℚ) := by
        rw [Int.cast_abs]; exact hm4
      exact_mod_cast this
    have hm6 : m = 2 * (m / 2) := by
      rcases abs_cases m with ⟨h1, -⟩ | ⟨h1, -⟩ <;> omega
    apply f32_of_grid (m / 2)
    rw [heq]
    rw [hfq, add_comm, pow2_add]
    have h21 : pow2 1 = 2 := by rw [pow2_eq_zpow]; norm_num
    rw [h21]
    have : (m : ℚ) = 2 * ((m / 2 : Int) : ℚ) := by
      conv_lhs => rw [hm6]
      push_cast
      ring
    conv_lhs => rw [this]
    ring

/-- A `float` sum is a binary32 value. -/
theorem f32_fadd (a b : ℚ) : f32 (fadd a b) = fadd a b := f32_idem _

/-- Adding a non-negative `float` to a binary32 value does not lower it. -/
theorem le_fadd_of_nonneg {a b : ℚ} (ha : f32 a = a) (hb : 0 ≤ b) : a ≤ fadd a b := by
  have := f32_mono (show a ≤ a + b by linarith)
  rw [ha] at this
  exact this

/-! ## The header scan -/

theorem headerScan_bound (env : Env) (s : MenuBar) (x : ℚ) :
    ∀ (ms : List Menu) (i : Nat) (w : ℚ) (k : Nat),
      headerScan env s x ms i w = some k → i ≤ k ∧ k < i + ms.length := by
  intro ms
  induction ms with
  | nil => intro i w k h; simp [headerScan] at h
  | cons m ms ih =>
    intro i w k h
    unfold headerScan at h
    split at h
    · cases h; simp
    · have := ih _ _ _ h
      simp only [List.length_cons]
      omega

theorem headerScan_lt_length {env : Env} {s : MenuBar} {x : ℚ} {k : Nat}
    (h : headerScan env s x s.m_menus 0 0 = some k) : k < s.m_menus.length := by
  have := headerScan_bound env s x _ _ _ _ h
  omega

/-- The running `float` sum of the scan stays a binary32 value. -/
theorem f32_foldl_fadd (width : Menu → ℚ) :
    ∀ (ms : List Menu) (w0 : ℚ), f32 w0 = w0 →
      f32 (ms.foldl (fun edge m => fadd edge (width m)) w0) =
        ms.foldl (fun edge m => fadd edge (width m)) w0 := by
  intro ms
  induction ms with
  | nil => intro w0 h; exact h
  | cons m ms ih =>
    intro w0 _
    simp only [List.foldl_cons]
    exact ih _ (f32_fadd _ _)

/-- With non-negative widths the running `float` sum never decreases. -/
theorem le_foldl_fadd (width : Menu → ℚ) :
    ∀ (ms : List Menu) (w0 : ℚ), f32 w0 = w0 → (∀ m ∈ ms, 0 ≤ width m) →
      w0 ≤ ms.foldl (fun edge m => fadd edge (width m)) w0 := by
  intro ms
  induction ms with
  | nil => intro w0 _ _; exact le_rfl
  | cons m ms ih =>
    intro w0 h0 hnn
    simp only [List.foldl_cons]
    have h1 : w0 ≤ fadd w0 (width m) := le_fadd_of_nonneg h0 (hnn m (List.mem_cons_self _ _))
    have h2 := ih (fadd w0 (width m)) (f32_fadd _ _)
      (fun m1 hm1 => hnn m1 (List.mem_cons_of_mem _ hm1))
    exact le_trans h1 h2

theorem headerScan_span (env : Env) (s : MenuBar) (x : ℚ) :
    ∀ (ms : List Menu) (i0 : Nat) (w0 : ℚ) (i : Nat), f32 w0 = w0 →
      (∀ m ∈ ms, 0 ≤ s.headerWidth env m) → i < ms.length →
      (ms.take i).foldl (fun edge m => fadd edge (s.headerWidth env m)) w0 ≤ x →
      x < (ms.take (i + 1)).foldl (fun edge m => fadd edge (s.headerWidth env m)) w0 →
      headerScan env s x ms i0 w0 = some (i0 + i) := by
  intro ms
  induction ms with
  | nil => intro i0 w0 i _ _ hi; simp at hi
  | cons m ms ih =>
    intro i0 w0 i h0 hnn hi hl hr
    unfold headerScan
    cases i with
    | zero =>
      simp only [List.take_succ_cons, List.take_zero, List.foldl_cons, List.foldl_nil] at hr
      simp [hr]
    | succ i =>
      simp only [List.take_succ_cons, List.foldl_cons] at hl hr
      have hge := le_foldl_fadd (s.headerWidth env) (ms.take i) (fadd w0 (s.headerWidth env m))
        (f32_fadd _ _)
        (fun m1 hm1 => hnn m1 (List.mem_cons_of_mem _ (List.mem_of_mem_take hm1)))
      have hnot : ¬ x < fadd w0 (s.headerWidth env m) := by
        intro hlt; linarith
      rw [if_neg hnot]
      have := ih (i0 + 1) (fadd w0 (s.headerWidth env m)) i (f32_fadd _ _)
        (fun m1 hm1 => hnn m1 (List.mem_cons_of_mem _ hm1))
        (by simpa using hi) hl hr
      rw [this]
      congr 1
      omega

theorem headerScan_none_of_beyond (env : Env) (s : MenuBar) (x : ℚ) :
    ∀ (ms : List Menu) (i : Nat) (w0 : ℚ), f32 w0 = w0 →
      (∀ m ∈ ms, 0 ≤ s.headerWidth env m) →
      ms.foldl (fun edge m => fadd edge (s.headerWidth env m)) w0 ≤ x →
      headerScan env s x ms i w0 = none := by
  intro ms
  induction ms with
  | nil => intro i w0 _ _ _; rfl
  | cons m ms ih =>
    intro i w0 h0 hnn hx
    simp only [List.foldl_cons] at hx
    have hge := le_foldl_fadd (s.headerWidth env) ms (fadd w0 (s.headerWidth env m))
      (f32_fadd _ _) (fun m1 hm1 => hnn m1 (List.mem_cons_of_mem _ hm1))
    have hnot : ¬ x < fadd w0 (s.headerWidth env m) := by
      intro hlt; linarith
    unfold headerScan
    rw [if_neg hnot]
    exact ih (i + 1) _ (f32_fadd _ _) (fun m1 hm1 => hnn m1 (List.mem_cons_of_mem _ hm1)) hx

/-- The left edge is the running sum of the scan: its widths are the header
widths that the code computes. -/
theorem leftEdge_eq (env : Env) (s : MenuBar) (i : Nat) :
    s.leftEdge env i =
      (s.m_menus.take i).foldl (fun edge m => fadd edge (s.headerWidth env m)) 0 := rfl

theorem widthsNonneg_iff (env : Env) (s : MenuBar) :
    s.WidthsNonneg env ↔ ∀ m ∈ s.m_menus, 0 ≤ s.headerWidth env m := Iff.rfl

theorem leftEdge_mono (env : Env) (s : MenuBar) (hnn : s.WidthsNonneg env) :
    ∀ (k i : Nat), k ≤ i → s.leftEdge env k ≤ s.leftEdge env i := by
  intro k i hki
  rw [leftEdge_eq, leftEdge_eq]
  obtain ⟨d, rfl⟩ := Nat.exists_eq_add_of_le hki
  rw [← List.take_append_drop k (List.take (k + d) s.m_menus)]
  rw [List.take_take, Nat.min_eq_left (Nat.le_add_right k d), List.foldl_append]
  apply le_foldl_fadd (s.headerWidth env) _ _
    (f32_foldl_fadd (s.headerWidth env) _ 0 f32_zero)
  intro m1 hm1
  exact hnn m1 (List.mem_of_mem_take (List.mem_of_mem_drop hm1))

/-- The scan started at index 0 resolves to the menu whose span holds `x`. -/
theorem headerScan_of_span {env : Env} {s : MenuBar} {x : ℚ} {i : Nat}
    (hnonneg : s.WidthsNonneg env)
    (hi : i < s.m_menus.length)
    (hleft : s.leftEdge env i ≤ x) (hright : x < s.leftEdge env (i + 1)) :
    headerScan env s x s.m_menus 0 0 = some i := by
  have := headerScan_span env s x s.m_menus 0 0 i f32_zero hnonneg hi hleft hright
  simpa using this

/-- The two readings of "`x` falls on the header of menu `i`" agree: the scan
of the code resolves to `i`, or the header widths are non-negative and `x`
lies in the span of menu `i`. -/
theorem headerScan_of_onHeader {env : Env} {s : MenuBar} {x : ℚ} {i : Nat}
    (hi : i < s.m_menus.length) (h : s.OnHeader env x i) :
    headerScan env s x s.m_menus 0 0 = some i := by
  rcases h with h | ⟨hnn, hl, hr⟩
  · exact h
  · exact headerScan_of_span hnn hi hl hr

/-- C5. For menus whose header widths (label width `+ 2 * distanceToSide`) are
non-negative, an index `i` and a point whose `x` lies in the horizontal span
of menu `i` (sum of the widths of the menus `0 .. i-1` `≤ x <` sum of the
widths of the menus `0 .. i`, the sums taken from the left in `float`
arithmetic as the code takes them), the header scan that `leftMousePressed`
and `mouseMoved` run for a point with `y` below the bar height resolves to
`i`, and `i` is the first index whose cumulative right edge exceeds `x`. -/
theorem headerScan_resolves_span (env : Env) (s : MenuBar) (x : ℚ) (i : Nat)
    (hnonneg : ∀ m ∈ s.m_menus,
      0 ≤ fadd (m.text.getSizeX env) (fmul (natToFloat 2) s.m_renderer.distanceToSide))
    (hleft :
      (s.m_menus.take i).foldl
        (fun edge m =>
          fadd edge
            (fadd (m.text.getSizeX env) (fmul (natToFloat 2) s.m_renderer.distanceToSide)))
        0 ≤ x)
    (hright :
      x < (s.m_menus.take (i + 1)).foldl
        (fun edge m =>
          fadd edge
            (fadd (m.text.getSizeX env) (fmul (natToFloat 2) s.m_renderer.distanceToSide)))
        0) :
    headerScan env s x s.m_menus 0 0 = some i ∧
      x < s.leftEdge env (i + 1) ∧ ∀ k, k < i → ¬ x < s.leftEdge env (k + 1) := by
  have hi : i < s.m_menus.length := by
    by_contra hge
    rw [List.take_of_length_le (not_lt.mp hge),
      List.take_of_length_le (Nat.le_succ_of_le (not_lt.mp hge))] at *
    linarith
  refine ⟨headerScan_of_span hnonneg hi hleft hright, hright, ?_⟩
  intro k hk hlt
  have h1 := leftEdge_mono env s hnonneg (k + 1) i hk
  have h2 : s.leftEdge env i ≤ x := hleft
  linarith

set_option maxRecDepth 100000 in
/-- Witness of C5: on `threeMenuBar` the header widths are `36.1`, `63.9` and
`41.4` as `float`s; the `float` sum of the first two is exactly 100, so the
point `x = 100` lies in the span of menu 2 and the scan resolves to menu 2. -/
theorem headerScan_resolves_span_witness :
    headerScan decimalEnv threeMenuBar 100 threeMenuBar.m_menus 0 0 = some 2 ∧
      (100 : ℚ) < threeMenuBar.leftEdge decimalEnv (2 + 1) ∧
      ∀ k, k < 2 → ¬ (100 : ℚ) < threeMenuBar.leftEdge decimalEnv (k + 1) :=
  headerScan_resolves_span decimalEnv threeMenuBar 100 2
    (by with_unfolding_all decide) (by with_unfolding_all decide)
    (by with_unfolding_all decide)
/-! ## Closing, pressing and releasing -/

/-- On an open menu with a valid selection `closeVisibleMenu` is defined; it
rewrites only the open menu and resets the open-menu index. -/
theorem closeVisibleMenu_of_open {s : MenuBar} {k : Nat} {m : Menu}
    (hopen : s.m_visibleMenu = (k : Int)) (hm : s.m_menus[k]? = some m)
    (hsel : m.SelectionValid) :
    ∃ m1, m.unselect s.m_renderer.textColor = some m1 ∧
      s.closeVisibleMenu = some { s with
        m_menus := s.m_menus.set k { m1 with text := m1.text.setColor s.m_renderer.textColor }
        m_visibleMenu := -1 } := by
  obtain ⟨m1, h1, -, -, -⟩ := Menu.unselect_of_valid s.m_renderer.textColor hsel
  refine ⟨m1, h1, ?_⟩
  have hne : s.m_visibleMenu ≠ -1 := by rw [hopen]; omega
  unfold MenuBar.closeVisibleMenu
  rw [if_pos hne, hopen, vecGet_natCast, hm]
  simp [h1]

/-- When menu `k` is open with a selection that is `-1` or a valid index, the
mouse is down and the release point has `y ≥ h` with the converted `float`
quotient `(y - h) / h` an index `j` of an item of menu `k`:
`leftMouseReleased` emits exactly one `MenuItemClicked` signal, carrying
(label of menu `k`, label of item `j`) with callback index `k` and callback
text the label of item `j`, and afterwards no menu is open. -/
theorem leftMouseReleased_activates (s : MenuBar) (k j : Nat) (m : Menu) (item : Text)
    (x y : ℚ)
    (hopen : s.m_visibleMenu = (k : Int)) (hm : s.m_menus[k]? = some m)
    (hdown : s.m_mouseDown = true) (hy : s.height ≤ y)
    (hj : (fdiv (fsub y s.height) s.height).bind toUnsigned = some j)
    (hitem : m.menuItems[j]? = some item)
    (hsel : m.SelectionValid) :
    ∃ s1, s.leftMouseReleased x y = some s1 ∧
      s1.signals = s.signals ++
        [Signal.MenuItemClicked ⟨(k : Int), item.string⟩ [m.text.string, item.string]
          item.string] ∧
      s1.m_callback = ⟨(k : Int), item.string⟩ ∧
      s1.m_visibleMenu = -1 := by
  obtain ⟨q, hdiv, hto⟩ := Option.bind_eq_some.mp hj
  let s0 : MenuBar := { s with
    m_callback := ⟨s.m_visibleMenu, item.string⟩
    signals := s.signals ++
      [Signal.MenuItemClicked ⟨s.m_visibleMenu, item.string⟩ [m.text.string, item.string]
        item.string] }
  obtain ⟨m1, -, hclose⟩ :=
    closeVisibleMenu_of_open (s := s0) (k := k) (m := m) hopen hm hsel
  have hrel : s.leftMouseReleased x y = s0.closeVisibleMenu := by
    unfold MenuBar.leftMouseReleased
    rw [if_pos hdown, if_pos hy, hdiv]
    simp only [Option.bind_eq_bind, Option.some_bind, hto]
    rw [hopen, vecGet_natCast, hm]
    simp only [Option.some_bind, hitem]
    rw [← hopen]
  rw [hclose] at hrel
  exact ⟨_, hrel, by simp [s0, hopen], by simp [s0, hopen], rfl⟩

set_option maxRecDepth 8000 in
/-- C1 (fails): the state `staleSelectionBar` is reached from `fileBar` through
the public operations (a move onto item 2, then `removeMenuItem` of item 0,
which leaves `selectedMenuItem = 2` with two items left); menu 0 is open, the
mouse is down, `h = 20 > 0`, and the release point `y = 25 ≥ h` gives
`j = 0`, below the item count 2.  `leftMouseReleased` ends in
`closeVisibleMenu`, which indexes `menuItems[2]` out of range: the call has no
defined result, where the claim has one signal and a closed bar. -/
theorem leftMouseReleased_stale_selection :
    fileBar.steps exampleEnv
        [Op.addMenuItem "Quit" "", Op.leftMousePressed 1 1, Op.mouseMoved 1 65,
          Op.removeMenuItem "File" "Load"] = some staleSelectionBar ∧
      staleSelectionBar.m_visibleMenu = 0 ∧
      staleSelectionBar.m_mouseDown = true ∧
      (0 : ℚ) < staleSelectionBar.height ∧ staleSelectionBar.height ≤ 25 ∧
      (staleSelectionBar.m_menus.map fun m => (m.menuItems.length, m.selectedMenuItem))
        = [(2, 2)] ∧
      ⌊((25 : ℚ) - staleSelectionBar.height) / staleSelectionBar.height⌋₊ = 0 ∧
      (fdiv (fsub 25 staleSelectionBar.height) staleSelectionBar.height).bind toUnsigned
        = some 0 ∧
      staleSelectionBar.leftMouseReleased 1 25 = none := by
  with_unfolding_all decide

/-- When menu `i` is open with a selection that is `-1` or a valid index, and
the press point has `y` below the bar height and `x` on the header of menu
`i`: after `leftMousePressed` no menu is open and menu `i` has no selected
item. -/
theorem leftMousePressed_open_header_closes (env : Env) (s : MenuBar) (x y : ℚ) (i : Nat)
    (m : Menu)
    (hopen : s.m_visibleMenu = (i : Int)) (hm : s.m_menus[i]? = some m)
    (hy : y < s.height) (hx : s.OnHeader env x i)
    (hsel : m.SelectionValid) :
    ∃ s1, s.leftMousePressed env x y = some s1 ∧ s1.m_visibleMenu = -1 ∧
      ∃ m1, s1.m_menus[i]? = some m1 ∧ m1.selectedMenuItem = -1 := by
  obtain ⟨m1, h1, hs1, -, -⟩ := Menu.unselect_of_valid s.m_renderer.textColor hsel
  have hi : i < s.m_menus.length := by
    by_contra hge
    rw [List.getElem?_eq_none (not_lt.mp hge)] at hm
    cases hm
  have hscan := headerScan_of_onHeader hi hx
  have hpress : s.leftMousePressed env x y = some
      { s with
        m_menus := s.m_menus.set i { m1 with text := m1.text.setColor s.m_renderer.textColor }
        m_visibleMenu := -1
        m_mouseDown := true } := by
    unfold MenuBar.leftMousePressed
    simp [hy, hscan, hm, hopen, h1]
  exact ⟨_, hpress, rfl,
    { m1 with text := m1.text.setColor s.m_renderer.textColor }, by simp [hi], hs1⟩

set_option maxRecDepth 8000 in
/-- C2 (fails): in `staleSelectionBar`, reached from `fileBar` through the
public operations (a move onto item 2, then `removeMenuItem` of item 0, which
leaves `selectedMenuItem = 2` with two items left), menu 0 is open and the
press point `(1, 1)` lies on its header, below the bar height 20.  The closing
branch of `leftMousePressed` indexes `menuItems[2]` out of range: the call has
no defined result, where the claim has a closed bar. -/
theorem leftMousePressed_stale_selection :
    fileBar.steps exampleEnv
        [Op.addMenuItem "Quit" "", Op.leftMousePressed 1 1, Op.mouseMoved 1 65,
          Op.removeMenuItem "File" "Load"] = some staleSelectionBar ∧
      staleSelectionBar.m_visibleMenu = 0 ∧
      (1 : ℚ) < staleSelectionBar.height ∧
      headerScan exampleEnv staleSelectionBar 1 staleSelectionBar.m_menus 0 0 = some 0 ∧
      (staleSelectionBar.m_menus.map fun m => (m.menuItems.length, m.selectedMenuItem))
        = [(2, 2)] ∧
      staleSelectionBar.leftMousePressed exampleEnv 1 1 = none := by
  with_unfolding_all decide

set_option maxRecDepth 100000 in
/-- C3 (fails as stated): on `negativePaddingBar`, where `distanceToSide = -30`
makes the header widths 40 and -50, the right edge of the last header is
`-10`.  The press at `(0, 1)` has `x` beyond that edge, so by the claim it
falls on no header and leaves the bar closed; the scan of the code stops at
menu 0 (`0 < 40`) and opens it. -/
theorem leftMousePressed_negative_width :
    negativePaddingBar.m_visibleMenu = -1 ∧
      negativePaddingBar.m_renderer.distanceToSide = -30 ∧
      (negativePaddingBar.m_menus.map fun m => negativePaddingBar.headerWidth exampleEnv m)
        = [40, -50] ∧
      negativePaddingBar.leftEdge exampleEnv negativePaddingBar.m_menus.length = -10 ∧
      negativePaddingBar.leftEdge exampleEnv negativePaddingBar.m_menus.length ≤ 0 ∧
      (1 : ℚ) < negativePaddingBar.height ∧
      (negativePaddingBar.leftMousePressed exampleEnv 0 1).map (fun s1 => s1.m_visibleMenu)
        = some 0 := by
  with_unfolding_all decide

/-- C3 (amended). In a state whose header widths (label width
`+ 2 * distanceToSide`) are non-negative, a press with `y` below the bar height
whose `x` lies in the span of a menu `i` that is not the open menu (left edge
of `i` `≤ x <` left edge of `i + 1`, the edges being the `float` sums of the
header widths) opens `i` when it has an item and leaves the open-menu index
unchanged when it has none; a press that falls on no header (`y` not below the
bar height, or `x` at or beyond the right edge of the last header) leaves the
open-menu index unchanged.  In every one of these cases the call is
defined. -/
theorem leftMousePressed_other_header (env : Env) (s : MenuBar) (x y : ℚ)
    (hnonneg : ∀ m ∈ s.m_menus,
      0 ≤ fadd (m.text.getSizeX env) (fmul (natToFloat 2) s.m_renderer.distanceToSide)) :
    (∀ (i : Nat) (m : Menu), y < s.height →
        s.leftEdge env i ≤ x → x < s.leftEdge env (i + 1) →
        s.m_menus[i]? = some m → s.m_visibleMenu ≠ (i : Int) →
        ∃ s1, s.leftMousePressed env x y = some s1 ∧
          (m.menuItems ≠ [] → s1.m_visibleMenu = (i : Int)) ∧
          (m.menuItems = [] → s1.m_visibleMenu = s.m_visibleMenu)) ∧
      ((¬ y < s.height ∨ s.leftEdge env s.m_menus.length ≤ x) →
        ∃ s1, s.leftMousePressed env x y = some s1 ∧
          s1.m_visibleMenu = s.m_visibleMenu) := by
  have hnone : (¬ y < s.height ∨ headerScan env s x s.m_menus 0 0 = none) →
      ∃ s1, s.leftMousePressed env x y = some s1 ∧ s1.m_visibleMenu = s.m_visibleMenu := by
    intro h
    refine ⟨{ s with m_mouseDown := true }, ?_, rfl⟩
    unfold MenuBar.leftMousePressed
    rcases h with h | h
    · simp [h]
    · simp [h]
  refine ⟨?_, ?_⟩
  · intro i m hy hl hr hm hne
    have hi : i < s.m_menus.length := by
      by_contra hge
      rw [List.getElem?_eq_none (not_lt.mp hge)] at hm
      cases hm
    have hscan := headerScan_of_span hnonneg hi hl hr
    by_cases hitems : m.menuItems = []
    · refine ⟨{ s with m_mouseDown := true }, ?_, fun h => absurd hitems h, fun _ => rfl⟩
      unfold MenuBar.leftMousePressed
      simp [hy, hscan, hm, hne, hitems]
    · refine ⟨{ s with
          m_menus := s.m_menus.set i { m with text := m.text.setColor s.highlightColor }
          m_visibleMenu := (i : Int)
          m_mouseDown := true }, ?_, fun _ => rfl, fun h => absurd h hitems⟩
      unfold MenuBar.leftMousePressed
      simp [hy, hscan, hm, hne, hitems]
  · intro h
    apply hnone
    rcases h with h | h
    · exact Or.inl h
    · right
      apply headerScan_none_of_beyond env s x s.m_menus 0 0 f32_zero hnonneg
      rw [leftEdge_eq, List.take_length] at h
      exact h

set_option maxRecDepth 100000 in
/-- Witness of C3 (amended): on `fileEditBar`, whose headers span `[0, 48)` and
`[48, 96)`, the press at `(60, 1)` opens `Edit` (menu 1), and the press at
`(100, 1)`, beyond the right edge 96, leaves the bar closed. -/
theorem leftMousePressed_other_header_witness :
    (∃ s1, fileEditBar.leftMousePressed exampleEnv 60 1 = some s1 ∧
        s1.m_visibleMenu = ((1 : Nat) : Int)) ∧
      ∃ s1, fileEditBar.leftMousePressed exampleEnv 100 1 = some s1 ∧
        s1.m_visibleMenu = fileEditBar.m_visibleMenu := by
  constructor
  · obtain ⟨s1, h1, h2, -⟩ :=
      (leftMousePressed_other_header exampleEnv fileEditBar 60 1
        (by with_unfolding_all decide)).1 1
        ⟨⟨"Edit", Color.Black, 1, 0, 16⟩, [⟨"Undo", Color.Black, 1, 0, 16⟩], -1⟩
        (by with_unfolding_all decide) (by with_unfolding_all decide)
        (by with_unfolding_all decide) (by with_unfolding_all decide)
        (by with_unfolding_all decide)
    exact ⟨s1, h1, h2 (by simp)⟩
  · exact (leftMousePressed_other_header exampleEnv fileEditBar 100 1
      (by with_unfolding_all decide)).2 (Or.inr (by with_unfolding_all decide))

/-- C4 (amended). When no menu is open and the release point has `y` below the
bar height, or the mouse is not down, `leftMouseReleased` is defined, emits no
signal and leaves the whole state unchanged. -/
theorem leftMouseReleased_closed_no_signal (s : MenuBar) (x y : ℚ)
    (hclosed : s.m_visibleMenu = -1) (hpoint : s.m_mouseDown = false ∨ y < s.height) :
    s.leftMouseReleased x y = some s ∧
      ∀ s1, s.leftMouseReleased x y = some s1 →
        s1.signals = s.signals ∧ s1.m_visibleMenu = -1 := by
  have h : s.leftMouseReleased x y = some s := by
    unfold MenuBar.leftMouseReleased
    rcases hpoint with h | h
    · simp [h]
    · have : ¬ s.height ≤ y := not_le.mpr h
      simp [this]
  refine ⟨h, ?_⟩
  intro s1 h1
  rw [h] at h1
  cases h1
  exact ⟨rfl, hclosed⟩

/-- Witness of C4 (amended): a release on the closed bar `fileBar`. -/
theorem leftMouseReleased_closed_no_signal_witness :
    fileBar.leftMouseReleased 1 1 = some fileBar ∧
      ∀ s1, fileBar.leftMouseReleased 1 1 = some s1 →
        s1.signals = fileBar.signals ∧ s1.m_visibleMenu = -1 :=
  leftMouseReleased_closed_no_signal fileBar 1 1
    (by with_unfolding_all decide) (Or.inl (by with_unfolding_all decide))

set_option maxRecDepth 8000 in
/-- C4, counterexample. The state `fileBarPressedAside` is `fileBar` after the
delivered press `(100, 1)`, right of every header: no menu is open and the
mouse is down.  A release at `(100, 25)`, below the bar (where `mouseOnWidget`
is false), evaluates `m_menus[-1]`: the call has no defined result, so it is
not a call that emits nothing. -/
theorem leftMouseReleased_closed_below_bar :
    fileBar.mouseOnWidget exampleEnv 100 1 = some true ∧
      fileBar.leftMousePressed exampleEnv 100 1 = some fileBarPressedAside ∧
      fileBarPressedAside.m_visibleMenu = -1 ∧
      fileBarPressedAside.m_mouseDown = true ∧
      fileBarPressedAside.mouseOnWidget exampleEnv 100 25 = some false ∧
      fileBarPressedAside.leftMouseReleased 100 25 = none := by
  with_unfolding_all decide

/-! ## Removing menus -/

theorem removeMenuLoop_first (label : String) :
    ∀ (ms : List Menu) (i k : Nat) (m : Menu), ms[k]? = some m →
      (∀ j, j < k → ∀ mj, ms[j]? = some mj → mj.text.string ≠ label) →
      m.text.string = label →
      removeMenuLoop label ms i = some (i + k, ms.eraseIdx k) := by
  intro ms
  induction ms with
  | nil => intro i k m hm; simp at hm
  | cons m0 ms ih =>
    intro i k m hm hfirst hlabel
    unfold removeMenuLoop
    cases k with
    | zero =>
      simp only [List.getElem?_cons_zero, Option.some.injEq] at hm
      subst hm
      simp [hlabel]
    | succ k =>
      have h0 : m0.text.string ≠ label := hfirst 0 (Nat.succ_pos k) m0 (by simp)
      rw [if_neg h0]
      have hrec := ih (i + 1) k m (by simpa using hm)
        (fun j hj mj hmj => hfirst (j + 1) (Nat.succ_lt_succ hj) mj (by simpa using hmj))
        hlabel
      rw [hrec]
      simp only [Option.map_some', List.eraseIdx_cons_succ, Option.some.injEq, Prod.mk.injEq,
        and_true]
      omega

/-- When the open menu `k` is the first menu carrying its label, `removeMenu`
with that label returns true, removes menu `k` and leaves no menu open. -/
theorem removeMenu_open_first_closes (s : MenuBar) (k : Nat) (m : Menu)
    (hopen : s.m_visibleMenu = (k : Int)) (hm : s.m_menus[k]? = some m)
    (hfirst : ∀ j, j < k → ∀ mj, s.m_menus[j]? = some mj → mj.text.string ≠ m.text.string) :
    (s.removeMenu m.text.string).1 = true ∧
      (s.removeMenu m.text.string).2.m_menus = s.m_menus.eraseIdx k ∧
      (s.removeMenu m.text.string).2.m_visibleMenu = -1 := by
  have h := removeMenuLoop_first m.text.string s.m_menus 0 k m hm hfirst rfl
  unfold MenuBar.removeMenu
  rw [h]
  simp [hopen]

set_option maxRecDepth 100000 in
/-- C6 (fails): `shiftedEditBar` is reached through the public operations: the
menus `A` [`a1`], `Edit` [`Undo`] and a second, empty `Edit` are added, the
first `Edit` (index 1) is opened by a press on its header, and `removeMenu("A")`
erases menu 0 without shifting the open-menu index.  Index 1 now designates
the second `Edit`.  `removeMenu("Edit")`, the label of the open menu, erases
index 0 and leaves `m_visibleMenu = 1`: the bar is not in the Closed state. -/
theorem removeMenu_after_shift_stays_open :
    emptyBar.steps exampleEnv
        [Op.addMenu "A", Op.addMenuItem "a1" "", Op.addMenu "Edit", Op.addMenuItem "Undo" "",
          Op.addMenu "Edit", Op.leftMousePressed 20 1, Op.removeMenu "A"]
      = some shiftedEditBar ∧
      shiftedEditBar.m_visibleMenu = 1 ∧
      (shiftedEditBar.m_menus.map fun m => (m.text.string, m.menuItems.length))
        = [("Edit", 1), ("Edit", 0)] ∧
      (vecGet shiftedEditBar.m_menus shiftedEditBar.m_visibleMenu).map
        (fun m => m.text.string) = some "Edit" ∧
      (shiftedEditBar.removeMenu "Edit").1 = true ∧
      ((shiftedEditBar.removeMenu "Edit").2.m_menus.map fun m =>
        (m.text.string, m.menuItems.length)) = [("Edit", 0)] ∧
      (shiftedEditBar.removeMenu "Edit").2.m_visibleMenu = 1 ∧
      (shiftedEditBar.removeMenu "Edit").2.m_visibleMenu ≠ -1 := by
  with_unfolding_all decide
/-! ## Adding items -/

theorem addMenuItemLoop_eq_none (item : Text) (menu : String) :
    ∀ (ms : List Menu),
      addMenuItemLoop item menu ms = none ↔ ∀ m ∈ ms, m.text.string ≠ menu := by
  intro ms
  induction ms with
  | nil => simp [addMenuItemLoop]
  | cons m ms ih =>
    unfold addMenuItemLoop
    by_cases h : m.text.string = menu
    · simp [h]
    · simp [h, ih]

theorem addMenuItemLoop_eq_some (item : Text) (menu : String) :
    ∀ (ms ms1 : List Menu), addMenuItemLoop item menu ms = some ms1 →
      ∃ pre m post, ms = pre ++ m :: post ∧ (∀ p ∈ pre, p.text.string ≠ menu) ∧
        m.text.string = menu ∧
        ms1 = pre ++ { m with menuItems := m.menuItems ++ [item] } :: post := by
  intro ms
  induction ms with
  | nil => intro ms1 h; simp [addMenuItemLoop] at h
  | cons m ms ih =>
    intro ms1 h
    unfold addMenuItemLoop at h
    by_cases hm : m.text.string = menu
    · rw [if_pos hm] at h
      cases h
      exact ⟨[], m, ms, rfl, by simp, hm, rfl⟩
    · rw [if_neg hm] at h
      simp only [Option.map_eq_some'] at h
      obtain ⟨ms2, h2, rfl⟩ := h
      obtain ⟨pre, m1, post, rfl, hpre, hm1, rfl⟩ := ih ms2 h2
      refine ⟨m :: pre, m1, post, rfl, ?_, hm1, rfl⟩
      intro p hp
      rcases List.mem_cons.mp hp with rfl | hp
      · exact hm
      · exact hpre p hp

/-- C10. For a non-empty menu name, `addMenuItem(text, menu)` returns true iff
some menu is labelled `menu`; when it returns true exactly one item labelled
`text` is appended at the end of the first menu with that label, and every
other menu, the open-menu index and the rest of the state are unchanged; when
it returns false the state is unchanged.  With an empty menu name and no menus
at all it returns false and changes nothing. -/
theorem addMenuItem_named (s : MenuBar) (text menu : String) :
    (menu ≠ "" →
      ((s.addMenuItem text menu).1 = true ↔ ∃ m ∈ s.m_menus, m.text.string = menu) ∧
      ((s.addMenuItem text menu).1 = true →
        ∃ pre m post item, s.m_menus = pre ++ m :: post ∧
          (∀ p ∈ pre, p.text.string ≠ menu) ∧ m.text.string = menu ∧
          item.string = text ∧
          (s.addMenuItem text menu).2 =
            { s with m_menus := pre ++ { m with menuItems := m.menuItems ++ [item] } :: post } ∧
          (s.addMenuItem text menu).2.m_visibleMenu = s.m_visibleMenu) ∧
      ((s.addMenuItem text menu).1 = false → (s.addMenuItem text menu).2 = s)) ∧
    (s.m_menus = [] → s.addMenuItem text "" = (false, s)) := by
  constructor
  · intro hne
    have hdef : s.addMenuItem text menu =
        match addMenuItemLoop (s.newText text) menu s.m_menus with
        | some menus => (true, { s with m_menus := menus })
        | none => (false, s) := by
      unfold MenuBar.addMenuItem
      simp [hne]
    rw [hdef]
    cases hloop : addMenuItemLoop (s.newText text) menu s.m_menus with
    | none =>
      have hnone := (addMenuItemLoop_eq_none _ _ _).mp hloop
      refine ⟨?_, ?_, ?_⟩
      · simp only [Bool.false_eq_true, false_iff, not_exists, not_and]
        intro m hm; exact hnone m hm
      · intro h; simp at h
      · intro _; rfl
    | some menus =>
      obtain ⟨pre, m, post, hms, hpre, hm, rfl⟩ := addMenuItemLoop_eq_some _ _ _ _ hloop
      refine ⟨?_, ?_, ?_⟩
      · simp only [true_iff]
        exact ⟨m, by rw [hms]; simp, hm⟩
      · intro _
        exact ⟨pre, m, post, s.newText text, hms, hpre, hm, rfl, rfl, rfl⟩
      · intro h; simp at h
  · intro hempty
    unfold MenuBar.addMenuItem
    simp [hempty]

/-- Witness of C10: adding `Quit` to the menu `File` of `fileBar`, and adding
to the last menu of a bar without menus. -/
theorem addMenuItem_named_witness :
    ((fileBar.addMenuItem "Quit" "File").1 = true ↔
        ∃ m ∈ fileBar.m_menus, m.text.string = "File") ∧
      (MenuBar.new exampleEnv).addMenuItem "Quit" "" = (false, MenuBar.new exampleEnv) :=
  ⟨((addMenuItem_named fileBar "Quit" "File").1 (by decide)).1,
    (addMenuItem_named (MenuBar.new exampleEnv) "Quit" "").2 rfl⟩

/-! ## `getMenus`: the `std::map` built from the menu list -/

theorem StdMap.mem_assign (k : String) (v : List String) :
    ∀ (m : StdMap) (e : String × List String),
      e ∈ StdMap.assign k v m → e = (k, v) ∨ e ∈ m := by
  intro m
  induction m with
  | nil => intro e h; simpa [StdMap.assign] using h
  | cons hd rest ih =>
    obtain ⟨k1, v1⟩ := hd
    intro e h
    unfold StdMap.assign at h
    split_ifs at h with h1 h2
    · rcases List.mem_cons.mp h with h | h
      · exact Or.inl h
      · exact Or.inr h
    · rcases List.mem_cons.mp h with h | h
      · exact Or.inl h
      · exact Or.inr (List.mem_cons_of_mem _ h)
    · rcases List.mem_cons.mp h with h | h
      · exact Or.inr (by rw [h]; exact List.mem_cons_self _ _)
      · rcases ih e h with h | h
        · exact Or.inl h
        · exact Or.inr (List.mem_cons_of_mem _ h)

theorem StdMap.keys_assign (k : String) (v : List String) :
    ∀ (m : StdMap) (a : String),
      a ∈ (StdMap.assign k v m).map Prod.fst ↔ a = k ∨ a ∈ m.map Prod.fst := by
  intro m
  induction m with
  | nil => intro a; simp [StdMap.assign]
  | cons hd rest ih =>
    obtain ⟨k1, v1⟩ := hd
    intro a
    unfold StdMap.assign
    split_ifs with h1 h2
    · simp
    · subst h2; simp
    · simp only [List.map_cons, List.mem_cons, ih a]
      tauto

theorem StdMap.sorted_assign (k : String) (v : List String) :
    ∀ (m : StdMap), m.Pairwise (fun a b => a.1 < b.1) →
      (StdMap.assign k v m).Pairwise (fun a b => a.1 < b.1) := by
  intro m
  induction m with
  | nil => intro _; simp [StdMap.assign]
  | cons hd rest ih =>
    obtain ⟨k1, v1⟩ := hd
    intro hs
    obtain ⟨hhd, htl⟩ := List.pairwise_cons.mp hs
    unfold StdMap.assign
    split_ifs with h1 h2
    · refine List.pairwise_cons.mpr ⟨?_, hs⟩
      intro e he
      rcases List.mem_cons.mp he with rfl | he
      · exact h1
      · exact lt_trans h1 (hhd e he)
    · subst h2
      exact List.pairwise_cons.mpr ⟨hhd, htl⟩
    · have hlt : k1 < k := by
        rcases lt_trichotomy k k1 with h | h | h
        · exact absurd h h1
        · exact absurd h h2
        · exact h
      refine List.pairwise_cons.mpr ⟨?_, ih htl⟩
      intro e he
      rcases StdMap.mem_assign k v rest e he with rfl | he
      · exact hlt
      · exact hhd e he

theorem StdMap.perm_assign (k : String) (v : List String) :
    ∀ (m : StdMap), k ∉ m.map Prod.fst → (StdMap.assign k v m).Perm ((k, v) :: m) := by
  intro m
  induction m with
  | nil => intro _; simp [StdMap.assign]
  | cons hd rest ih =>
    obtain ⟨k1, v1⟩ := hd
    intro hk
    simp only [List.map_cons, List.mem_cons, not_or] at hk
    unfold StdMap.assign
    split_ifs with h1 h2
    · exact List.Perm.refl _
    · exact absurd h2 hk.1
    · exact ((ih hk.2).cons (k1, v1)).trans (List.Perm.swap _ _ _)

/-- The map built by assigning the entries of a list in order. -/
theorem getMenus_eq_foldl (s : MenuBar) :
    s.getMenus = (s.m_menus.map Menu.entry).foldl
      (fun menus e => StdMap.assign e.1 e.2 menus) [] := by
  unfold MenuBar.getMenus
  rw [List.foldl_map]
  rfl

theorem StdMap.foldl_sorted :
    ∀ (entries : List (String × List String)) (acc : StdMap),
      acc.Pairwise (fun a b => a.1 < b.1) →
      (entries.foldl (fun menus e => StdMap.assign e.1 e.2 menus) acc).Pairwise
        (fun a b => a.1 < b.1) := by
  intro entries
  induction entries with
  | nil => intro acc h; exact h
  | cons e entries ih =>
    intro acc h
    exact ih _ (StdMap.sorted_assign e.1 e.2 acc h)

theorem StdMap.foldl_keys :
    ∀ (entries : List (String × List String)) (acc : StdMap) (a : String),
      a ∈ (entries.foldl (fun menus e => StdMap.assign e.1 e.2 menus) acc).map Prod.fst ↔
        a ∈ acc.map Prod.fst ∨ a ∈ entries.map Prod.fst := by
  intro entries
  induction entries with
  | nil => intro acc a; simp
  | cons e entries ih =>
    intro acc a
    simp only [List.foldl_cons, ih, StdMap.keys_assign, List.map_cons, List.mem_cons]
    tauto

theorem StdMap.foldl_perm :
    ∀ (entries : List (String × List String)) (acc : StdMap),
      (entries.map Prod.fst).Nodup →
      (∀ a ∈ entries.map Prod.fst, a ∉ acc.map Prod.fst) →
      (entries.foldl (fun menus e => StdMap.assign e.1 e.2 menus) acc).Perm
        (acc ++ entries) := by
  intro entries
  induction entries with
  | nil => intro acc _ _; simp
  | cons e entries ih =>
    intro acc hnd hdis
    simp only [List.map_cons, List.nodup_cons] at hnd
    have he : e.1 ∉ acc.map Prod.fst := hdis e.1 (by simp)
    have hrec := ih (StdMap.assign e.1 e.2 acc) hnd.2 (by
      intro a ha hmem
      rcases (StdMap.keys_assign e.1 e.2 acc a).mp hmem with h | h
      · subst h; exact hnd.1 ha
      · exact hdis a (by simp [ha]) h)
    simp only [List.foldl_cons]
    refine hrec.trans ?_
    have h1 : (StdMap.assign e.1 e.2 acc).Perm (e :: acc) := StdMap.perm_assign e.1 e.2 acc he
    refine (h1.append_right entries).trans ?_
    simpa using (@List.perm_middle _ e acc entries).symm

/-! ## The menu list after a sequence of `addMenu` / `addMenuItem` calls -/

theorem addMenuItemLoop_labels (item : Text) (menu : String) :
    ∀ (ms ms1 : List Menu), addMenuItemLoop item menu ms = some ms1 →
      ms1.map (fun m => m.text.string) = ms.map (fun m => m.text.string) := by
  intro ms ms1 h
  obtain ⟨pre, m, post, rfl, -, -, rfl⟩ := addMenuItemLoop_eq_some item menu ms ms1 h
  simp

theorem addMenuItem_labels (s : MenuBar) (text menu : String) :
    (s.addMenuItem text menu).2.m_menus.map (fun m => m.text.string) =
      s.m_menus.map (fun m => m.text.string) := by
  unfold MenuBar.addMenuItem
  simp only
  split_ifs with h
  · cases s.m_menus.getLast? with
    | none => rfl
    | some last =>
      simp only
      cases hl : addMenuItemLoop (s.newText text) last.text.string s.m_menus with
      | none => rfl
      | some ms1 => exact addMenuItemLoop_labels _ _ _ _ hl
  · cases hl : addMenuItemLoop (s.newText text) menu s.m_menus with
    | none => rfl
    | some ms1 => exact addMenuItemLoop_labels _ _ _ _ hl

theorem run_labels (calls : List Call) :
    ∀ (s : MenuBar), (s.run calls).m_menus.map (fun m => m.text.string) =
      s.m_menus.map (fun m => m.text.string) ++ addedLabels calls := by
  induction calls with
  | nil => intro s; simp [MenuBar.run, addedLabels]
  | cons c calls ih =>
    intro s
    have hstep : (s.run (c :: calls)) = (s.call c).run calls := rfl
    rw [hstep, ih]
    cases c with
    | addMenu text => simp [MenuBar.call, MenuBar.addMenu, MenuBar.newText, addedLabels]
    | addMenuItem text menu =>
      simp [MenuBar.call, addMenuItem_labels, addedLabels]

theorem addMenuItemLoop_entries (item : Text) (menu : String) :
    ∀ (ms : List Menu),
      ((addMenuItemLoop item menu ms).getD ms).map Menu.entry =
        specAppendItem menu item.string (ms.map Menu.entry) := by
  intro ms
  induction ms with
  | nil => simp [addMenuItemLoop, specAppendItem]
  | cons m ms ih =>
    unfold addMenuItemLoop
    by_cases h : m.text.string = menu
    · simp [h, specAppendItem, Menu.entry]
    · rw [if_neg h]
      simp only [List.map_cons, specAppendItem, Menu.entry, h, if_false]
      cases hl : addMenuItemLoop item menu ms with
      | none =>
        rw [hl] at ih
        simp only [Option.getD_none] at ih
        simp only [Option.map_none', Option.getD_none, List.map_cons]
        rw [← ih]
        rfl
      | some ms1 =>
        rw [hl] at ih
        simp only [Option.getD_some] at ih
        simp only [Option.map_some', Option.getD_some, List.map_cons]
        rw [← ih]
        rfl

theorem addMenuItemLoop_last (item : Text) :
    ∀ (pre : List Menu) (last : Menu),
      (∀ p ∈ pre, p.text.string ≠ last.text.string) →
      addMenuItemLoop item last.text.string (pre ++ [last]) =
        some (pre ++ [{ last with menuItems := last.menuItems ++ [item] }]) := by
  intro pre
  induction pre with
  | nil => intro last _; simp [addMenuItemLoop]
  | cons p pre ih =>
    intro last h
    have hp : p.text.string ≠ last.text.string := h p (List.mem_cons_self _ _)
    have hrec := ih last (fun q hq => h q (List.mem_cons_of_mem _ hq))
    rw [List.cons_append]
    unfold addMenuItemLoop
    rw [if_neg hp, hrec]
    rfl

/-- One call acts on the entries of the menu list as the specification step
does, provided the labels of the menus are pairwise distinct. -/
theorem call_entries (s : MenuBar) (c : Call)
    (hnd : (s.m_menus.map fun m => m.text.string).Nodup) :
    (s.call c).m_menus.map Menu.entry = specStep (s.m_menus.map Menu.entry) c := by
  cases c with
  | addMenu text =>
    simp [MenuBar.call, MenuBar.addMenu, specStep, Menu.entry, MenuBar.newText]
  | addMenuItem text menu =>
    by_cases hmenu : menu = ""
    · subst hmenu
      rcases List.eq_nil_or_concat s.m_menus with hnil | ⟨pre, last, hms⟩
      · simp [MenuBar.call, MenuBar.addMenuItem, specStep, hnil]
      · have hpre : ∀ p ∈ pre, p.text.string ≠ last.text.string := by
          intro p hp heq
          rw [hms] at hnd
          simp only [List.concat_eq_append, List.map_append, List.map_cons, List.map_nil] at hnd
          have := (List.nodup_append.mp hnd).2.2
          exact this (List.mem_map.mpr ⟨p, hp, rfl⟩) (by simp [heq]) 
        have hlast : s.m_menus.getLast? = some last := by rw [hms]; simp
        have hloop := addMenuItemLoop_last (s.newText text) pre last hpre
        simp only [List.concat_eq_append] at hms
        rw [← hms] at hloop
        simp only [MenuBar.call, MenuBar.addMenuItem, hlast, hloop, specStep, if_true]
        rw [hms]
        simp [Menu.entry, MenuBar.newText]
    · have h := addMenuItemLoop_entries (s.newText text) menu s.m_menus
      simp only [MenuBar.call, MenuBar.addMenuItem, hmenu, if_false, specStep]
      cases hl : addMenuItemLoop (s.newText text) menu s.m_menus with
      | none =>
        rw [hl] at h
        simpa [MenuBar.newText] using h
      | some ms1 =>
        rw [hl] at h
        simpa [MenuBar.newText] using h

theorem call_labels (s : MenuBar) (c : Call) :
    (s.call c).m_menus.map (fun m => m.text.string) =
      s.m_menus.map (fun m => m.text.string) ++ addedLabels [c] := by
  have := run_labels [c] s
  simpa [MenuBar.run] using this

theorem run_entries (calls : List Call) :
    ∀ (s : MenuBar),
      (s.m_menus.map (fun m => m.text.string) ++ addedLabels calls).Nodup →
      (s.run calls).m_menus.map Menu.entry =
        calls.foldl specStep (s.m_menus.map Menu.entry) := by
  induction calls with
  | nil => intro s _; rfl
  | cons c calls ih =>
    intro s hnd
    have hstep : (s.run (c :: calls)) = (s.call c).run calls := rfl
    have hs : (s.m_menus.map fun m => m.text.string).Nodup := by
      exact (List.nodup_append.mp hnd).1
    rw [hstep, ih (s.call c), call_entries s c hs]
    · rfl
    · rw [call_labels]
      cases c with
      | addMenu text => simpa [addedLabels] using hnd
      | addMenuItem text menu => simpa [addedLabels] using hnd

/-- C7 (amended). After any sequence of `addMenu` and `addMenuItem` calls on a
newly constructed `MenuBar`, `getMenus()` is a `std::map`: its entries are in
ascending label order (not in insertion order), its keys are exactly the labels
passed to `addMenu`, and when those labels are pairwise distinct its entries
are exactly the inserted entries of the specification (one per `addMenu` call,
each with its items in call order), rearranged by label. -/
theorem getMenus_after_calls (env : Env) (calls : List Call) :
    ((MenuBar.new env).run calls).getMenus.Pairwise (fun a b => a.1 < b.1) ∧
      (∀ l, l ∈ ((MenuBar.new env).run calls).getMenus.map Prod.fst ↔
        l ∈ addedLabels calls) ∧
      ((addedLabels calls).Nodup →
        ((MenuBar.new env).run calls).getMenus.Perm (specInsertedMenus calls)) := by
  have hlabels := run_labels calls (MenuBar.new env)
  have hnew : (MenuBar.new env).m_menus = [] := rfl
  rw [hnew] at hlabels
  simp only [List.map_nil, List.nil_append] at hlabels
  have hkeys : (((MenuBar.new env).run calls).m_menus.map Menu.entry).map Prod.fst =
      addedLabels calls := by
    rw [← hlabels, List.map_map]
    rfl
  refine ⟨?_, ?_, ?_⟩
  · rw [getMenus_eq_foldl]
    exact StdMap.foldl_sorted _ [] List.Pairwise.nil
  · intro l
    rw [getMenus_eq_foldl, StdMap.foldl_keys, hkeys]
    simp
  · intro hnd
    have hentries := run_entries calls (MenuBar.new env) (by rw [hnew]; simpa using hnd)
    rw [hnew] at hentries
    rw [getMenus_eq_foldl]
    have hperm := StdMap.foldl_perm (((MenuBar.new env).run calls).m_menus.map Menu.entry) []
      (by rw [hkeys]; exact hnd) (by simp)
    rw [hentries] at hperm ⊢
    simpa [specInsertedMenus] using hperm

/-- Witness of C7 (amended): the calls of the scenario. -/
theorem getMenus_after_calls_witness :
    ((MenuBar.new exampleEnv).run
        [Call.addMenu "File", Call.addMenuItem "Load" "", Call.addMenuItem "Save" ""]).getMenus.Perm
      (specInsertedMenus
        [Call.addMenu "File", Call.addMenuItem "Load" "", Call.addMenuItem "Save" ""]) :=
  (getMenus_after_calls exampleEnv
    [Call.addMenu "File", Call.addMenuItem "Load" "", Call.addMenuItem "Save" ""]).2.2
    (by decide)

/-- C7, counterexample. After `addMenu("View")` and `addMenu("Edit")` the
inserted labels in insertion order are `View`, `Edit`, but `getMenus()`
iterates `Edit` first: the map is ordered by key.  And after `addMenu("File")`,
`addMenuItem("Load")`, `addMenu("File")` the two menus share one key, under
which the items of the later menu are stored: one entry for two `addMenu`
calls, and `Load` is not in it. -/
theorem getMenus_not_in_insertion_order :
    specInsertedMenus [Call.addMenu "View", Call.addMenu "Edit"] =
        [("View", []), ("Edit", [])] ∧
      ((MenuBar.new exampleEnv).run [Call.addMenu "View", Call.addMenu "Edit"]).getMenus =
        [("Edit", []), ("View", [])] ∧
      ((MenuBar.new exampleEnv).run [Call.addMenu "View", Call.addMenu "Edit"]).getMenus ≠
        specInsertedMenus [Call.addMenu "View", Call.addMenu "Edit"] ∧
      ((MenuBar.new exampleEnv).run
        [Call.addMenu "File", Call.addMenuItem "Load" "", Call.addMenu "File"]).getMenus =
        [("File", [])] := by
  with_unfolding_all decide

/-! ## The open-menu index after removals -/

set_option maxRecDepth 8000 in
/-- C8, the code at the failing inputs.  On `fileBar` the press at `(1, 1)` is
delivered (`mouseOnWidget` holds) and opens menu 0; `removeAllMenus` then
empties the menu list and leaves `m_visibleMenu = 0`.  On `editFileBar` menu 1
is open; `removeMenu("Edit")` erases menu 0 and leaves `m_visibleMenu = 1`
with one menu left.  Neither index is `-1` or valid. -/
theorem removals_leave_stale_open_index :
    fileBar.mouseOnWidget exampleEnv 1 1 = some true ∧
      fileBar.steps exampleEnv [Op.leftMousePressed 1 1, Op.removeAllMenus] =
        some fileBarOpen.removeAllMenus ∧
      fileBarOpen.removeAllMenus.m_menus = [] ∧
      fileBarOpen.removeAllMenus.m_visibleMenu = 0 ∧
      ¬ fileBarOpen.removeAllMenus.VisibleValid ∧
      editFileBar.m_visibleMenu = 1 ∧
      (editFileBar.removeMenu "Edit").2.m_menus.length = 1 ∧
      (editFileBar.removeMenu "Edit").2.m_visibleMenu = 1 ∧
      ¬ (editFileBar.removeMenu "Edit").2.VisibleValid := by
  with_unfolding_all decide

/-! ## Validity of the selected-item indices -/

theorem selectionsValid_set {ms : List Menu} {i : Nat} {m1 : Menu}
    (h : ∀ m ∈ ms, m.SelectionValid) (h1 : m1.SelectionValid) :
    ∀ m ∈ ms.set i m1, m.SelectionValid := by
  intro m hm
  rcases List.mem_or_eq_of_mem_set hm with hm | rfl
  · exact h m hm
  · exact h1

theorem removeMenuLoop_mem (label : String) :
    ∀ (ms : List Menu) (i k : Nat) (ms1 : List Menu),
      removeMenuLoop label ms i = some (k, ms1) → ∀ m ∈ ms1, m ∈ ms := by
  intro ms
  induction ms with
  | nil => intro i k ms1 h; simp [removeMenuLoop] at h
  | cons m0 ms ih =>
    intro i k ms1 h m hm
    unfold removeMenuLoop at h
    split_ifs at h with h0
    · cases h
      exact List.mem_cons_of_mem _ hm
    · simp only [Option.map_eq_some'] at h
      obtain ⟨⟨k2, ms2⟩, h2, heq⟩ := h
      cases heq
      rcases List.mem_cons.mp hm with rfl | hm
      · exact List.mem_cons_self _ _
      · exact List.mem_cons_of_mem _ (ih _ _ _ h2 m hm)

theorem removeItemLoop_spec (label : String) :
    ∀ (ts : List Text) (i j : Nat) (ts1 : List Text),
      removeItemLoop label ts i = some (j, ts1) →
      i ≤ j ∧ j < i + ts.length ∧ ts1 = ts.eraseIdx (j - i) ∧
        (∃ t, ts[j - i]? = some t ∧ t.string = label) ∧
        ∀ n, n < j - i → ∀ t, ts[n]? = some t → t.string ≠ label := by
  intro ts
  induction ts with
  | nil => intro i j ts1 h; simp [removeItemLoop] at h
  | cons t0 ts ih =>
    intro i j ts1 h
    unfold removeItemLoop at h
    split_ifs at h with h0
    · simp only [Option.some.injEq, Prod.mk.injEq] at h
      obtain ⟨hj, hts⟩ := h
      subst hj; subst hts
      simp [h0]
    · simp only [Option.map_eq_some', Prod.mk.injEq] at h
      obtain ⟨⟨j2, ts2⟩, h2, hj, hts⟩ := h
      simp only at hj hts
      subst hj; subst hts
      obtain ⟨hle, hlt, hts, ⟨t, ht, htl⟩, hfirst⟩ := ih _ _ _ h2
      have hsub : j2 - i = (j2 - (i + 1)) + 1 := by omega
      refine ⟨by omega, by simp only [List.length_cons]; omega, ?_, ⟨t, ?_, htl⟩, ?_⟩
      · rw [hsub, List.eraseIdx_cons_succ, ← hts]
      · rw [hsub, List.getElem?_cons_succ]; exact ht
      · intro n hn t1 ht1
        cases n with
        | zero =>
          simp only [List.getElem?_cons_zero, Option.some.injEq] at ht1
          subst ht1; exact h0
        | succ n =>
          rw [List.getElem?_cons_succ] at ht1
          exact hfirst n (by omega) t1 ht1

/-- The shape of a successful `removeMenuItem` search: one menu labelled
`menu` loses its first item labelled `menuItem`, at index `j`, and its
selection is cleared exactly when it was `j`. -/
theorem removeMenuItemLoop_eq_some (menu menuItem : String) :
    ∀ (ms ms1 : List Menu), removeMenuItemLoop menu menuItem ms = some ms1 →
      ∃ pre m post j items, ms = pre ++ m :: post ∧ m.text.string = menu ∧
        removeItemLoop menuItem m.menuItems 0 = some (j, items) ∧
        ms1 = pre ++ { m with
          menuItems := items
          selectedMenuItem :=
            if m.selectedMenuItem = (j : Int) then -1 else m.selectedMenuItem } :: post := by
  intro ms
  induction ms with
  | nil => intro ms1 h; simp [removeMenuItemLoop] at h
  | cons m0 ms ih =>
    intro ms1 h
    unfold removeMenuItemLoop at h
    by_cases hfound : m0.text.string = menu ∧
        ∃ r, removeItemLoop menuItem m0.menuItems 0 = some r
    · obtain ⟨h0, ⟨j, items⟩, hl⟩ := hfound
      rw [if_pos h0, hl] at h
      simp only [Option.some.injEq] at h
      exact ⟨[], m0, ms, j, items, rfl, h0, hl, h.symm⟩
    · have hrest : (removeMenuItemLoop menu menuItem ms).map (m0 :: ·) = some ms1 := by
        by_cases h0 : m0.text.string = menu
        · rw [if_pos h0] at h
          cases hl : removeItemLoop menuItem m0.menuItems 0 with
          | none => rw [hl] at h; exact h
          | some r => exact absurd ⟨h0, r, hl⟩ hfound
        · rw [if_neg h0] at h; exact h
      simp only [Option.map_eq_some'] at hrest
      obtain ⟨ms2, h2, heq⟩ := hrest
      obtain ⟨pre, m, post, j, items, hms, hm, hloop, hres⟩ := ih ms2 h2
      exact ⟨m0 :: pre, m, post, j, items, by rw [hms]; rfl, hm, hloop,
        by rw [← heq, hres]; rfl⟩

theorem addMenu_selectionsValid {s : MenuBar} (text : String) (h : s.SelectionsValid) :
    (s.addMenu text).SelectionsValid := by
  intro m hm
  simp only [MenuBar.addMenu, List.mem_append, List.mem_singleton] at hm
  rcases hm with hm | rfl
  · exact h m hm
  · exact Or.inl rfl

theorem addMenuItem_selectionsValid {s : MenuBar} (text menu : String)
    (h : s.SelectionsValid) : (s.addMenuItem text menu).2.SelectionsValid := by
  have key : ∀ label, (match addMenuItemLoop (s.newText text) label s.m_menus with
      | some menus => (true, { s with m_menus := menus })
      | none => (false, s)).2.SelectionsValid := by
    intro label
    cases hl : addMenuItemLoop (s.newText text) label s.m_menus with
    | none => exact h
    | some ms1 =>
      obtain ⟨pre, m, post, hms, -, -, rfl⟩ := addMenuItemLoop_eq_some _ _ _ _ hl
      intro m1 hm1
      simp only [List.mem_append, List.mem_cons] at hm1
      have hmem : ∀ q, q ∈ pre ∨ q = m ∨ q ∈ post → q ∈ s.m_menus := by
        intro q hq; rw [hms]; simpa using hq
      rcases hm1 with hm1 | rfl | hm1
      · exact h m1 (hmem m1 (Or.inl hm1))
      · rcases h m (hmem m (Or.inr (Or.inl rfl))) with hv | ⟨h0, h1⟩
        · exact Or.inl hv
        · refine Or.inr ⟨h0, ?_⟩
          simp only [List.length_append, List.length_singleton]
          push_cast
          omega
      · exact h m1 (hmem m1 (Or.inr (Or.inr hm1)))
  unfold MenuBar.addMenuItem
  simp only
  split_ifs with hmenu
  · cases s.m_menus.getLast? with
    | none => exact h
    | some last => exact key last.text.string
  · exact key menu

theorem removeMenu_selectionsValid {s : MenuBar} (menu : String) (h : s.SelectionsValid) :
    (s.removeMenu menu).2.SelectionsValid := by
  unfold MenuBar.removeMenu
  cases hl : removeMenuLoop menu s.m_menus 0 with
  | none => exact h
  | some r =>
    obtain ⟨i, ms1⟩ := r
    intro m hm
    exact h m (removeMenuLoop_mem menu _ _ _ _ hl m hm)

theorem removeMenuItem_selectionsValid {s : MenuBar} (menu menuItem : String)
    (h : s.SelectionsValid) (hspare : Op.sparesSelection s (Op.removeMenuItem menu menuItem)) :
    (s.removeMenuItem menu menuItem).2.SelectionsValid := by
  unfold MenuBar.removeMenuItem
  cases hl : removeMenuItemLoop menu menuItem s.m_menus with
  | none => exact h
  | some ms1 =>
    obtain ⟨pre, m, post, j, items, hms, hm, hloop, rfl⟩ :=
      removeMenuItemLoop_eq_some _ _ _ _ hl
    have hmem : ∀ q, q ∈ pre ∨ q = m ∨ q ∈ post → q ∈ s.m_menus := by
      intro q hq; rw [hms]; simpa using hq
    intro m1 hm1
    simp only [List.mem_append, List.mem_cons] at hm1
    rcases hm1 with hm1 | rfl | hm1
    · exact h m1 (hmem m1 (Or.inl hm1))
    · have hle := hspare m (hmem m (Or.inr (Or.inl rfl))) hm j items hloop
      obtain ⟨-, hjlt, hitems, -, -⟩ := removeItemLoop_spec _ _ _ _ _ hloop
      have hlen : items.length + 1 = m.menuItems.length := by
        rw [hitems, List.length_eraseIdx]
        simp only [Nat.sub_zero]
        split_ifs with hj
        · omega
        · omega
      by_cases hsel : m.selectedMenuItem = (j : Int)
      · exact Or.inl (by simp [hsel])
      · rcases h m (hmem m (Or.inr (Or.inl rfl))) with hv | ⟨h0, h1⟩
        · exact Or.inl (by simp [hsel, hv])
        · refine Or.inr ⟨by simp [hsel, h0], ?_⟩
          simp only [hsel, if_false]
          have : m.selectedMenuItem < (j : Int) := lt_of_le_of_ne hle hsel
          omega
    · exact h m1 (hmem m1 (Or.inr (Or.inr hm1)))

/-- The two ways in which `closeVisibleMenu` is defined: nothing is open and
nothing changes, or the open menu exists, its selection can be cleared, and
only that menu and the open-menu index change. -/
theorem closeVisibleMenu_eq_some {s s1 : MenuBar} (hc : s.closeVisibleMenu = some s1) :
    (s.m_visibleMenu = -1 ∧ s1 = s) ∨
      ∃ m m1, s.m_visibleMenu ≠ -1 ∧ vecGet s.m_menus s.m_visibleMenu = some m ∧
        m.unselect s.m_renderer.textColor = some m1 ∧
        s1 = { s with
          m_menus := s.m_menus.set s.m_visibleMenu.toNat
            { m1 with text := m1.text.setColor s.m_renderer.textColor }
          m_visibleMenu := -1 } := by
  unfold MenuBar.closeVisibleMenu at hc
  by_cases hv : s.m_visibleMenu = -1
  · left
    simp only [hv, ne_eq, not_true_eq_false, if_false, Option.some.injEq] at hc
    exact ⟨hv, hc.symm⟩
  · right
    cases hg : vecGet s.m_menus s.m_visibleMenu with
    | none => simp [hv, hg] at hc
    | some m =>
      cases hu : m.unselect s.m_renderer.textColor with
      | none => simp [hv, hg, hu] at hc
      | some m1 =>
        simp only [ne_eq, hv, not_false_eq_true, if_true, hg, hu, Option.bind_eq_bind,
          Option.some_bind, Option.pure_def, Option.some.injEq] at hc
        exact ⟨m, m1, hv, rfl, hu, hc.symm⟩

theorem closeVisibleMenu_selectionsValid {s s1 : MenuBar} (hc : s.closeVisibleMenu = some s1)
    (h : s.SelectionsValid) : s1.SelectionsValid := by
  rcases closeVisibleMenu_eq_some hc with ⟨-, rfl⟩ | ⟨m, m1, -, -, hu, rfl⟩
  · exact h
  · have hs := Menu.unselect_sel hu
    exact selectionsValid_set h (Or.inl hs)

theorem leftMousePressed_selectionsValid {env : Env} {s s1 : MenuBar} {x y : ℚ}
    (hp : s.leftMousePressed env x y = some s1) (h : s.SelectionsValid) :
    s1.SelectionsValid := by
  unfold MenuBar.leftMousePressed at hp
  by_cases hy : y < s.height
  · cases hscan : headerScan env s x s.m_menus 0 0 with
    | none =>
      simp [hy, hscan, if_true, Option.bind_eq_bind, Option.some_bind, Option.pure_def,
        Option.some.injEq] at hp
      subst hp; exact h
    | some i =>
      cases hm : s.m_menus[i]? with
      | none => simp [hy, hscan, hm] at hp
      | some m =>
        by_cases hv : s.m_visibleMenu = (i : Int)
        · cases hu : m.unselect s.m_renderer.textColor with
          | none => simp [hy, hscan, hm, hv, hu] at hp
          | some m1 =>
            simp [hy, hscan, hm, hv, hu, if_true, Option.bind_eq_bind, Option.some_bind,
              Option.pure_def, Option.some.injEq] at hp
            subst hp
            have hs := Menu.unselect_sel hu
            exact selectionsValid_set h (Or.inl hs)
        · by_cases he : m.menuItems = []
          · simp [hy, hscan, hm, hv, he, if_true, if_false, not_true_eq_false,
              Option.bind_eq_bind, Option.some_bind, Option.pure_def, Option.some.injEq] at hp
            subst hp; exact h
          · simp [hy, hscan, hm, hv, he, if_true, if_false, not_false_eq_true,
              Option.bind_eq_bind, Option.some_bind, Option.pure_def, Option.some.injEq] at hp
            subst hp
            exact selectionsValid_set h (h m (List.getElem?_mem hm))
  · simp [hy, if_false, Option.bind_eq_bind, Option.some_bind, Option.pure_def,
      Option.some.injEq] at hp
    subst hp; exact h

theorem leftMouseReleased_selectionsValid {s s1 : MenuBar} {x y : ℚ}
    (hr : s.leftMouseReleased x y = some s1) (h : s.SelectionsValid) :
    s1.SelectionsValid := by
  unfold MenuBar.leftMouseReleased at hr
  by_cases hd : s.m_mouseDown = true
  · by_cases hy : s.height ≤ y
    · cases hq : fdiv (fsub y s.height) s.height with
      | none => simp [hd, hy, hq] at hr
      | some q =>
        cases hj : toUnsigned q with
        | none => simp [hd, hy, hq, hj] at hr
        | some j =>
          cases hg : vecGet s.m_menus s.m_visibleMenu with
          | none => simp [hd, hy, hq, hj, hg] at hr
          | some m =>
            cases hi : m.menuItems[j]? with
            | none =>
              simp [hd, hy, hq, hj, hg, hi, if_true, Option.bind_eq_bind,
                Option.some_bind, Option.pure_def, Option.some.injEq] at hr
              subst hr; exact h
            | some item =>
              simp [hd, hy, hq, hj, hg, hi, if_true, Option.bind_eq_bind,
                Option.some_bind] at hr
              exact closeVisibleMenu_selectionsValid hr h
    · simp [hd, hy, if_true, if_false, Option.some.injEq] at hr
      subst hr; exact h
  · simp [hd, if_false, Option.some.injEq] at hr
    subst hr; exact h

theorem mouseMoved_selectionsValid {env : Env} {s s1 : MenuBar} {x y : ℚ}
    (hmv : s.mouseMoved env x y = some s1) (h : s.SelectionsValid) :
    s1.SelectionsValid := by
  unfold MenuBar.mouseMoved at hmv
  simp only at hmv
  have h0 : (if ¬ s.m_mouseHover = true then s.mouseEnteredWidget else s).SelectionsValid := by
    split_ifs
    · exact h
    · exact h
  generalize (if ¬ s.m_mouseHover = true then s.mouseEnteredWidget else s) = s0 at hmv h0
  by_cases hy : y < s0.height
  · by_cases hv : s0.m_visibleMenu = -1
    · simp [hy, hv, if_true, ne_eq, not_true_eq_false, if_false,
        Option.some.injEq] at hmv
      subst hmv; exact h0
    · cases hscan : headerScan env s0 x s0.m_menus 0 0 with
      | none =>
        simp [hy, hv, hscan, if_true, ne_eq, not_false_eq_true,
          Option.some.injEq] at hmv
        subst hmv; exact h0
      | some i =>
        by_cases hi : s0.m_visibleMenu = (i : Int)
        · cases hm : s0.m_menus[i]? with
          | none => simp [hy, hv, hscan, hi, hm] at hmv
          | some m =>
            cases hu : m.unselect s0.m_renderer.textColor with
            | none => simp [hy, hv, hscan, hi, hm, hu] at hmv
            | some m1 =>
              simp [hy, hv, hscan, hi, hm, hu, if_true, ne_eq, not_false_eq_true,
                Option.bind_eq_bind, Option.some_bind, Option.pure_def,
                Option.some.injEq] at hmv
              subst hmv
              have hs := Menu.unselect_sel hu
              exact selectionsValid_set h0 (Or.inl hs)
        · cases hc : s0.closeVisibleMenu with
          | none => simp [hy, hv, hscan, hi, hc] at hmv
          | some s2 =>
            have h2 := closeVisibleMenu_selectionsValid hc h0
            cases hm : s2.m_menus[i]? with
            | none => simp [hy, hv, hscan, hi, hc, hm] at hmv
            | some m =>
              by_cases he : m.menuItems = []
              · simp [hy, hv, hscan, hi, hc, hm, he, if_true, if_false, ne_eq,
                  not_false_eq_true, not_true_eq_false, Option.bind_eq_bind, Option.some_bind,
                  Option.pure_def, Option.some.injEq] at hmv
                subst hmv; exact h2
              · simp [hy, hv, hscan, hi, hc, hm, he, if_true, if_false, ne_eq,
                  not_false_eq_true, Option.bind_eq_bind, Option.some_bind,
                  Option.pure_def, Option.some.injEq] at hmv
                subst hmv
                exact selectionsValid_set h2 (h2 m (List.getElem?_mem hm))
  · cases hq : fdiv (fsub y s0.height) s0.height with
    | none => simp [hy, hq] at hmv
    | some q =>
      cases ht : toInt q with
      | none => simp [hy, hq, ht] at hmv
      | some f =>
        cases hg : vecGet s0.m_menus s0.m_visibleMenu with
        | none => simp [hy, hq, ht, hg] at hmv
        | some m =>
          by_cases hne : f = m.selectedMenuItem
          · simp [hy, hq, ht, hg, hne, if_false, ne_eq, not_true_eq_false,
              Option.bind_eq_bind, Option.some_bind, Option.pure_def,
              Option.some.injEq] at hmv
            subst hmv; exact h0
          · have hfinal : ∀ items items1, items.length = m.menuItems.length →
                setItemColor items f s0.highlightColor = some items1 →
                ∀ m2 ∈ s0.m_menus.set s0.m_visibleMenu.toNat
                  { m with menuItems := items1, selectedMenuItem := f },
                  m2.SelectionValid := by
              intro items items1 hlen hi1
              have hvalid := setItemColor_valid hi1
              refine selectionsValid_set h0 (Or.inr ⟨hvalid.1, ?_⟩)
              show f < (items1.length : Int)
              rw [setItemColor_length hi1]
              exact hvalid.2
            by_cases hsel : m.selectedMenuItem = -1
            · have hne1 : ¬ f = -1 := by rw [← hsel]; exact hne
              cases hi1 : setItemColor m.menuItems f s0.highlightColor with
              | none => simp [hy, hq, ht, hg, hne1, hsel, hi1] at hmv
              | some items1 =>
                simp [hy, hq, ht, hg, hne1, hsel, hi1] at hmv
                subst hmv
                exact hfinal _ _ rfl hi1
            · cases hi0 : setItemColor m.menuItems m.selectedMenuItem
                  s0.m_renderer.textColor with
              | none => simp [hy, hq, ht, hg, hne, hsel, hi0] at hmv
              | some items =>
                cases hi1 : setItemColor items f s0.highlightColor with
                | none => simp [hy, hq, ht, hg, hne, hsel, hi0, hi1] at hmv
                | some items1 =>
                  simp [hy, hq, ht, hg, hne, hsel, hi0, hi1] at hmv
                  subst hmv
                  exact hfinal _ _ (setItemColor_length hi0) hi1

theorem mouseNoLongerDown_selectionsValid {s s1 : MenuBar}
    (hn : s.mouseNoLongerDown = some s1) (h : s.SelectionsValid) : s1.SelectionsValid := by
  unfold MenuBar.mouseNoLongerDown at hn
  by_cases hd : s.m_mouseDown = true
  · simp [hd, not_true_eq_false, if_false, Option.bind_eq_bind, Option.some_bind,
      Option.pure_def, Option.some.injEq] at hn
    subst hn; exact h
  · cases hc : s.closeVisibleMenu with
    | none => simp [hd, hc] at hn
    | some s2 =>
      simp [hd, hc, not_false_eq_true, if_true, Option.bind_eq_bind, Option.some_bind,
        Option.pure_def, Option.some.injEq] at hn
      subst hn
      have h2 := closeVisibleMenu_selectionsValid hc h
      exact h2

theorem mouseLeftWidget_selectionsValid {s s1 : MenuBar}
    (hl : s.mouseLeftWidget = some s1) (h : s.SelectionsValid) : s1.SelectionsValid := by
  unfold MenuBar.mouseLeftWidget at hl
  by_cases hv : s.m_visibleMenu = -1
  · simp [hv, ne_eq, not_true_eq_false, if_false, Option.bind_eq_bind,
      Option.some_bind, Option.pure_def, Option.some.injEq] at hl
    subst hl; exact h
  · cases hg : vecGet s.m_menus s.m_visibleMenu with
    | none => simp [hv, hg] at hl
    | some m =>
      cases hu : m.unselect s.m_renderer.textColor with
      | none => simp [hv, hg, hu] at hl
      | some m1 =>
        simp [hv, hg, hu, ne_eq, not_false_eq_true, if_true, Option.bind_eq_bind,
          Option.some_bind, Option.pure_def, Option.some.injEq] at hl
        subst hl
        have hs := Menu.unselect_sel hu
        exact selectionsValid_set h (Or.inl hs)

/-- Every operation with defined behaviour keeps the selections valid, a
`removeMenuItem` call provided it spares the selection. -/
theorem step_selectionsValid {env : Env} {s s1 : MenuBar} {op : Op}
    (hstep : s.step env op = some s1) (hspare : Op.sparesSelection s op)
    (h : s.SelectionsValid) : s1.SelectionsValid := by
  cases op with
  | addMenu text => cases hstep; exact addMenu_selectionsValid text h
  | addMenuItem text menu => cases hstep; exact addMenuItem_selectionsValid text menu h
  | removeMenu menu => cases hstep; exact removeMenu_selectionsValid menu h
  | removeMenuItem menu menuItem =>
    cases hstep; exact removeMenuItem_selectionsValid menu menuItem h hspare
  | removeAllMenus => cases hstep; intro m hm; simp [MenuBar.removeAllMenus] at hm
  | leftMousePressed x y => exact leftMousePressed_selectionsValid hstep h
  | leftMouseReleased x y => exact leftMouseReleased_selectionsValid (x := x) hstep h
  | mouseMoved x y => exact mouseMoved_selectionsValid hstep h
  | mouseLeftWidget => exact mouseLeftWidget_selectionsValid hstep h
  | mouseNoLongerDown => exact mouseNoLongerDown_selectionsValid hstep h

/-- C9 (amended). In every state reachable from a newly constructed `MenuBar`
(of any size) through `addMenu`, `addMenuItem`, `removeMenu`, `removeAllMenus`,
mouse events with defined behaviour (press, release, move, `mouseLeftWidget`,
`mouseNoLongerDown`) and `removeMenuItem` calls whose removed item does not
stand in front of the selected item of a menu with that label, every menu's
`selectedMenuItem` is `-1` or a valid index into its items.  `removeMenuItem`
clears the selection of the menu it changes exactly when the removed item is
the selected one, and `addMenuItem` leaves every selection as it is. -/
theorem reachable_selectionsValid (env : Env) :
    (∀ s, ReachableBy env Op.sparesSelection s → s.SelectionsValid) ∧
      (∀ (s : MenuBar) (menu menuItem : String),
        (s.removeMenuItem menu menuItem).1 = true →
        ∃ pre m post j items, s.m_menus = pre ++ m :: post ∧ m.text.string = menu ∧
          removeItemLoop menuItem m.menuItems 0 = some (j, items) ∧
          (s.removeMenuItem menu menuItem).2.m_menus = pre ++ { m with
            menuItems := items
            selectedMenuItem :=
              if m.selectedMenuItem = (j : Int) then -1 else m.selectedMenuItem } :: post) ∧
      (∀ (s : MenuBar) (text menu : String),
        (s.addMenuItem text menu).2.m_menus.map (fun m => m.selectedMenuItem) =
          s.m_menus.map (fun m => m.selectedMenuItem)) := by
  refine ⟨?_, ?_, ?_⟩
  · intro s hs
    induction hs with
    | init size =>
      intro m hm
      simp [MenuBar.setSize, MenuBar.setTextSize, MenuBar.new] at hm
    | step _ hallowed hstep ih => exact step_selectionsValid hstep hallowed ih
  · intro s menu menuItem hret
    unfold MenuBar.removeMenuItem at hret ⊢
    cases hl : removeMenuItemLoop menu menuItem s.m_menus with
    | none => rw [hl] at hret; simp at hret
    | some ms1 =>
      obtain ⟨pre, m, post, j, items, hms, hm, hloop, rfl⟩ :=
        removeMenuItemLoop_eq_some _ _ _ _ hl
      exact ⟨pre, m, post, j, items, hms, hm, hloop, rfl⟩
  · intro s text menu
    have key : ∀ label, (match addMenuItemLoop (s.newText text) label s.m_menus with
        | some menus => (true, { s with m_menus := menus })
        | none => (false, s)).2.m_menus.map (fun (m : Menu) => m.selectedMenuItem) =
          s.m_menus.map (fun (m : Menu) => m.selectedMenuItem) := by
      intro label
      cases hl : addMenuItemLoop (s.newText text) label s.m_menus with
      | none => rfl
      | some ms1 =>
        obtain ⟨pre, m, post, hms, -, -, rfl⟩ := addMenuItemLoop_eq_some _ _ _ _ hl
        rw [hms]
        simp
    unfold MenuBar.addMenuItem
    simp only
    split_ifs with hmenu
    · cases s.m_menus.getLast? with
      | none => rfl
      | some last => exact key last.text.string
    · exact key menu

set_option maxRecDepth 8000 in
/-- Witness of C9 (amended): `fileBarHover`, reached by the calls of the
scenario, a press on the header and a move onto item 1. -/
theorem reachable_selectionsValid_witness : fileBarHover.SelectionsValid :=
  (reachable_selectionsValid exampleEnv).1 fileBarHover
    (@ReachableBy.step exampleEnv Op.sparesSelection fileBarOpen fileBarHover
      (Op.mouseMoved 1 45)
      (@ReachableBy.step exampleEnv Op.sparesSelection fileBar fileBarOpen
        (Op.leftMousePressed 1 1)
        (@ReachableBy.step exampleEnv Op.sparesSelection _ fileBar (Op.addMenuItem "Save" "")
          (@ReachableBy.step exampleEnv Op.sparesSelection _ _ (Op.addMenuItem "Load" "")
            (@ReachableBy.step exampleEnv Op.sparesSelection _ _ (Op.addMenu "File")
              (ReachableBy.init (800, 20)) trivial rfl)
            trivial rfl)
          trivial rfl)
        trivial (by with_unfolding_all decide))
      trivial (by with_unfolding_all decide))

set_option maxRecDepth 8000 in
/-- C9, counterexample.  From `fileBar`, the delivered events and calls
`addMenuItem("Quit")`, press `(1, 1)`, move `(1, 65)`,
`removeMenuItem("File", "Load")` lead to `staleSelectionBar`, whose menu has
two items and `selectedMenuItem = 2`: the index is neither `-1` nor valid.
And on `fileBarHover`, where item 1 is selected, `addMenuItem("Quit", "File")`
changes the items and leaves `selectedMenuItem = 1`: the selection is not
cleared when the items are mutated. -/
theorem selection_not_cleared_on_mutation :
    fileBar.steps exampleEnv
        [Op.addMenuItem "Quit" "", Op.leftMousePressed 1 1, Op.mouseMoved 1 65,
          Op.removeMenuItem "File" "Load"] = some staleSelectionBar ∧
      (fileBar.addMenuItem "Quit" "").2.mouseOnWidget exampleEnv 1 1 = some true ∧
      quitBarOpen.mouseOnWidget exampleEnv 1 65 = some true ∧
      (staleSelectionBar.m_menus.map fun m => (m.menuItems.length, m.selectedMenuItem))
        = [(2, 2)] ∧
      ¬ staleSelectionBar.SelectionsValid ∧
      (fileBarHover.m_menus.map fun m => m.selectedMenuItem) = [1] ∧
      ((fileBarHover.addMenuItem "Quit" "File").2.m_menus.map fun m =>
        (m.menuItems.length, m.selectedMenuItem)) = [(3, 1)] := by
  unfold MenuBar.SelectionsValid
  with_unfolding_all decide

/-! ## `addMenuItem` with an empty menu name -/

/-- C11, the code at the failing input.  After `addMenu("Edit")` twice,
`addMenuItem("Undo", "")` returns true, but the item is appended to menu 0,
the first menu labelled like the last one; the last menu, menu 1, still has
no items. -/
theorem addMenuItem_empty_name_duplicate_label :
    (twoEditBar.m_menus.map fun m => (m.text.string, m.menuItems.map fun t => t.string)) =
        [("Edit", []), ("Edit", [])] ∧
      (twoEditBar.addMenuItem "Undo" "").1 = true ∧
      ((twoEditBar.addMenuItem "Undo" "").2.m_menus.map fun m =>
        (m.text.string, m.menuItems.map fun t => t.string)) =
        [("Edit", ["Undo"]), ("Edit", [])] := by
  with_unfolding_all decide

/-- When no earlier menu carries the label of the last menu, `addMenuItem`
with an empty menu name appends the item to the last menu and changes nothing
else. -/
theorem addMenuItem_empty_name_last (s : MenuBar) (text : String) (pre : List Menu)
    (last : Menu) (hms : s.m_menus = pre ++ [last])
    (hpre : ∀ p ∈ pre, p.text.string ≠ last.text.string) :
    s.addMenuItem text "" =
      (true, { s with
        m_menus := pre ++ [{ last with menuItems := last.menuItems ++ [s.newText text] }] }) := by
  have hlast : s.m_menus.getLast? = some last := by rw [hms]; simp
  have hloop := addMenuItemLoop_last (s.newText text) pre last hpre
  rw [← hms] at hloop
  simp [MenuBar.addMenuItem, hlast, hloop]

/-! ## `removeMenu`, `removeMenuItem` and `getMenus` on arbitrary states -/

theorem removeMenuLoop_eq_none (label : String) :
    ∀ (ms : List Menu) (i : Nat),
      removeMenuLoop label ms i = none ↔ ∀ m ∈ ms, m.text.string ≠ label := by
  intro ms
  induction ms with
  | nil => intro i; simp [removeMenuLoop]
  | cons m ms ih =>
    intro i
    unfold removeMenuLoop
    by_cases h : m.text.string = label
    · simp [h]
    · simp [h, ih]

theorem removeMenuLoop_eq_some (label : String) :
    ∀ (ms : List Menu) (i k : Nat) (ms1 : List Menu),
      removeMenuLoop label ms i = some (k, ms1) →
      ∃ pre m post, ms = pre ++ m :: post ∧ (∀ p ∈ pre, p.text.string ≠ label) ∧
        m.text.string = label ∧ k = i + pre.length ∧ ms1 = pre ++ post := by
  intro ms
  induction ms with
  | nil => intro i k ms1 h; simp [removeMenuLoop] at h
  | cons m0 ms ih =>
    intro i k ms1 h
    unfold removeMenuLoop at h
    by_cases h0 : m0.text.string = label
    · rw [if_pos h0] at h
      simp only [Option.some.injEq, Prod.mk.injEq] at h
      obtain ⟨hk, hms⟩ := h
      exact ⟨[], m0, ms, rfl, by simp, h0, by simp [hk], by simp [hms]⟩
    · rw [if_neg h0] at h
      simp only [Option.map_eq_some', Prod.mk.injEq] at h
      obtain ⟨⟨k2, ms2⟩, h2, hk, hms⟩ := h
      simp only at hk hms
      obtain ⟨pre, m, post, hpre, hno, hm, hk2, hms2⟩ := ih _ _ _ h2
      refine ⟨m0 :: pre, m, post, by rw [hpre]; rfl, ?_, hm, ?_, ?_⟩
      · intro p hp
        rcases List.mem_cons.mp hp with rfl | hp
        · exact h0
        · exact hno p hp
      · rw [← hk, hk2]; simp only [List.length_cons]; omega
      · rw [← hms, hms2]; rfl

/-- C12. `removeMenu(label)` returns true iff some menu has that label; when
it returns true exactly the first menu with that label is removed, with its
items, and the remaining menus keep their order, items and selections; when it
returns false the state is unchanged, so `removeMenu` for a label that no menu
carries is a no-op returning false. -/
theorem removeMenu_spec (s : MenuBar) (label : String) :
    ((s.removeMenu label).1 = true ↔ ∃ m ∈ s.m_menus, m.text.string = label) ∧
      ((s.removeMenu label).1 = true →
        ∃ pre m post, s.m_menus = pre ++ m :: post ∧
          (∀ p ∈ pre, p.text.string ≠ label) ∧ m.text.string = label ∧
          (s.removeMenu label).2.m_menus = pre ++ post) ∧
      ((s.removeMenu label).1 = false → (s.removeMenu label).2 = s) ∧
      ((∀ m ∈ s.m_menus, m.text.string ≠ label) → s.removeMenu label = (false, s)) := by
  unfold MenuBar.removeMenu
  cases hl : removeMenuLoop label s.m_menus 0 with
  | none =>
    have hnone := (removeMenuLoop_eq_none label s.m_menus 0).mp hl
    refine ⟨?_, ?_, ?_, ?_⟩
    · simp only [Bool.false_eq_true, false_iff, not_exists, not_and]
      intro m hm; exact hnone m hm
    · intro h; simp at h
    · intro _; rfl
    · intro _; rfl
  | some r =>
    obtain ⟨k, ms1⟩ := r
    obtain ⟨pre, m, post, hms, hpre, hm, -, rfl⟩ := removeMenuLoop_eq_some _ _ _ _ _ hl
    refine ⟨?_, ?_, ?_, ?_⟩
    · simp only [true_iff]
      exact ⟨m, by rw [hms]; simp, hm⟩
    · intro _
      exact ⟨pre, m, post, hms, hpre, hm, rfl⟩
    · intro h; simp at h
    · intro hno
      exact absurd hm (hno m (by rw [hms]; simp))

/-- Witness of C12: removing `File` from `fileBar`, and removing a label that
`fileBar` does not have. -/
theorem removeMenu_spec_witness :
    (∃ pre m post, fileBar.m_menus = pre ++ m :: post ∧
        (∀ p ∈ pre, p.text.string ≠ "File") ∧ m.text.string = "File" ∧
        (fileBar.removeMenu "File").2.m_menus = pre ++ post) ∧
      fileBar.removeMenu "Edit" = (false, fileBar) :=
  ⟨(removeMenu_spec fileBar "File").2.1 (by with_unfolding_all decide),
    (removeMenu_spec fileBar "Edit").2.2.2 (by with_unfolding_all decide)⟩

theorem removeItemLoop_eq_none (label : String) :
    ∀ (ts : List Text) (i : Nat),
      removeItemLoop label ts i = none ↔ ∀ t ∈ ts, t.string ≠ label := by
  intro ts
  induction ts with
  | nil => intro i; simp [removeItemLoop]
  | cons t ts ih =>
    intro i
    unfold removeItemLoop
    by_cases h : t.string = label
    · simp [h]
    · simp [h, ih]

theorem removeItemLoop_eq_some (label : String) :
    ∀ (ts : List Text) (i j : Nat) (ts1 : List Text),
      removeItemLoop label ts i = some (j, ts1) →
      ∃ ipre t ipost, ts = ipre ++ t :: ipost ∧ (∀ q ∈ ipre, q.string ≠ label) ∧
        t.string = label ∧ j = i + ipre.length ∧ ts1 = ipre ++ ipost := by
  intro ts
  induction ts with
  | nil => intro i j ts1 h; simp [removeItemLoop] at h
  | cons t0 ts ih =>
    intro i j ts1 h
    unfold removeItemLoop at h
    by_cases h0 : t0.string = label
    · rw [if_pos h0] at h
      simp only [Option.some.injEq, Prod.mk.injEq] at h
      obtain ⟨hj, hts⟩ := h
      exact ⟨[], t0, ts, rfl, by simp, h0, by simp [hj], by simp [hts]⟩
    · rw [if_neg h0] at h
      simp only [Option.map_eq_some', Prod.mk.injEq] at h
      obtain ⟨⟨j2, ts2⟩, h2, hj, hts⟩ := h
      simp only at hj hts
      obtain ⟨ipre, t, ipost, hpre, hno, ht, hj2, hts2⟩ := ih _ _ _ h2
      refine ⟨t0 :: ipre, t, ipost, by rw [hpre]; rfl, ?_, ht, ?_, ?_⟩
      · intro q hq
        rcases List.mem_cons.mp hq with rfl | hq
        · exact h0
        · exact hno q hq
      · rw [← hj, hj2]; simp only [List.length_cons]; omega
      · rw [← hts, hts2]; rfl

theorem removeMenuItemLoop_eq_none (menu menuItem : String) :
    ∀ (ms : List Menu),
      removeMenuItemLoop menu menuItem ms = none ↔
        ∀ m ∈ ms, m.text.string = menu → ∀ t ∈ m.menuItems, t.string ≠ menuItem := by
  intro ms
  induction ms with
  | nil => simp [removeMenuItemLoop]
  | cons m ms ih =>
    unfold removeMenuItemLoop
    by_cases h : m.text.string = menu
    · rw [if_pos h]
      cases hl : removeItemLoop menuItem m.menuItems 0 with
      | none =>
        have hno := (removeItemLoop_eq_none menuItem m.menuItems 0).mp hl
        simp only [Option.map_eq_none', ih, List.mem_cons, forall_eq_or_imp]
        constructor
        · intro hrest; exact ⟨fun _ => hno, hrest⟩
        · intro hall; exact hall.2
      | some r =>
        obtain ⟨j, items⟩ := r
        obtain ⟨ipre, t, ipost, hts, -, ht, -, -⟩ := removeItemLoop_eq_some _ _ _ _ _ hl
        constructor
        · intro hc; cases hc
        · intro hall
          exact absurd ht (hall m (List.mem_cons_self _ _) h t (by rw [hts]; simp))
    · rw [if_neg h]
      simp only [Option.map_eq_none', ih, List.mem_cons, forall_eq_or_imp]
      constructor
      · intro hrest; exact ⟨fun hm => absurd hm h, hrest⟩
      · intro hall; exact hall.2

/-- The shape of a successful `removeMenuItem` search, with the position of the
changed menu and of the removed item. -/
theorem removeMenuItemLoop_first (menu menuItem : String) :
    ∀ (ms ms1 : List Menu), removeMenuItemLoop menu menuItem ms = some ms1 →
      ∃ pre m post ipre t ipost, ms = pre ++ m :: post ∧
        (∀ p ∈ pre, p.text.string = menu → ∀ q ∈ p.menuItems, q.string ≠ menuItem) ∧
        m.text.string = menu ∧ m.menuItems = ipre ++ t :: ipost ∧
        (∀ q ∈ ipre, q.string ≠ menuItem) ∧ t.string = menuItem ∧
        ms1 = pre ++ { m with
          menuItems := ipre ++ ipost
          selectedMenuItem :=
            if m.selectedMenuItem = (ipre.length : Int) then -1
            else m.selectedMenuItem } :: post := by
  intro ms
  induction ms with
  | nil => intro ms1 h; simp [removeMenuItemLoop] at h
  | cons m0 ms ih =>
    intro ms1 h
    unfold removeMenuItemLoop at h
    by_cases hfound : m0.text.string = menu ∧
        ∃ r, removeItemLoop menuItem m0.menuItems 0 = some r
    · obtain ⟨h0, ⟨j, items⟩, hl⟩ := hfound
      rw [if_pos h0, hl] at h
      simp only [Option.some.injEq] at h
      obtain ⟨ipre, t, ipost, hts, hno, ht, hj, hitems⟩ := removeItemLoop_eq_some _ _ _ _ _ hl
      simp only [Nat.zero_add] at hj
      subst hj; subst hitems
      exact ⟨[], m0, ms, ipre, t, ipost, rfl, by simp, h0, hts, hno, ht, h.symm⟩
    · have hskip : m0.text.string = menu → ∀ q ∈ m0.menuItems, q.string ≠ menuItem := by
        intro h0
        cases hl : removeItemLoop menuItem m0.menuItems 0 with
        | none => exact (removeItemLoop_eq_none menuItem m0.menuItems 0).mp hl
        | some r => exact absurd ⟨h0, r, hl⟩ hfound
      have hrest : (removeMenuItemLoop menu menuItem ms).map (m0 :: ·) = some ms1 := by
        by_cases h0 : m0.text.string = menu
        · rw [if_pos h0] at h
          cases hl : removeItemLoop menuItem m0.menuItems 0 with
          | none => rw [hl] at h; exact h
          | some r => exact absurd ⟨h0, r, hl⟩ hfound
        · rw [if_neg h0] at h; exact h
      simp only [Option.map_eq_some'] at hrest
      obtain ⟨ms2, h2, heq⟩ := hrest
      obtain ⟨pre, m, post, ipre, t, ipost, hms, hpre, hm, hts, hno, ht, hres⟩ := ih ms2 h2
      refine ⟨m0 :: pre, m, post, ipre, t, ipost, by rw [hms]; rfl, ?_, hm, hts, hno, ht,
        by rw [← heq, hres]; rfl⟩
      intro p hp
      rcases List.mem_cons.mp hp with rfl | hp
      · exact hskip
      · exact hpre p hp

/-- C13. `removeMenuItem(menu, menuItem)` returns true iff some menu labelled
`menu` contains an item labelled `menuItem`; when it returns true exactly one
item is removed, the first matching item of the first such menu that contains
one, all other items keep their order and the menus and their headers are the
same; when it returns false the state is unchanged. -/
theorem removeMenuItem_spec (s : MenuBar) (menu menuItem : String) :
    ((s.removeMenuItem menu menuItem).1 = true ↔
        ∃ m ∈ s.m_menus, m.text.string = menu ∧ ∃ t ∈ m.menuItems, t.string = menuItem) ∧
      ((s.removeMenuItem menu menuItem).1 = true →
        ∃ pre m post ipre t ipost m1, s.m_menus = pre ++ m :: post ∧
          (∀ p ∈ pre, p.text.string = menu → ∀ q ∈ p.menuItems, q.string ≠ menuItem) ∧
          m.text.string = menu ∧ m.menuItems = ipre ++ t :: ipost ∧
          (∀ q ∈ ipre, q.string ≠ menuItem) ∧ t.string = menuItem ∧
          (s.removeMenuItem menu menuItem).2.m_menus = pre ++ m1 :: post ∧
          m1.text = m.text ∧ m1.menuItems = ipre ++ ipost ∧
          (s.removeMenuItem menu menuItem).2.m_menus.map (fun m => m.text) =
            s.m_menus.map (fun m => m.text)) ∧
      ((s.removeMenuItem menu menuItem).1 = false →
        (s.removeMenuItem menu menuItem).2 = s) := by
  unfold MenuBar.removeMenuItem
  cases hl : removeMenuItemLoop menu menuItem s.m_menus with
  | none =>
    have hnone := (removeMenuItemLoop_eq_none menu menuItem s.m_menus).mp hl
    refine ⟨?_, ?_, ?_⟩
    · simp only [Bool.false_eq_true, false_iff, not_exists, not_and]
      intro m hm hlabel t ht
      exact hnone m hm hlabel t ht
    · intro h; simp at h
    · intro _; rfl
  | some ms1 =>
    obtain ⟨pre, m, post, ipre, t, ipost, hms, hpre, hm, hts, hno, ht, rfl⟩ :=
      removeMenuItemLoop_first _ _ _ _ hl
    refine ⟨?_, ?_, ?_⟩
    · simp only [true_iff]
      exact ⟨m, by rw [hms]; simp, hm, t, by rw [hts]; simp, ht⟩
    · intro _
      refine ⟨pre, m, post, ipre, t, ipost, _, hms, hpre, hm, hts, hno, ht, rfl, rfl, rfl, ?_⟩
      rw [hms]
      simp
    · intro h; simp at h

/-- Witness of C13: removing `Load` from the menu `File` of `fileBar`. -/
theorem removeMenuItem_spec_witness :
    ∃ pre m post ipre t ipost m1, fileBar.m_menus = pre ++ m :: post ∧
      (∀ p ∈ pre, p.text.string = "File" → ∀ q ∈ p.menuItems, q.string ≠ "Load") ∧
      m.text.string = "File" ∧ m.menuItems = ipre ++ t :: ipost ∧
      (∀ q ∈ ipre, q.string ≠ "Load") ∧ t.string = "Load" ∧
      (fileBar.removeMenuItem "File" "Load").2.m_menus = pre ++ m1 :: post ∧
      m1.text = m.text ∧ m1.menuItems = ipre ++ ipost ∧
      (fileBar.removeMenuItem "File" "Load").2.m_menus.map (fun m => m.text) =
        fileBar.m_menus.map (fun m => m.text) :=
  (removeMenuItem_spec fileBar "File" "Load").2.1 (by with_unfolding_all decide)

/-- C14. When the menus have pairwise distinct labels, `getMenus()` has exactly
one key per menu (its entries are the entries of the menus, rearranged into
ascending label order, with no key twice), and the value stored under a menu's
label is the list of that menu's item labels in their stored order. -/
theorem getMenus_distinct_labels (s : MenuBar)
    (hnd : (s.m_menus.map fun m => m.text.string).Nodup) :
    s.getMenus.Perm (s.m_menus.map Menu.entry) ∧
      s.getMenus.length = s.m_menus.length ∧
      (s.getMenus.map Prod.fst).Nodup ∧
      s.getMenus.Pairwise (fun a b => a.1 < b.1) ∧
      ∀ m ∈ s.m_menus, ∀ v,
        (m.text.string, v) ∈ s.getMenus ↔ v = m.menuItems.map fun t => t.string := by
  have hkeys : (s.m_menus.map Menu.entry).map Prod.fst = s.m_menus.map fun m => m.text.string := by
    rw [List.map_map]; rfl
  have hperm : s.getMenus.Perm (s.m_menus.map Menu.entry) := by
    rw [getMenus_eq_foldl]
    have := StdMap.foldl_perm (s.m_menus.map Menu.entry) [] (by rw [hkeys]; exact hnd)
      (by simp)
    simpa using this
  refine ⟨hperm, ?_, ?_, ?_, ?_⟩
  · rw [hperm.length_eq, List.length_map]
  · have := (hperm.map Prod.fst).nodup_iff.mpr (by rw [hkeys]; exact hnd)
    exact this
  · rw [getMenus_eq_foldl]
    exact StdMap.foldl_sorted _ [] List.Pairwise.nil
  · intro m hm v
    constructor
    · intro hv
      have hv1 := hperm.mem_iff.mp hv
      obtain ⟨m1, hm1, heq⟩ := List.mem_map.mp hv1
      simp only [Menu.entry, Prod.mk.injEq] at heq
      have hsame : m1 = m := List.inj_on_of_nodup_map hnd hm1 hm heq.1
      rw [← heq.2, hsame]
    · intro hv
      subst hv
      exact hperm.mem_iff.mpr (List.mem_map.mpr ⟨m, hm, rfl⟩)

/-- Witness of C14: `fileBar` has the single key `File`, with the items `Load`
and `Save` in that order. -/
theorem getMenus_distinct_labels_witness :
    fileBar.getMenus.Perm (fileBar.m_menus.map Menu.entry) ∧
      fileBar.getMenus.length = fileBar.m_menus.length ∧
      (fileBar.getMenus.map Prod.fst).Nodup ∧
      fileBar.getMenus.Pairwise (fun a b => a.1 < b.1) ∧
      ∀ m ∈ fileBar.m_menus, ∀ v,
        (m.text.string, v) ∈ fileBar.getMenus ↔ v = m.menuItems.map fun t => t.string :=
  getMenus_distinct_labels fileBar (by with_unfolding_all decide)

/-! ## `closeVisibleMenu`, `mouseLeftWidget` and moves over a closed bar -/

theorem visibleValid_open {s : MenuBar} (hv : s.VisibleValid) (hne : s.m_visibleMenu ≠ -1) :
    ∃ (k : Nat) (m : Menu), s.m_visibleMenu = (k : Int) ∧ s.m_menus[k]? = some m := by
  rcases hv with hv | ⟨h0, h1⟩
  · exact absurd hv hne
  · have hk : s.m_visibleMenu.toNat < s.m_menus.length := by omega
    exact ⟨s.m_visibleMenu.toNat, s.m_menus[s.m_visibleMenu.toNat],
      (Int.toNat_of_nonneg h0).symm, List.getElem?_eq_getElem hk⟩

theorem Menu.entry_unselect {m m1 : Menu} {c : Color} (h : m.unselect c = some m1) :
    m1.entry = m.entry ∧ m1.text = m.text := by
  unfold Menu.unselect at h
  by_cases hs : m.selectedMenuItem = -1
  · simp [hs] at h
    subst h
    exact ⟨rfl, rfl⟩
  · cases hi : setItemColor m.menuItems m.selectedMenuItem c with
    | none => simp [hs, hi] at h
    | some items =>
      simp [hs, hi] at h
      subst h
      refine ⟨?_, rfl⟩
      unfold setItemColor at hi
      split_ifs at hi with hk
      simp only [Option.some.injEq] at hi
      subst hi
      simp only [Menu.entry, Prod.mk.injEq, true_and]
      apply List.ext_getElem?
      intro n
      simp only [List.getElem?_map, List.getElem?_modify]
      by_cases hn : m.selectedMenuItem.toNat = n
      · simp [hn, Text.setColor]
        cases m.menuItems[n]? <;> simp
      · simp [hn]

theorem map_entry_set {ms : List Menu} {k : Nat} {m m1 : Menu} (hm : ms[k]? = some m)
    (he : m1.entry = m.entry) : (ms.set k m1).map Menu.entry = ms.map Menu.entry := by
  apply List.ext_getElem?
  intro n
  simp only [List.getElem?_map, List.getElem?_set]
  by_cases hn : k = n
  · subst hn
    have hk : k < ms.length := by
      by_contra hge
      rw [List.getElem?_eq_none (not_lt.mp hge)] at hm
      cases hm
    simp [hk, hm, he]
  · simp [hn]

theorem getElem?_set_other {ms : List Menu} {k j : Nat} (m1 : Menu) (hne : j ≠ k) :
    (ms.set k m1)[j]? = ms[j]? := by
  rw [List.getElem?_set]
  simp [Ne.symm hne]

/-- C20. On a state satisfying the index invariants `closeVisibleMenu` is
defined; afterwards no menu is open and the previously open menu has no
selected item, while the labels of the menus and of their items, every other
menu and every other member of the state are unchanged.  Applying it again
changes nothing, and it is the identity when no menu is open. -/
theorem closeVisibleMenu_spec (s : MenuBar) (hinv : s.IndexInvariants) :
    ∃ s1, s.closeVisibleMenu = some s1 ∧
      s1.m_visibleMenu = -1 ∧
      (∀ m, vecGet s1.m_menus s.m_visibleMenu = some m → m.selectedMenuItem = -1) ∧
      s1.m_menus.map Menu.entry = s.m_menus.map Menu.entry ∧
      (∀ j : Nat, (j : Int) ≠ s.m_visibleMenu → s1.m_menus[j]? = s.m_menus[j]?) ∧
      { s1 with m_menus := s.m_menus, m_visibleMenu := s.m_visibleMenu } = s ∧
      s1.closeVisibleMenu = some s1 ∧
      (s.m_visibleMenu = -1 → s1 = s) := by
  by_cases hne : s.m_visibleMenu = -1
  · have hc : s.closeVisibleMenu = some s := by simp [MenuBar.closeVisibleMenu, hne]
    refine ⟨s, hc, hne, ?_, rfl, fun _ _ => rfl, rfl, hc, fun _ => rfl⟩
    intro m hm
    rw [hne] at hm
    simp [vecGet] at hm
  · obtain ⟨k, m, hk, hm⟩ := visibleValid_open hinv.1 hne
    have hsel : m.SelectionValid := hinv.2 m (List.getElem?_mem hm)
    obtain ⟨m1, hu, hclose⟩ := closeVisibleMenu_of_open hk hm hsel
    have hklt : k < s.m_menus.length := by
      by_contra hge
      rw [List.getElem?_eq_none (not_lt.mp hge)] at hm
      cases hm
    have hentry := Menu.entry_unselect hu
    have hs1 := Menu.unselect_sel hu
    refine ⟨_, hclose, rfl, ?_, ?_, ?_, rfl, ?_, fun h => absurd h hne⟩
    · intro m2 hm2
      rw [hk, vecGet_natCast] at hm2
      simp only [List.getElem?_set, hklt, if_true] at hm2
      simp only [Option.some.injEq] at hm2
      subst hm2
      exact hs1
    · exact map_entry_set hm (by
        have := hentry.1
        simp only [Menu.entry] at this ⊢
        simpa [Text.setColor] using this)
    · intro j hj
      exact getElem?_set_other _ (by
        intro hjk; apply hj; rw [hk, hjk])
    · simp [MenuBar.closeVisibleMenu]

/-- Witness of C20: closing the open menu of `fileBarHover`. -/
theorem closeVisibleMenu_spec_witness :
    ∃ s1, fileBarHover.closeVisibleMenu = some s1 ∧
      s1.m_visibleMenu = -1 ∧
      (∀ m, vecGet s1.m_menus fileBarHover.m_visibleMenu = some m →
        m.selectedMenuItem = -1) ∧
      s1.m_menus.map Menu.entry = fileBarHover.m_menus.map Menu.entry ∧
      (∀ j : Nat, (j : Int) ≠ fileBarHover.m_visibleMenu →
        s1.m_menus[j]? = fileBarHover.m_menus[j]?) ∧
      { s1 with m_menus := fileBarHover.m_menus, m_visibleMenu := fileBarHover.m_visibleMenu }
        = fileBarHover ∧
      s1.closeVisibleMenu = some s1 ∧
      (fileBarHover.m_visibleMenu = -1 → s1 = fileBarHover) :=
  closeVisibleMenu_spec fileBarHover
    ⟨by with_unfolding_all decide, by unfold MenuBar.SelectionsValid; with_unfolding_all decide⟩

/-- C15. On a state satisfying the index invariants `mouseLeftWidget` is
defined; it leaves the open-menu index, the number of menus and the labels of
the menus and of their items unchanged, leaves the open menu (if any) with no
selected item, leaves every other menu as it was, sets `m_mouseHover` to false
and sends `MouseLeft`.  In particular it never closes the open menu. -/
theorem mouseLeftWidget_spec (s : MenuBar) (hinv : s.IndexInvariants) :
    ∃ s1, s.mouseLeftWidget = some s1 ∧
      s1.m_visibleMenu = s.m_visibleMenu ∧
      s1.m_menus.length = s.m_menus.length ∧
      s1.m_menus.map Menu.entry = s.m_menus.map Menu.entry ∧
      (∀ m, vecGet s1.m_menus s1.m_visibleMenu = some m → m.selectedMenuItem = -1) ∧
      (∀ j : Nat, (j : Int) ≠ s.m_visibleMenu → s1.m_menus[j]? = s.m_menus[j]?) ∧
      s1.m_mouseHover = false ∧
      s1.signals = s.signals ++ [Signal.MouseLeft] := by
  by_cases hne : s.m_visibleMenu = -1
  · have hl : s.mouseLeftWidget = some s.widgetMouseLeftWidget := by
      simp [MenuBar.mouseLeftWidget, hne]
    refine ⟨_, hl, rfl, rfl, rfl, ?_, fun _ _ => rfl, rfl, rfl⟩
    intro m hm
    have hv : s.widgetMouseLeftWidget.m_visibleMenu = -1 := hne
    rw [hv] at hm
    simp [vecGet] at hm
  · obtain ⟨k, m, hk, hm⟩ := visibleValid_open hinv.1 hne
    have hsel : m.SelectionValid := hinv.2 m (List.getElem?_mem hm)
    obtain ⟨m1, hu, hs1, -, -⟩ := Menu.unselect_of_valid s.m_renderer.textColor hsel
    have hklt : k < s.m_menus.length := by
      by_contra hge
      rw [List.getElem?_eq_none (not_lt.mp hge)] at hm
      cases hm
    have hl : s.mouseLeftWidget =
        some (MenuBar.widgetMouseLeftWidget { s with m_menus := s.m_menus.set k m1 }) := by
      unfold MenuBar.mouseLeftWidget
      have hget : vecGet s.m_menus (k : Int) = some m := by
        rw [vecGet_natCast]; exact hm
      simp [hne, hget, hu, hk]
    refine ⟨_, hl, rfl, ?_, ?_, ?_, ?_, rfl, rfl⟩
    · simp [MenuBar.widgetMouseLeftWidget]
    · exact map_entry_set hm (Menu.entry_unselect hu).1
    · intro m2 hm2
      have hv : (MenuBar.widgetMouseLeftWidget
          { s with m_menus := s.m_menus.set k m1 }).m_visibleMenu = (k : Int) := hk
      rw [hv, vecGet_natCast] at hm2
      simp only [MenuBar.widgetMouseLeftWidget, List.getElem?_set, hklt, if_true,
        Option.some.injEq] at hm2
      subst hm2
      exact hs1
    · intro j hj
      exact getElem?_set_other _ (by
        intro hjk; apply hj; rw [hk, hjk])

/-- Witness of C15: the mouse leaves `fileBarHover`, where item 1 of the open
menu is selected. -/
theorem mouseLeftWidget_spec_witness :
    ∃ s1, fileBarHover.mouseLeftWidget = some s1 ∧
      s1.m_visibleMenu = fileBarHover.m_visibleMenu ∧
      s1.m_menus.length = fileBarHover.m_menus.length ∧
      s1.m_menus.map Menu.entry = fileBarHover.m_menus.map Menu.entry ∧
      (∀ m, vecGet s1.m_menus s1.m_visibleMenu = some m → m.selectedMenuItem = -1) ∧
      (∀ j : Nat, (j : Int) ≠ fileBarHover.m_visibleMenu →
        s1.m_menus[j]? = fileBarHover.m_menus[j]?) ∧
      s1.m_mouseHover = false ∧
      s1.signals = fileBarHover.signals ++ [Signal.MouseLeft] :=
  mouseLeftWidget_spec fileBarHover
    ⟨by with_unfolding_all decide, by unfold MenuBar.SelectionsValid; with_unfolding_all decide⟩

/-- C16. When no menu is open, a move to a point with `y` below the bar height
is defined, leaves no menu open and leaves every menu, with its selected item,
as it was: only the hover flag and the `MouseEntered` signal can change. -/
theorem mouseMoved_closed_bar (env : Env) (s : MenuBar) (x y : ℚ)
    (hclosed : s.m_visibleMenu = -1) (hy : y < s.height) :
    ∃ s1, s.mouseMoved env x y = some s1 ∧
      s1.m_visibleMenu = -1 ∧ s1.m_menus = s.m_menus ∧
      { s1 with m_mouseHover := s.m_mouseHover, signals := s.signals } = s := by
  by_cases hh : s.m_mouseHover = true
  · refine ⟨s, ?_, hclosed, rfl, rfl⟩
    unfold MenuBar.mouseMoved
    simp [hh, hy, hclosed]
  · refine ⟨s.mouseEnteredWidget, ?_, hclosed, rfl, rfl⟩
    have hy1 : y < s.mouseEnteredWidget.height := hy
    have hc1 : s.mouseEnteredWidget.m_visibleMenu = -1 := hclosed
    unfold MenuBar.mouseMoved
    simp [hh, hy1, hc1]

/-- Witness of C16: a move over the header of `File` on the closed bar
`fileBar`. -/
theorem mouseMoved_closed_bar_witness :
    ∃ s1, fileBar.mouseMoved exampleEnv 1 1 = some s1 ∧
      s1.m_visibleMenu = -1 ∧ s1.m_menus = fileBar.m_menus ∧
      { s1 with m_mouseHover := fileBar.m_mouseHover, signals := fileBar.signals } = fileBar :=
  mouseMoved_closed_bar exampleEnv fileBar 1 1
    (by with_unfolding_all decide) (by with_unfolding_all decide)

/-! ## Moves while a menu is open -/

theorem headerScan_congr (env : Env) {s s1 : MenuBar} (x : ℚ)
    (hr : s1.m_renderer = s.m_renderer) :
    ∀ (ms : List Menu) (i : Nat) (w : ℚ),
      headerScan env s1 x ms i w = headerScan env s x ms i w := by
  intro ms
  induction ms with
  | nil => intro i w; rfl
  | cons m ms ih =>
    intro i w
    unfold headerScan
    have hw : s1.headerWidth env m = s.headerWidth env m := by
      simp [MenuBar.headerWidth, hr]
    rw [hw, ih]

/-- A move on a widget that is not hovered is the move on the widget after
`mouseEnteredWidget`. -/
theorem mouseMoved_enter (env : Env) (s : MenuBar) (x y : ℚ) (hh : s.m_mouseHover = false) :
    s.mouseMoved env x y = s.mouseEnteredWidget.mouseMoved env x y := by
  have h1 : s.mouseEnteredWidget.m_mouseHover = true := rfl
  unfold MenuBar.mouseMoved
  simp only [hh, h1, Bool.false_eq_true, not_false_eq_true, not_true_eq_false, if_true,
    if_false]

/-- The move of C17 on a hovered widget, with the resulting state. -/
theorem hovered_move_other_header (env : Env) (s : MenuBar) (x y : ℚ) (i j : Nat)
    (mi mj : Menu) (hh : s.m_mouseHover = true)
    (hopen : s.m_visibleMenu = (i : Int)) (hmi : s.m_menus[i]? = some mi)
    (hsel : mi.SelectionValid) (hy : y < s.height)
    (hscan : headerScan env s x s.m_menus 0 0 = some j)
    (hmj : s.m_menus[j]? = some mj) (hij : j ≠ i) :
    ∃ m1, mi.unselect s.m_renderer.textColor = some m1 ∧
      s.mouseMoved env x y = some
        (if mj.menuItems = [] then
          { s with
            m_menus := s.m_menus.set i
              { m1 with text := m1.text.setColor s.m_renderer.textColor }
            m_visibleMenu := -1 }
        else
          { s with
            m_menus := (s.m_menus.set i
              { m1 with text := m1.text.setColor s.m_renderer.textColor }).set j
              { mj with text := mj.text.setColor s.highlightColor }
            m_visibleMenu := (j : Int) }) := by
  obtain ⟨m1, hu, hclose⟩ := closeVisibleMenu_of_open hopen hmi hsel
  refine ⟨m1, hu, ?_⟩
  have hne : ¬ s.m_visibleMenu = -1 := by rw [hopen]; omega
  have hvj : ¬ s.m_visibleMenu = (j : Int) := by
    rw [hopen]; intro h; apply hij; exact_mod_cast h.symm
  have hj2 : (s.m_menus.set i
      { m1 with text := m1.text.setColor s.m_renderer.textColor })[j]? = some mj := by
    rw [getElem?_set_other _ hij]; exact hmj
  unfold MenuBar.mouseMoved
  simp only [hh, not_true_eq_false, if_false, hy, if_true, ne_eq, hne, not_false_eq_true,
    hscan, hvj, hclose, Option.bind_eq_bind, Option.some_bind, hj2]
  by_cases he : mj.menuItems = []
  · simp [he]
  · simp [he, MenuBar.highlightColor]

/-- C17 (amended). When menu `i` is open with a selection that is `-1` or a
valid index, and the move point has `y` below the bar height and `x` on the
header of a different menu `j`: after `mouseMoved` menu `i` has no selected
item, and the open menu is `j` when `j` has an item, while no menu is open when
`j` has none. -/
theorem mouseMoved_other_header (env : Env) (s : MenuBar) (x y : ℚ) (i j : Nat)
    (mi mj : Menu)
    (hopen : s.m_visibleMenu = (i : Int)) (hmi : s.m_menus[i]? = some mi)
    (hsel : mi.SelectionValid) (hy : y < s.height)
    (hx : s.OnHeader env x j) (hmj : s.m_menus[j]? = some mj) (hij : j ≠ i) :
    ∃ s1, s.mouseMoved env x y = some s1 ∧
      (mj.menuItems ≠ [] → s1.m_visibleMenu = (j : Int)) ∧
      (mj.menuItems = [] → s1.m_visibleMenu = -1) ∧
      ∃ m1, s1.m_menus[i]? = some m1 ∧ m1.selectedMenuItem = -1 := by
  have hj : j < s.m_menus.length := by
    by_contra hge
    rw [List.getElem?_eq_none (not_lt.mp hge)] at hmj
    cases hmj
  have hi : i < s.m_menus.length := by
    by_contra hge
    rw [List.getElem?_eq_none (not_lt.mp hge)] at hmi
    cases hmi
  have hscan := headerScan_of_onHeader hj hx
  have key : ∀ s0 : MenuBar, s0.m_mouseHover = true → s0.m_menus = s.m_menus →
      s0.m_visibleMenu = s.m_visibleMenu → s0.m_renderer = s.m_renderer →
      s0.m_size = s.m_size →
      ∃ s1, s0.mouseMoved env x y = some s1 ∧
        (mj.menuItems ≠ [] → s1.m_visibleMenu = (j : Int)) ∧
        (mj.menuItems = [] → s1.m_visibleMenu = -1) ∧
        ∃ m1, s1.m_menus[i]? = some m1 ∧ m1.selectedMenuItem = -1 := by
    intro s0 hh0 hms hv hr hsz
    have hscan0 : headerScan env s0 x s0.m_menus 0 0 = some j := by
      rw [headerScan_congr env x hr, hms]; exact hscan
    obtain ⟨m1, hu, hmove⟩ := hovered_move_other_header env s0 x y i j mi mj hh0
      (by rw [hv]; exact hopen) (by rw [hms]; exact hmi) hsel
      (by unfold MenuBar.height; rw [hsz]; exact hy) hscan0 (by rw [hms]; exact hmj) hij
    have hs1 := Menu.unselect_sel hu
    refine ⟨_, hmove, ?_, ?_, ?_⟩
    · intro he; simp [he]
    · intro he; simp [he]
    · refine ⟨{ m1 with text := m1.text.setColor s0.m_renderer.textColor }, ?_, hs1⟩
      by_cases he : mj.menuItems = []
      · simp [he, hms, hi]
      · simp only [he, if_false]
        rw [getElem?_set_other _ (Ne.symm hij)]
        simp [hms, hi]
  by_cases hh : s.m_mouseHover = true
  · exact key s hh rfl rfl rfl rfl
  · have hf : s.m_mouseHover = false := by simpa using hh
    rw [mouseMoved_enter env s x y hf]
    exact key s.mouseEnteredWidget rfl rfl rfl rfl rfl

set_option maxRecDepth 100000 in
/-- Witness of C17 (amended): on `editFileBar`, where `File` (menu 1) is open,
a move to `(1, 1)`, in the span `[0, 48)` of the header of `Edit` (menu 0). -/
theorem mouseMoved_other_header_witness :
    ∃ s1, editFileBar.mouseMoved exampleEnv 1 1 = some s1 ∧
      s1.m_visibleMenu = ((0 : Nat) : Int) ∧
      ∃ m1, s1.m_menus[1]? = some m1 ∧ m1.selectedMenuItem = -1 := by
  obtain ⟨s1, h1, h2, -, h3⟩ := mouseMoved_other_header exampleEnv editFileBar 1 1 1 0
    ⟨⟨"File", Color.White, 1, 0, 16⟩, [⟨"Load", Color.Black, 1, 0, 16⟩], -1⟩
    ⟨⟨"Edit", Color.Black, 1, 0, 16⟩, [⟨"Undo", Color.Black, 1, 0, 16⟩], -1⟩
    (by with_unfolding_all decide) (by with_unfolding_all decide)
    (by with_unfolding_all decide) (by with_unfolding_all decide)
    (Or.inr (by with_unfolding_all decide)) (by with_unfolding_all decide) (by decide)
  exact ⟨s1, h1, h2 (by simp), h3⟩

set_option maxRecDepth 8000 in
/-- C17, counterexample.  In `fileHelpBar` the menu `File` (menu 0) is open and
`Help` (menu 1) has no items.  The move to `(60, 1)` lies below the bar height
on the header of `Help`; afterwards no menu is open, so the open menu is not
menu 1.  And in `staleTwoMenuBar`, where the open menu `File` has
`selectedMenuItem = 2` with two items, the move to `(60, 1)` onto the header
of `Edit` indexes `menuItems[2]` out of range: it has no defined result. -/
theorem mouseMoved_onto_empty_menu_closes :
    fileHelpBar.m_visibleMenu = 0 ∧
      (fileHelpBar.m_menus.map fun m => (m.text.string, m.menuItems.length)) =
        [("File", 1), ("Help", 0)] ∧
      (60 : ℚ) < fileHelpBar.leftEdge exampleEnv 2 ∧
      fileHelpBar.leftEdge exampleEnv 1 ≤ 60 ∧
      headerScan exampleEnv fileHelpBar 60 fileHelpBar.m_menus 0 0 = some 1 ∧
      (1 : ℚ) < fileHelpBar.height ∧
      (fileHelpBar.mouseMoved exampleEnv 60 1).map (fun s => s.m_visibleMenu) = some (-1) ∧
      staleTwoMenuBar.m_visibleMenu = 0 ∧
      (staleTwoMenuBar.m_menus.map fun m =>
        (m.text.string, m.menuItems.length, m.selectedMenuItem)) =
        [("File", 2, 2), ("Edit", 1, -1)] ∧
      headerScan exampleEnv staleTwoMenuBar 60 staleTwoMenuBar.m_menus 0 0 = some 1 ∧
      staleTwoMenuBar.mouseMoved exampleEnv 60 1 = none := by
  with_unfolding_all decide

set_option maxRecDepth 100000 in
/-- C18 (fails): `mouseMoved` stores and dereferences an index outside
`[0, n)` at points of the open submenu.  On `nineItemBar` (height
`h = 20.1f`, `n = 9` items, nothing selected) the point `(1, 201)` has
`h ≤ y < h + n * h`, `⌊(y - h) / h⌋ = 8`, and is accepted by `mouseOnWidget`;
the `float` quotient rounds to 9, and `mouseMoved` indexes `menuItems[9]`: it
has no defined result.  On `staleSelectionBar`, reached from `fileBar` by a
move onto item 2 and `removeMenuItem` of item 0, the open menu has two items
and `selectedMenuItem = 2`; the move to `(1, 25)` first recolours
`menuItems[2]`, out of range. -/
theorem mouseMoved_submenu_undefined :
    nineItemBar.m_visibleMenu = 0 ∧
      (nineItemBar.m_menus.map fun m => (m.menuItems.length, m.selectedMenuItem))
        = [(9, -1)] ∧
      (0 : ℚ) < nineItemBar.height ∧ nineItemBar.height ≤ 201 ∧
      (201 : ℚ) < nineItemBar.height + 9 * nineItemBar.height ∧
      ⌊((201 : ℚ) - nineItemBar.height) / nineItemBar.height⌋ = 8 ∧
      nineItemBar.mouseOnWidget exampleEnv 1 201 = some true ∧
      (fdiv (fsub 201 nineItemBar.height) nineItemBar.height).bind toInt = some 9 ∧
      nineItemBar.mouseMoved exampleEnv 1 201 = none ∧
      fileBar.steps exampleEnv
        [Op.addMenuItem "Quit" "", Op.leftMousePressed 1 1, Op.mouseMoved 1 65,
          Op.removeMenuItem "File" "Load"] = some staleSelectionBar ∧
      staleSelectionBar.m_visibleMenu = 0 ∧
      (staleSelectionBar.m_menus.map fun m => (m.menuItems.length, m.selectedMenuItem))
        = [(2, 2)] ∧
      (0 : ℚ) < staleSelectionBar.height ∧ staleSelectionBar.height ≤ 25 ∧
      (25 : ℚ) < staleSelectionBar.height + 2 * staleSelectionBar.height ∧
      staleSelectionBar.mouseOnWidget exampleEnv 1 25 = some true ∧
      staleSelectionBar.mouseMoved exampleEnv 1 25 = none := by
  with_unfolding_all decide

/-- The loop of `mouseOnWidget` that sums the header widths in front of the
open menu is defined when the index is within the menu list, and yields the
left edge of that menu. -/
theorem mouseOnWidget_left (env : Env) (s : MenuBar) :
    ∀ k : Nat, k ≤ s.m_menus.length →
      (List.range k).foldlM
        (fun (left : ℚ) i => (s.m_menus[i]?).map fun m => fadd left (s.headerWidth env m)) 0 =
        some (s.leftEdge env k) := by
  intro k
  induction k with
  | zero => intro _; simp [MenuBar.leftEdge]
  | succ k ih =>
    intro hk
    have hlt : k < s.m_menus.length := hk
    rw [List.range_succ, List.foldlM_append, ih (Nat.le_of_lt hlt)]
    simp only [Option.bind_eq_bind, Option.some_bind, List.foldlM_cons, List.foldlM_nil,
      List.getElem?_eq_getElem hlt, Option.map_some', Option.pure_def]
    congr 1
    rw [leftEdge_eq, leftEdge_eq]
    simp only [List.take_succ, List.getElem?_eq_getElem hlt, Option.toList_some,
      List.foldl_append, List.foldl_cons, List.foldl_nil]

/-- On an open menu with a valid selection `mouseLeftWidget` is defined and
rewrites only the open menu, clearing its selection. -/
theorem mouseLeftWidget_of_open {s : MenuBar} {k : Nat} {m : Menu}
    (hopen : s.m_visibleMenu = (k : Int)) (hm : s.m_menus[k]? = some m)
    (hsel : m.SelectionValid) :
    ∃ m1, m.unselect s.m_renderer.textColor = some m1 ∧
      s.mouseLeftWidget =
        some (MenuBar.widgetMouseLeftWidget { s with m_menus := s.m_menus.set k m1 }) := by
  obtain ⟨m1, hu, -, -, -⟩ := Menu.unselect_of_valid s.m_renderer.textColor hsel
  refine ⟨m1, hu, ?_⟩
  have hne : ¬ s.m_visibleMenu = -1 := by rw [hopen]; omega
  have hget : vecGet s.m_menus (k : Int) = some m := by
    rw [vecGet_natCast]; exact hm
  unfold MenuBar.mouseLeftWidget
  simp [hne, hget, hu, hopen]

set_option maxRecDepth 100000 in
/-- C19 (fails): `mouseMoved` does not clamp an out-of-range item index.  In
`fileBarOpen`, the state of the scenario after the press on `File`, menu 0 is
open with `n = 2` items, no item is selected and `h = 20`.  The move to
`(1, 65)` has `y ≥ h + n * h = 60`; the code computes item 2, stores it and
indexes `menuItems[2]` out of range: the call has no defined result, it is not
a call after which nothing is selected.  On `fiveItemBar` (`h = 10.4f`,
`n = 5`) the point `y = 6 * h` has `y ≥ h + n * h` and is accepted by
`mouseOnWidget`, whose `float` bottom edge rounds up; there the code computes
item 5 and indexes `menuItems[5]`. -/
theorem move_below_last_item_undefined :
    fileBar.leftMousePressed exampleEnv 1 1 = some fileBarOpen ∧
      fileBarOpen.m_visibleMenu = 0 ∧
      (fileBarOpen.m_menus.map fun m => (m.menuItems.length, m.selectedMenuItem))
        = [(2, -1)] ∧
      (0 : ℚ) < fileBarOpen.height ∧
      fileBarOpen.height + 2 * fileBarOpen.height ≤ 65 ∧
      (fdiv (fsub 65 fileBarOpen.height) fileBarOpen.height).bind toInt = some 2 ∧
      fileBarOpen.mouseMoved exampleEnv 1 65 = none ∧
      fiveItemBar.m_visibleMenu = 0 ∧
      (fiveItemBar.m_menus.map fun m => (m.menuItems.length, m.selectedMenuItem))
        = [(5, -1)] ∧
      (0 : ℚ) < fiveItemBar.height ∧
      fiveItemBar.height + 5 * fiveItemBar.height ≤ 6 * fiveItemBar.height ∧
      fiveItemBar.mouseOnWidget exampleEnv 1 (6 * fiveItemBar.height) = some true ∧
      (fdiv (fsub (6 * fiveItemBar.height) fiveItemBar.height) fiveItemBar.height).bind toInt
        = some 5 ∧
      fiveItemBar.mouseMoved exampleEnv 1 (6 * fiveItemBar.height) = none := by
  with_unfolding_all decide
/-! ## C21, C22: colours and widths -/

set_option maxRecDepth 8000 in
/-- C21 (fails): the colours do not stay synchronized with the renderer.  On
the bar `File` [`Load`, `Save`] with `File` open (reached by `addMenu`,
`addMenuItem` and a press) the colours are synchronized; after the renderer
change of `textcolor` to red the menu is still open and the selected text
colour is still white, but the header of the open menu is red.  After a
renderer change of `selectedtextcolor` to red the header of the open menu
keeps the old white.  After a press on `File` and then on `Edit` both headers
have the selected text colour although only `Edit` is open. -/
theorem rendererChanged_textcolor_unsynchronized :
    fileBarOpen.colorsSynchronized = true
    ∧ (fileBarOpen.setTextColor exampleEnv ⟨true, 255, 0, 0, 255⟩).map
        (fun r => r.toOption.map fun s1 =>
          (s1.m_visibleMenu, s1.highlightColor, s1.m_menus.map (fun m => m.text.color),
            s1.colorsSynchronized))
      = some (some (0, Color.White, [⟨true, 255, 0, 0, 255⟩], false))
    ∧ (fileBarOpen.setSelectedTextColor exampleEnv ⟨true, 255, 0, 0, 255⟩).map
        (fun r => r.toOption.map fun s1 =>
          (s1.m_visibleMenu, s1.highlightColor, s1.m_menus.map (fun m => m.text.color),
            s1.colorsSynchronized))
      = some (some (0, ⟨true, 255, 0, 0, 255⟩, [Color.White], false))
    ∧ ((fileEditBar.leftMousePressed exampleEnv 1 1).bind
        (fun s1 => s1.leftMousePressed exampleEnv 60 1)).map
        (fun s2 => (s2.m_visibleMenu, s2.m_menus.map (fun m => m.text.color),
          s2.colorsSynchronized))
      = some (1, [Color.White, Color.White], false) := by
  refine ⟨?_, ?_, ?_, ?_⟩ <;> with_unfolding_all decide

/-- The hit test `mouseOnWidget` uses `hitSubMenuWidth` for the width of the
rectangle of the open submenu. -/
theorem mouseOnWidget_open (env : Env) (s : MenuBar) (x y : ℚ)
    (k : Nat) (m : Menu) (hk : s.m_visibleMenu = (k : Int)) (hm : s.m_menus[k]? = some m)
    (hout : rectContains 0 0 s.m_size.1 s.m_size.2 x y = false) :
    s.mouseOnWidget env x y
      = some (rectContains (s.leftEdge env k) s.height (s.hitSubMenuWidth env m)
          (fmul s.height (natToFloat m.menuItems.length)) x y) := by
  have hlt : k < s.m_menus.length := by
    rcases List.getElem?_eq_some_iff.mp hm with ⟨h, _⟩
    exact h
  have hne : s.m_visibleMenu ≠ -1 := by rw [hk]; omega
  have hget : vecGet s.m_menus (k : Int) = some m := by rw [vecGet_natCast]; exact hm
  unfold MenuBar.mouseOnWidget
  rw [if_neg (by simp [hout]), if_pos hne, hk, Int.toNat_ofNat,
    mouseOnWidget_left env s k (Nat.le_of_lt hlt), hget]
  rfl

set_option maxRecDepth 8000 in
/-- C22 (fails): the width that `mouseOnWidget` uses for the open submenu is
not the width that `draw` uses.  On the bar whose open menu `File` holds the
item `Open the recent file` (200 units wide, `distanceToSide = 4`, minimum
width 125) the hit test computes 212 (three paddings) and `draw` computes 208
(two paddings); the point `(210, 25)` lies right of the drawn item background
and is accepted by `mouseOnWidget`. -/
theorem hit_width_differs_from_drawn_width :
    longItemBar.m_visibleMenu = 0
    ∧ (longItemBar.m_menus[0]?).map (fun m =>
        (longItemBar.hitSubMenuWidth exampleEnv m, longItemBar.drawSubMenuWidth exampleEnv m))
      = some (212, 208)
    ∧ longItemBar.mouseOnWidget exampleEnv 210 25 = some true := by
  refine ⟨?_, ?_, ?_⟩ <;> with_unfolding_all decide
/-! ## C23-C26: `mouseNoLongerDown`, releases and renderer properties -/

set_option maxRecDepth 8000 in
/-- C24 (fails): a menu other than the open one can keep a selected item.  On
the bar `File` [`Load`, `Save`], `Edit` [`Undo`] a press on the header of
`File`, a move onto `Save` and a press on the header of `Edit` leave `Edit`
(index 1) open while `File` (index 0) keeps `selectedMenuItem = 1`; the same
step made by `mouseMoved` onto the header of `Edit` clears it. -/
theorem press_other_header_keeps_selection :
    (((fileEditBar.leftMousePressed exampleEnv 1 1).bind
        (fun s1 => s1.mouseMoved exampleEnv 1 45)).bind
        (fun s2 => s2.leftMousePressed exampleEnv 60 1)).map
        (fun s3 => (s3.m_visibleMenu, s3.m_menus.map (fun m => m.selectedMenuItem)))
      = some (1, [1, -1])
    ∧ (((fileEditBar.leftMousePressed exampleEnv 1 1).bind
        (fun s1 => s1.mouseMoved exampleEnv 1 45)).bind
        (fun s2 => s2.mouseMoved exampleEnv 60 1)).map
        (fun s3 => (s3.m_visibleMenu, s3.m_menus.map (fun m => m.selectedMenuItem)))
      = some (1, [-1, -1]) := by
  refine ⟨?_, ?_⟩ <;> with_unfolding_all decide

set_option maxRecDepth 8000 in
/-- C25. The function `leftMouseReleased` does not read its `x` argument: two
releases at the same `y` give the same result, state and signals alike.  On
`fileBarOpen` the points `(700, 45)` and `(-50, 45)` lie outside the submenu
rectangle (`mouseOnWidget` is false there), and a release at either of them
activates the item `Save`: `MenuItemClicked` is sent and the menu closes. -/
theorem leftMouseReleased_ignores_x :
    (∀ (s : MenuBar) (x1 x2 y : ℚ), s.leftMouseReleased x1 y = s.leftMouseReleased x2 y)
    ∧ fileBarOpen.mouseOnWidget exampleEnv 700 45 = some false
    ∧ fileBarOpen.mouseOnWidget exampleEnv (-50) 45 = some false
    ∧ (fileBarOpen.leftMouseReleased 700 45).map
        (fun s1 => (s1.signals, s1.m_visibleMenu))
      = some ([Signal.MenuItemClicked ⟨0, "Save"⟩ ["File", "Save"] "Save"], -1)
    ∧ (fileBarOpen.leftMouseReleased (-50) 45).map
        (fun s1 => (s1.signals, s1.m_visibleMenu))
      = some ([Signal.MenuItemClicked ⟨0, "Save"⟩ ["File", "Save"] "Save"], -1) := by
  refine ⟨fun _ _ _ _ => rfl, ?_, ?_, ?_, ?_⟩ <;> with_unfolding_all decide

/-- The branches `textcolor` and `selectedtextcolor` of `rendererChanged`
never throw. -/
theorem rendererChanged_color_no_error (env : Env) (s : MenuBar) (property : String)
    (value : ObjectConverter) (msg : String)
    (hp : property = "textcolor" ∨ property = "selectedtextcolor") :
    s.rendererChanged env property value ≠ some (Except.error msg) := by
  intro h
  rcases hp with hp | hp
  · subst hp
    simp only [MenuBar.rendererChanged, if_true] at h
    split at h
    · cases hv : vecGet (List.map (fun m =>
          ({ m with
            menuItems := recolorItems value.getColor m.selectedMenuItem m.menuItems 0
            text := m.text.setColor value.getColor } : Menu)) s.m_menus) s.m_visibleMenu with
      | none => simp [hv] at h
      | some m =>
        simp only [hv, Option.bind_eq_bind, Option.some_bind] at h
        split at h
        · cases hi : setItemColor m.menuItems m.selectedMenuItem
            s.m_renderer.selectedTextColor with
          | none => simp [hi] at h
          | some items => simp [hi] at h
        · simp at h
    · simp at h
  · subst hp
    simp only [MenuBar.rendererChanged, if_true] at h
    rw [if_neg (by decide)] at h
    split at h
    · cases hv : vecGet s.m_menus s.m_visibleMenu with
      | none => simp [hv] at h
      | some m =>
        simp only [hv, Option.bind_eq_bind, Option.some_bind] at h
        split at h
        · cases hi : setItemColor m.menuItems m.selectedMenuItem
            (if value.getColor.isSet then value.getColor else s.m_renderer.textColor) with
          | none => simp [hi] at h
          | some items => simp [hi] at h
        · simp at h
    · simp at h

/-- C26. The function `MenuBar::rendererChanged` throws exactly when the
property is none of `textcolor`, `selectedtextcolor`, `texturebackground`,
`textureitembackground`, `textureselecteditembackground`, `opacity`, `font`,
`backgroundcolor`, `selectedbackgroundcolor`, `distancetoside`; for the last
three it returns with the state unchanged; the base `Widget::rendererChanged`
throws exactly for the properties other than `opacity` and `font`. -/
theorem rendererChanged_raises_iff :
    (∀ (env : Env) (s : MenuBar) (property : String) (value : ObjectConverter),
      (∃ msg, s.rendererChanged env property value = some (Except.error msg)) ↔
        property ∉ ["textcolor", "selectedtextcolor", "texturebackground",
          "textureitembackground", "textureselecteditembackground", "opacity", "font",
          "backgroundcolor", "selectedbackgroundcolor", "distancetoside"])
    ∧ (∀ (env : Env) (s : MenuBar) (value : ObjectConverter),
      s.rendererChanged env "backgroundcolor" value = some (Except.ok s)
      ∧ s.rendererChanged env "selectedbackgroundcolor" value = some (Except.ok s)
      ∧ s.rendererChanged env "distancetoside" value = some (Except.ok s))
    ∧ (∀ widgetType property : String,
      (∃ msg, widgetRendererChanged widgetType property = Except.error msg) ↔
        (property ≠ "opacity" ∧ property ≠ "font")) := by
  refine ⟨?_, ?_, ?_⟩
  · intro env s property value
    by_cases hp : property = "textcolor" ∨ property = "selectedtextcolor"
    · constructor
      · rintro ⟨msg, h⟩
        exact absurd h (rendererChanged_color_no_error env s property value msg hp)
      · intro hn
        rcases hp with hp | hp <;> simp [hp] at hn
    · push_neg at hp
      obtain ⟨h1, h2⟩ := hp
      simp only [MenuBar.rendererChanged, if_neg h1, if_neg h2]
      by_cases h3 : property = "texturebackground" ∨ property = "textureitembackground"
          ∨ property = "textureselecteditembackground"
      · rw [if_pos h3]
        rcases h3 with h3 | h3 | h3 <;> simp [h3]
      · rw [if_neg h3]
        push_neg at h3
        obtain ⟨h3, h4, h5⟩ := h3
        by_cases h6 : property = "opacity"
        · simp [h6]
        · rw [if_neg h6]
          by_cases h7 : property = "font"
          · simp [h7]
          · rw [if_neg h7]
            by_cases h8 : property ≠ "backgroundcolor" ∧ property ≠ "selectedbackgroundcolor"
                ∧ property ≠ "distancetoside"
            · rw [if_pos h8]
              obtain ⟨h8, h9, h10⟩ := h8
              have hw : widgetRendererChanged "MenuBar" property =
                  Except.error ("Could not set property \x27" ++ property
                    ++ "\x27, widget of type \x27" ++ "MenuBar"
                    ++ "\x27 does not has this property.") := by
                simp [widgetRendererChanged, h6, h7]
              rw [hw]
              constructor
              · intro _
                simp [h1, h2, h3, h4, h5, h6, h7, h8, h9, h10]
              · intro _
                exact ⟨_, rfl⟩
            · rw [if_neg h8]
              constructor
              · rintro ⟨msg, h⟩
                simp at h
              · intro hn
                exfalso
                apply h8
                simp only [List.mem_cons, List.mem_singleton, List.not_mem_nil, not_or] at hn
                exact ⟨hn.2.2.2.2.2.2.2.1, hn.2.2.2.2.2.2.2.2.1, hn.2.2.2.2.2.2.2.2.2.1⟩
  · intro env s value
    refine ⟨?_, ?_, ?_⟩ <;> simp [MenuBar.rendererChanged]
  · intro widgetType property
    unfold widgetRendererChanged
    by_cases h : property ≠ "opacity" ∧ property ≠ "font"
    · rw [if_pos h]
      exact ⟨fun _ => h, fun _ => ⟨_, rfl⟩⟩
    · rw [if_neg h]
      constructor
      · rintro ⟨msg, hm⟩
        cases hm
      · intro h2
        exact absurd h2 h
/-! ## C27, C28: the animation list -/

/-- The loop of `addAnimation`, started behind a prefix `pre` that is already
scanned: the animations of the given type are taken out of the rest and
finished, in order. -/
theorem addAnimationLoop_eq {α τ : Type} [DecidableEq τ] (getType : α → τ) (type : τ) :
    ∀ (rest pre finished : List α),
      addAnimationLoop getType type (pre ++ rest) pre.length finished =
        (pre ++ rest.filter (fun b => getType b ≠ type),
          finished ++ rest.filter (fun b => getType b = type)) := by
  intro rest
  induction rest with
  | nil =>
    intro pre finished
    unfold addAnimationLoop
    simp
  | cons a r ih =>
    intro pre finished
    unfold addAnimationLoop
    have hlt : pre.length < (pre ++ a :: r).length := by simp
    have hget : (pre ++ a :: r).get ⟨pre.length, hlt⟩ = a := by
      simp only [List.get_eq_getElem]
      rw [List.getElem_append_right (le_refl _)]
      simp
    rw [dif_pos hlt, hget]
    by_cases hty : getType a = type
    · rw [if_pos hty]
      have herase : (pre ++ a :: r).eraseIdx pre.length = pre ++ r := by
        rw [List.eraseIdx_append_of_length_le (le_refl _)]
        simp
      rw [herase, ih pre (finished ++ [a])]
      simp [hty]
    · rw [if_neg hty]
      have hsplit : pre ++ a :: r = (pre ++ [a]) ++ r := by simp
      have hlen : pre.length + 1 = (pre ++ [a]).length := by simp
      rw [hsplit, hlen, ih (pre ++ [a]) finished]
      simp [hty]

/-- C27. The function `addAnimation` returns (the recursion is well founded);
called with the list `L` and the animation `a` it leaves `L` without the
animations of the type of `a`, in their old order, followed by `a`, so `a` is
the only animation of its type in the result; `finish()` is called once on each
removed animation, in list order, and on no other. -/
theorem addAnimation_spec {α τ : Type} [DecidableEq τ] (getType : α → τ)
    (L : List α) (a : α) :
    addAnimation getType L a =
      (L.filter (fun b => getType b ≠ getType a) ++ [a],
        L.filter (fun b => getType b = getType a))
    ∧ (addAnimation getType L a).1.filter (fun b => getType b = getType a) = [a] := by
  have h := addAnimationLoop_eq getType (getType a) L [] []
  simp only [List.nil_append, List.length_nil] at h
  have heq : addAnimation getType L a =
      (L.filter (fun b => getType b ≠ getType a) ++ [a],
        L.filter (fun b => getType b = getType a)) := by
    unfold addAnimation
    rw [h]
  refine ⟨heq, ?_⟩
  rw [heq]
  simp only [List.filter_append, List.filter_filter]
  simp

/-- The loop of `Widget::update`, started behind a prefix `pre` that is already
scanned: `update` is called on every animation of the rest, in order, and the
animations whose call returned true are taken out. -/
theorem updateLoop_eq {α : Type} (update : α → Int → Bool × α) (elapsedTime : Int) :
    ∀ (rest pre calls : List α),
      updateLoop update elapsedTime (pre ++ rest) pre.length calls =
        (pre ++ (rest.filter (fun a => !(update a elapsedTime).1)).map
            (fun a => (update a elapsedTime).2),
          calls ++ rest) := by
  intro rest
  induction rest with
  | nil =>
    intro pre calls
    unfold updateLoop
    simp
  | cons a r ih =>
    intro pre calls
    unfold updateLoop
    have hlt : pre.length < (pre ++ a :: r).length := by simp
    have hget : (pre ++ a :: r).get ⟨pre.length, hlt⟩ = a := by
      simp only [List.get_eq_getElem]
      rw [List.getElem_append_right (le_refl _)]
      simp
    rw [dif_pos hlt, hget]
    cases hflag : (update a elapsedTime).1 with
    | true =>
      rw [if_pos rfl]
      have herase : (pre ++ a :: r).eraseIdx pre.length = pre ++ r := by
        rw [List.eraseIdx_append_of_length_le (le_refl _)]
        simp
      rw [herase, ih pre (calls ++ [a])]
      simp [hflag]
    | false =>
      rw [if_neg (by simp)]
      have hset : (pre ++ a :: r).set pre.length (update a elapsedTime).2 =
          (pre ++ [(update a elapsedTime).2]) ++ r := by
        rw [List.set_append_right _ _ (le_refl _)]
        simp
      have hlen : pre.length + 1 = (pre ++ [(update a elapsedTime).2]).length := by simp
      rw [hset, hlen, ih (pre ++ [(update a elapsedTime).2]) (calls ++ [a])]
      simp [hflag]

/-- C28. The function `Widget::update` returns (the recursion is well founded);
it calls `update(elapsedTime)` once on each animation of the list at entry, in
list order; the list it leaves holds exactly the animations whose call
returned false, as the call left them and in their old order; the member
`m_animationTimeElapsed` grows by `elapsedTime`, and no other modelled member
changes. -/
theorem widget_update_spec {α : Type} (update : α → Int → Bool × α) (w : Widget α)
    (elapsedTime : Int) :
    (w.update update elapsedTime).2 = w.m_showAnimations
    ∧ (w.update update elapsedTime).1.m_showAnimations =
      (w.m_showAnimations.filter (fun a => !(update a elapsedTime).1)).map
        (fun a => (update a elapsedTime).2)
    ∧ (w.update update elapsedTime).1.m_animationTimeElapsed =
      w.m_animationTimeElapsed + elapsedTime
    ∧ { (w.update update elapsedTime).1 with
        m_animationTimeElapsed := w.m_animationTimeElapsed
        m_showAnimations := w.m_showAnimations } = w := by
  have h := updateLoop_eq update elapsedTime w.m_showAnimations [] []
  simp only [List.nil_append, List.length_nil] at h
  unfold Widget.update
  rw [h]
  exact ⟨rfl, rfl, rfl, rfl⟩
/-! ## C29: `MouseEntered` and `MouseLeft` of a base widget -/

theorem endsEntered_append (l l2 : List Signal) :
    ∀ p, endsEntered p (l ++ l2) = endsEntered (endsEntered p l) l2 := by
  induction l with
  | nil => intro p; rfl
  | cons a r ih =>
    intro p
    cases a <;> simp [endsEntered, ih]

theorem leftFollowsEnteredFrom_append (l l2 : List Signal) :
    ∀ p, leftFollowsEnteredFrom p (l ++ l2) =
      (leftFollowsEnteredFrom p l && leftFollowsEnteredFrom (endsEntered p l) l2) := by
  induction l with
  | nil => intro p; simp [leftFollowsEnteredFrom, endsEntered]
  | cons a r ih =>
    intro p
    cases a <;> simp [leftFollowsEnteredFrom, endsEntered, ih, Bool.and_assoc]

theorem alternatesFrom_append (l l2 : List Signal) :
    ∀ e, alternatesFrom e (l ++ l2) =
      (alternatesFrom e l && alternatesFrom (!endsEntered (!e) l) l2) := by
  induction l with
  | nil => intro e; simp [alternatesFrom, endsEntered]
  | cons a r ih =>
    intro e
    cases a <;> simp [alternatesFrom, endsEntered, ih, Bool.and_assoc]

theorem mouseSignals_entered (r : List Signal) :
    mouseSignals (Signal.MouseEntered :: r) = Signal.MouseEntered :: mouseSignals r := by
  simp [mouseSignals]

theorem mouseSignals_left (r : List Signal) :
    mouseSignals (Signal.MouseLeft :: r) = Signal.MouseLeft :: mouseSignals r := by
  simp [mouseSignals]

theorem mouseSignals_clicked (c : Callback) (l : List String) (i : String) (r : List Signal) :
    mouseSignals (Signal.MenuItemClicked c l i :: r) = mouseSignals r := by
  simp [mouseSignals]

theorem endsEntered_mouseSignals (l : List Signal) :
    ∀ p, endsEntered p (mouseSignals l) = endsEntered p l := by
  induction l with
  | nil => intro p; rfl
  | cons a r ih =>
    intro p
    cases a with
    | MenuItemClicked c l i => rw [mouseSignals_clicked]; simp only [endsEntered, ih]
    | MouseEntered => rw [mouseSignals_entered]; simp only [endsEntered, ih]
    | MouseLeft => rw [mouseSignals_left]; simp only [endsEntered, ih]

theorem leftFollowsEnteredFrom_mouseSignals (l : List Signal) :
    ∀ p, leftFollowsEnteredFrom p (mouseSignals l) = leftFollowsEnteredFrom p l := by
  induction l with
  | nil => intro p; rfl
  | cons a r ih =>
    intro p
    cases a with
    | MenuItemClicked c l i =>
      rw [mouseSignals_clicked]; simp only [leftFollowsEnteredFrom, ih]
    | MouseEntered => rw [mouseSignals_entered]; simp only [leftFollowsEnteredFrom, ih]
    | MouseLeft => rw [mouseSignals_left]; simp only [leftFollowsEnteredFrom, ih]

/-- The hover invariant of a base widget: every `MouseLeft` sent so far comes
directly after a `MouseEntered`, and while the widget is hovered the last
mouse signal is `MouseEntered`. -/
theorem widget_call_hover {α : Type} (unfocusWidgets : Widget α → Widget α)
    (hframe : ∀ w, (unfocusWidgets w).m_mouseHover = w.m_mouseHover ∧
      mouseSignals (unfocusWidgets w).signals = mouseSignals w.signals)
    (w : Widget α) (c : WidgetCall)
    (h1 : leftFollowsEnteredFrom false w.signals = true)
    (h2 : w.m_mouseHover = true → endsEntered false w.signals = true) :
    leftFollowsEnteredFrom false (w.call unfocusWidgets c).signals = true ∧
      ((w.call unfocusWidgets c).m_mouseHover = true →
        endsEntered false (w.call unfocusWidgets c).signals = true) := by
  cases c with
  | mouseMoved =>
    cases hh : w.m_mouseHover with
    | true =>
      simp only [Widget.call, Widget.mouseMoved, hh]
      exact ⟨h1, fun _ => h2 hh⟩
    | false =>
      simp [Widget.call, Widget.mouseMoved, hh, Widget.mouseEnteredWidget,
        leftFollowsEnteredFrom_append, endsEntered_append, h1, leftFollowsEnteredFrom,
        endsEntered]
  | mouseNoLongerOnWidget =>
    cases hh : w.m_mouseHover with
    | true =>
      simp [Widget.call, Widget.mouseNoLongerOnWidget, hh, Widget.mouseLeftWidget,
        leftFollowsEnteredFrom_append, h1, leftFollowsEnteredFrom, h2 hh]
    | false =>
      simp [Widget.call, Widget.mouseNoLongerOnWidget, hh, h1]
  | enable =>
    simp only [Widget.call, Widget.enable]
    exact ⟨h1, h2⟩
  | disable b =>
    simp only [Widget.call, Widget.disable, Widget.unfocus]
    split
    · obtain ⟨hf1, hf2⟩ := hframe
        { w with
          m_enabled := false
          m_disabledBlockingMouseEvents := b
          m_mouseHover := false
          m_mouseDown := false }
      refine ⟨?_, ?_⟩
      · rw [← leftFollowsEnteredFrom_mouseSignals, hf2, leftFollowsEnteredFrom_mouseSignals]
        exact h1
      · intro hh
        rw [hf1] at hh
        cases hh
    · exact ⟨h1, fun hh => Bool.noConfusion hh⟩

/-- Without a call of `disable` the mouse signals sent so far strictly
alternate, and the widget is hovered exactly when the last one is
`MouseEntered`. -/
theorem widget_call_strict {α : Type} (unfocusWidgets : Widget α → Widget α)
    (w : Widget α) (c : WidgetCall) (hc : c.isDisable = false)
    (h1 : alternatesFrom true w.signals = true)
    (h2 : endsEntered false w.signals = w.m_mouseHover) :
    alternatesFrom true (w.call unfocusWidgets c).signals = true ∧
      endsEntered false (w.call unfocusWidgets c).signals =
        (w.call unfocusWidgets c).m_mouseHover := by
  cases c with
  | mouseMoved =>
    cases hh : w.m_mouseHover with
    | true =>
      simp [Widget.call, Widget.mouseMoved, hh, h1, h2]
    | false =>
      rw [hh] at h2
      simp [Widget.call, Widget.mouseMoved, hh, Widget.mouseEnteredWidget,
        alternatesFrom_append, endsEntered_append, h1, h2, alternatesFrom, endsEntered]
  | mouseNoLongerOnWidget =>
    cases hh : w.m_mouseHover with
    | true =>
      rw [hh] at h2
      simp [Widget.call, Widget.mouseNoLongerOnWidget, hh, Widget.mouseLeftWidget,
        alternatesFrom_append, endsEntered_append, h1, h2, alternatesFrom, endsEntered]
    | false =>
      rw [hh] at h2
      simp [Widget.call, Widget.mouseNoLongerOnWidget, hh, h1, h2]
  | enable =>
    simp only [Widget.call, Widget.enable]
    exact ⟨h1, h2⟩
  | disable b => simp [WidgetCall.isDisable] at hc

theorem widget_run_hover {α : Type} (unfocusWidgets : Widget α → Widget α)
    (hframe : ∀ w, (unfocusWidgets w).m_mouseHover = w.m_mouseHover ∧
      mouseSignals (unfocusWidgets w).signals = mouseSignals w.signals) :
    ∀ (calls : List WidgetCall) (w : Widget α),
      leftFollowsEnteredFrom false w.signals = true →
      (w.m_mouseHover = true → endsEntered false w.signals = true) →
      leftFollowsEnteredFrom false (w.run unfocusWidgets calls).signals = true := by
  intro calls
  induction calls with
  | nil => intro w h1 _; exact h1
  | cons c cs ih =>
    intro w h1 h2
    obtain ⟨h3, h4⟩ := widget_call_hover unfocusWidgets hframe w c h1 h2
    exact ih (w.call unfocusWidgets c) h3 h4

theorem widget_run_strict {α : Type} (unfocusWidgets : Widget α → Widget α) :
    ∀ (calls : List WidgetCall) (w : Widget α),
      calls.any WidgetCall.isDisable = false →
      alternatesFrom true w.signals = true →
      endsEntered false w.signals = w.m_mouseHover →
      alternatesFrom true (w.run unfocusWidgets calls).signals = true := by
  intro calls
  induction calls with
  | nil => intro w _ h1 _; exact h1
  | cons c cs ih =>
    intro w hd h1 h2
    simp only [List.any_cons, Bool.or_eq_false_iff] at hd
    obtain ⟨h3, h4⟩ := widget_call_strict unfocusWidgets w c hd.1 h1 h2
    exact ih (w.call unfocusWidgets c) hd.2 h3 h4

/-- C29 (fails as stated): `disable` clears the hover flag without sending
`MouseLeft`, so the next `mouseMoved` sends a second `MouseEntered`.  On a
widget that is not hovered the calls `mouseMoved`, `disable`, `enable`,
`mouseMoved` send `MouseEntered` twice in a row. -/
theorem disable_breaks_alternation :
    (plainWidget.run id
        [WidgetCall.mouseMoved, WidgetCall.disable true, WidgetCall.enable,
          WidgetCall.mouseMoved]).signals
      = [Signal.MouseEntered, Signal.MouseEntered]
    ∧ strictlyAlternates (plainWidget.run id
        [WidgetCall.mouseMoved, WidgetCall.disable true, WidgetCall.enable,
          WidgetCall.mouseMoved]).signals = false := by
  refine ⟨?_, ?_⟩ <;> decide

/-- C29, amended.  Let `m_parent->unfocusWidgets()` leave the hover flag and
the mouse signals of the widget alone.  In every sequence of calls of
`mouseMoved`, `mouseNoLongerOnWidget`, `enable` and `disable` on a base widget
that starts not hovered and without signals, every `MouseLeft` comes directly
after a `MouseEntered` (so the first mouse signal is `MouseEntered` and no two
`MouseLeft` follow each other); when the sequence holds no call of `disable`,
the two signals strictly alternate, starting with `MouseEntered`. -/
theorem widget_hover_signals {α : Type} (unfocusWidgets : Widget α → Widget α)
    (hframe : ∀ w, (unfocusWidgets w).m_mouseHover = w.m_mouseHover ∧
      mouseSignals (unfocusWidgets w).signals = mouseSignals w.signals)
    (w : Widget α) (hhover : w.m_mouseHover = false) (hsig : w.signals = [])
    (calls : List WidgetCall) :
    leftFollowsEnteredFrom false (w.run unfocusWidgets calls).signals = true
    ∧ (calls.any WidgetCall.isDisable = false →
      strictlyAlternates (w.run unfocusWidgets calls).signals = true) := by
  refine ⟨?_, ?_⟩
  · apply widget_run_hover unfocusWidgets hframe calls w
    · rw [hsig]; rfl
    · intro h; rw [hhover] at h; cases h
  · intro hd
    unfold strictlyAlternates
    apply widget_run_strict unfocusWidgets calls w hd
    · rw [hsig]; rfl
    · rw [hsig, hhover]; rfl

/-- Witness of C29: the calls `mouseMoved`, `mouseMoved`,
`mouseNoLongerOnWidget`, `enable`, `mouseMoved` on `plainWidget`, with a parent
whose `unfocusWidgets` clears the focus flag. -/
theorem widget_hover_signals_witness :
    leftFollowsEnteredFrom false
        (plainWidget.run (fun w => { w with m_focused := false })
          [WidgetCall.mouseMoved, WidgetCall.mouseMoved, WidgetCall.mouseNoLongerOnWidget,
            WidgetCall.enable, WidgetCall.mouseMoved]).signals = true
    ∧ (List.any [WidgetCall.mouseMoved, WidgetCall.mouseMoved,
          WidgetCall.mouseNoLongerOnWidget, WidgetCall.enable, WidgetCall.mouseMoved]
        WidgetCall.isDisable = false →
      strictlyAlternates
        (plainWidget.run (fun w => { w with m_focused := false })
          [WidgetCall.mouseMoved, WidgetCall.mouseMoved, WidgetCall.mouseNoLongerOnWidget,
            WidgetCall.enable, WidgetCall.mouseMoved]).signals = true) :=
  widget_hover_signals (fun w => { w with m_focused := false }) (fun _ => ⟨rfl, rfl⟩)
    plainWidget rfl rfl
    [WidgetCall.mouseMoved, WidgetCall.mouseMoved, WidgetCall.mouseNoLongerOnWidget,
      WidgetCall.enable, WidgetCall.mouseMoved]

end TGUI
